import Mathlib

/-!
Verification development for the order-statistics skip list in
`src/BST/SkipListMinimalist.js` (the same class also appears, with its test
harness, in the second source file).

The JavaScript code is a mutable multi-level linked structure.  We embed it
shallowly: a skip-list state is the list of its levels (topmost level first,
matching the top-to-bottom processing order of `_findInsertPath`), each level
being the head sentinel's span together with the list of real nodes of that
level in left-to-right order.  The per-level tail sentinel of the source
always has key `null`, data `null` and span `0` and is never moved, so it is
represented implicitly by the end of the node list.  The `levelsCount` field
of the source is always equal to the number of levels (both are updated in
lock step by the constructor and `_addLevelsAccordingToNewLevelsCount`), so
the embedding uses `levels.length` for it.  The `down` pointer of a node at
an upper level always points to the node with the same key one level below
(the constructor links the head chain, `insert` links each fresh tower with
`lastNode.down = insertedNode`, and `delete` removes whole towers), so a
descent through a `down` pointer is embedded as locating the same key in the
next level (`startPos`); likewise the head's `down` is the head below.
Keys and payloads are embedded as `Int` (the source uses dynamically typed
keys with `<` and `===`); the JavaScript `null` of an optional payload is
`Option.none`.  Ranks and spans are `Int`, as in the source, where spans can
be driven negative by deleting absent keys.
-/

/-- Node of one level: key, payload (`none` is the JavaScript `null`, carried
by every upper-level routing node), and the span of the edge to its right
neighbour, as in `SkipListNode` of the source (minus the two pointers, which
are represented by list adjacency and by key lookup). -/
structure SLNode where
  key : Int
  data : Option Int
  span : Int
deriving DecidableEq, Repr

/-- One level of the skip list: the head sentinel's span and the real nodes
of the level from left to right.  The tail sentinel is implicit. -/
structure SLevel where
  headSpan : Int
  nodes : List SLNode
deriving DecidableEq, Repr

/-- The skip list state: levels topmost first, and the `itemsCount` field.
`levelsCount` of the source is `levels.length`. -/
structure SkipList where
  levels : List SLevel
  itemsCount : Int
deriving DecidableEq, Repr

/-- State built by the `SkipList` constructor: one level whose head has
span `1` and no real nodes, `itemsCount = 0`. -/
def SkipList.empty : SkipList :=
  { levels := [{ headSpan := 1, nodes := [] }], itemsCount := 0 }

/-- Modify the element at an index of a list (identity when out of range). -/
def modIdx (f : SLNode → SLNode) : List SLNode → Nat → List SLNode
  | [], _ => []
  | n :: tl, 0 => f n :: tl
  | n :: tl, i + 1 => n :: modIdx f tl i

/-- Remove the element at an index of a list (identity when out of range). -/
def remIdx : List SLNode → Nat → List SLNode
  | [], _ => []
  | _ :: tl, 0 => tl
  | n :: tl, i + 1 => n :: remIdx tl i

/-- Insert an element at an index of a list. -/
def insIdx (x : SLNode) : List SLNode → Nat → List SLNode
  | l, 0 => x :: l
  | [], _ + 1 => [x]
  | n :: tl, i + 1 => n :: insIdx x tl i

/-- Span of the node at a position of a level, where position `0` is the
head sentinel and position `i + 1` is the `i`-th real node. -/
def spanAt (lvl : SLevel) (pos : Nat) : Int :=
  if pos = 0 then lvl.headSpan
  else match lvl.nodes[pos - 1]? with
    | some n => n.span
    | none => 0

/-- Key of the node at a position of a level (`none` for the head). -/
def keyAt (lvl : SLevel) (pos : Nat) : Option Int :=
  if pos = 0 then none else (lvl.nodes[pos - 1]?).map (·.key)

/-- Index of the first node carrying a key in a node list (list length when
absent). -/
def idxOfKey (k : Int) : List SLNode → Nat
  | [] => 0
  | n :: tl => if n.key = k then 0 else idxOfKey k tl + 1

/-- Embedding of following a `down` pointer: the position, in the next
level, of the node the descent lands on.  Descending from a head lands on
the head below; descending from the node with key `k` lands on the node
with key `k` one level below. -/
def startPos : Option Int → List SLNode → Nat
  | none, _ => 0
  | some k, ns => idxOfKey k ns + 1

/-- Rightward walk of `_findPath` within one level: starting just after the
node with span `curSpan` at position `pos` with accumulated rank `rank`,
while the right neighbour is a real node with key below the target, add the
current node's span to the rank and step right.  Returns the position of
the approach point and the accumulated rank there. -/
def walkRight (key : Int) : List SLNode → Int → Nat → Int → Nat × Int
  | [], _, pos, rank => (pos, rank)
  | n :: tl, curSpan, pos, rank =>
    if n.key < key then walkRight key tl n.span (pos + 1) (rank + curSpan)
    else (pos, rank)

/-- Embedding of `_findInsertPath` (the per-level projection of `_findPath`):
one `(position, rank)` approach point per level, topmost level first.  The
descent enters each level at the node with the key the level above stopped
at (`startPos`), walks right, records the approach point, and carries the
approach key and rank down. -/
def findInsertPath (key : Int) : List SLevel → Option Int → Int → List (Nat × Int)
  | [], _, _ => []
  | lvl :: lower, startKey, rank =>
    let p0 := startPos startKey lvl.nodes
    let pr := walkRight key (lvl.nodes.drop p0) (spanAt lvl p0) p0 rank
    pr :: findInsertPath key lower (keyAt lvl pr.1) pr.2

/-- Embedding of `SkipList.find`: run the descent, and if the bottom
approach point's right neighbour carries the key, return its data. -/
def SkipList.find (sl : SkipList) (key : Int) : Option Int :=
  match sl.levels.getLast?, (findInsertPath key sl.levels none (-1)).getLast? with
  | some lvl, some pr =>
    match lvl.nodes[pr.1]? with
    | some n => if n.key = key then n.data else none
    | none => none
  | _, _ => none

/-- Embedding of `SkipList.findRankOfKey`: run the descent, and if the
bottom approach point's right neighbour carries the key, return the bottom
accumulated rank plus one. -/
def SkipList.findRankOfKey (sl : SkipList) (key : Int) : Option Int :=
  match sl.levels.getLast?, (findInsertPath key sl.levels none (-1)).getLast? with
  | some lvl, some pr =>
    match lvl.nodes[pr.1]? with
    | some n => if n.key = key then some (pr.2 + 1) else none
    | none => none
  | _, _ => none

/-- Data of the right neighbour of the node at a position (`none` when the
right neighbour is the tail, where `findByRank` of the source returns with
no value). -/
def answerAt (lvl : SLevel) (pos : Nat) : Option Int :=
  match lvl.nodes[pos]? with
  | some n => n.data
  | none => none

/-- Rightward run of `findByRank` within one level: while the loop guard
`rankCounter < rank` holds and stepping right would not overshoot
(`rankCounter + span < rank`) and the right neighbour is a real node, add
the current span and step right. -/
def byRankRun (rank : Int) : List SLNode → Int → Int → Nat → Nat × Int
  | [], _, rc, pos => (pos, rc)
  | n :: tl, curSpan, rc, pos =>
    if rc < rank ∧ rc + curSpan < rank then byRankRun rank tl n.span (rc + curSpan) (pos + 1)
    else (pos, rc)

/-- Level-by-level part of `findByRank`: at each level run rightward, then
descend while the loop guard still holds and a level below exists;
afterwards report the right neighbour's data. -/
def byRankLevels (rank : Int) : List SLevel → Option Int → Int → Option Int
  | [], _, _ => none
  | lvl :: lower, startKey, rc =>
    let p0 := startPos startKey lvl.nodes
    if rc < rank then
      let pr := byRankRun rank (lvl.nodes.drop p0) (spanAt lvl p0) rc p0
      if pr.2 < rank then
        match lower with
        | [] => answerAt lvl pr.1
        | _ :: _ => byRankLevels rank lower (keyAt lvl pr.1) pr.2
      else answerAt lvl pr.1
    else answerAt lvl p0

/-- Embedding of `SkipList.findByRank`: walk from the top head with rank
counter `-1`. -/
def SkipList.findByRank (sl : SkipList) (rank : Int) : Option Int :=
  byRankLevels rank sl.levels none (-1)

/-- Embedding of `SkipList._addLevelsAccordingToNewLevelsCount`: when the
drawn level count exceeds the current one, prepend that many fresh empty
levels, each with head span `itemsCount + 1`. -/
def SkipList.addLevels (sl : SkipList) (newLevelsCount : Nat) : SkipList :=
  if newLevelsCount ≤ sl.levels.length then sl
  else
    { sl with
      levels :=
        List.replicate (newLevelsCount - sl.levels.length)
          { headSpan := sl.itemsCount + 1, nodes := [] } ++ sl.levels }

/-- Add or subtract `d` from the span of the node at a position of a level
(the `pathElement.node.span` updates of `insert` and `delete`). -/
def bumpSpanAt (lvl : SLevel) (pos : Nat) (d : Int) : SLevel :=
  if pos = 0 then { lvl with headSpan := lvl.headSpan + d }
  else { lvl with nodes := modIdx (fun n => { n with span := n.span + d }) lvl.nodes (pos - 1) }

/-- Link a new node in right after the approach point at a position, and
shrink the approach point's span to `old + 1 - newNode.span`, as in the
tower-building branch of `insert`. -/
def insertAt (lvl : SLevel) (pos : Nat) (nn : SLNode) : SLevel :=
  if pos = 0 then
    { headSpan := lvl.headSpan + 1 - nn.span, nodes := nn :: lvl.nodes }
  else
    { headSpan := lvl.headSpan,
      nodes :=
        insIdx nn (modIdx (fun n => { n with span := n.span + 1 - nn.span }) lvl.nodes (pos - 1)) pos }

/-- Splice the node at position `pos` (the approach point's right
neighbour, with span `rspan`) out of a level, merging its span into the
approach point's as `old + rspan - 1`, as in the matching branch of
`delete`. -/
def spliceAt (lvl : SLevel) (pos : Nat) (rspan : Int) : SLevel :=
  if pos = 0 then
    { headSpan := lvl.headSpan + rspan - 1, nodes := remIdx lvl.nodes 0 }
  else
    { headSpan := lvl.headSpan,
      nodes :=
        remIdx (modIdx (fun n => { n with span := n.span + rspan - 1 }) lvl.nodes (pos - 1)) pos }

/-- Per-level body of the `forEach` of `insert`, topmost level first:
`lvlIdx` is the source's `pathElement.level` (bottom is `0`).  Levels below
the drawn height receive a new node whose span is
`(approach span + 1) - (insertingAtRank - approach rank)`; levels at or
above it only get their approach span incremented. -/
def insertStep (key d : Int) (iar : Int) (h : Nat) :
    List SLevel → List (Nat × Int) → Nat → List SLevel
  | [], _, _ => []
  | lvls, [], _ => lvls
  | lvl :: lower, pr :: ps, lvlIdx =>
    let lvl' :=
      if lvlIdx < h then
        insertAt lvl pr.1
          { key := key
            data := if lvlIdx = 0 then some d else none
            span := spanAt lvl pr.1 + 1 - (iar - pr.2) }
      else bumpSpanAt lvl pr.1 1
    lvl' :: insertStep key d iar h lower ps (lvlIdx - 1)

/-- Right neighbour's key at the bottom approach point (`none` when it is
the tail), used for the replace test of `insert`. -/
def bottomRightKey (levels : List SLevel) (path : List (Nat × Int)) : Option Int :=
  match levels.getLast?, path.getLast? with
  | some lvl, some pr => (lvl.nodes[pr.1]?).map (·.key)
  | _, _ => none

/-- Map a function over the last element of a list. -/
def mapLast (f : SLevel → SLevel) : List SLevel → List SLevel
  | [] => []
  | [l] => [f l]
  | l :: tl => l :: mapLast f tl

/-- Embedding of `SkipList.insert`, with the drawn random level count `h`
made an explicit argument.  Levels are grown first, then the descent runs;
if the bottom approach point's right neighbour already carries the key its
payload is overwritten in place, otherwise a tower of height `h` is linked
in and `itemsCount` is incremented. -/
def SkipList.insert (sl : SkipList) (key d : Int) (h : Nat) : SkipList :=
  let sl1 := sl.addLevels h
  let path := findInsertPath key sl1.levels none (-1)
  match path.getLast? with
  | none => sl1
  | some bpr =>
    if bottomRightKey sl1.levels path = some key then
      { sl1 with
        levels :=
          mapLast (fun lvl => { lvl with nodes := modIdx (fun n => { n with data := some d }) lvl.nodes bpr.1 })
            sl1.levels }
    else
      { levels := insertStep key d (bpr.2 + 1) h sl1.levels path (sl1.levels.length - 1)
        itemsCount := sl1.itemsCount + 1 }

/-- Per-level body of the `forEach` of `delete`, topmost level first: if
the approach point's right neighbour carries the key, splice it out,
otherwise decrement the approach point's span. -/
def deleteStep (key : Int) : List SLevel → List (Nat × Int) → List SLevel
  | [], _ => []
  | lvls, [] => lvls
  | lvl :: lower, pr :: ps =>
    (match lvl.nodes[pr.1]? with
     | some right =>
       if right.key = key then spliceAt lvl pr.1 right.span
       else bumpSpanAt lvl pr.1 (-1)
     | none => bumpSpanAt lvl pr.1 (-1)) :: deleteStep key lower ps

/-- Embedding of `SkipList.delete`: run the descent and apply the per-level
splice-or-decrement pass.  The source never touches `itemsCount` here. -/
def SkipList.delete (sl : SkipList) (key : Int) : SkipList :=
  { sl with levels := deleteStep key sl.levels (findInsertPath key sl.levels none (-1)) }

/-- Embedding of `SkipList._randomLevel` over an explicit list of coin-flip
outcomes (`true` is `Math.random() >= 0.5`; an exhausted list behaves as a
failed flip): starting from `1`, increment while `level <= 32` and the
flip succeeds. -/
def randomLevelAux (level : Nat) : List Bool → Nat
  | [] => level
  | f :: rest => if level ≤ 32 then (if f then randomLevelAux (level + 1) rest else level) else level

/-- Tower height drawn by `_randomLevel` for a sequence of coin flips. -/
def randomLevel (flips : List Bool) : Nat :=
  randomLevelAux 1 flips

/-! ## Abstract model: sorted association list of (key, payload) -/

/-- Insert-or-replace into a key-sorted association list. -/
def insKV (k d : Int) : List (Int × Int) → List (Int × Int)
  | [] => [(k, d)]
  | (a, b) :: tl =>
    if k < a then (k, d) :: (a, b) :: tl
    else if k = a then (k, d) :: tl
    else (a, b) :: insKV k d tl

/-- Remove a key from an association list. -/
def delKV (k : Int) : List (Int × Int) → List (Int × Int)
  | [] => []
  | (a, b) :: tl => if k = a then tl else (a, b) :: delKV k tl

/-- Lookup in an association list. -/
def lookupKV (k : Int) : List (Int × Int) → Option Int
  | [] => none
  | (a, b) :: tl => if k = a then some b else lookupKV k tl

/-- Keys of an association list. -/
def keysKV (M : List (Int × Int)) : List Int := M.map (·.1)

/-- Public operations of the index: `insert` (with the drawn tower height
made explicit) and `delete`. -/
inductive Op where
  | ins (key d : Int) (h : Nat)
  | del (key : Int)
deriving DecidableEq, Repr

/-- Apply one public operation to a skip list. -/
def applyOp (sl : SkipList) : Op → SkipList
  | .ins k d h => sl.insert k d h
  | .del k => sl.delete k

/-- Run a sequence of public operations from the freshly constructed list. -/
def runOps (ops : List Op) : SkipList := ops.foldl applyOp SkipList.empty

/-- Apply one public operation to the abstract association list. -/
def applyKV (M : List (Int × Int)) : Op → List (Int × Int)
  | .ins k d _ => insKV k d M
  | .del k => delKV k M

/-- Abstract contents after a sequence of public operations. -/
def modelOf (ops : List Op) : List (Int × Int) := ops.foldl applyKV []

/-- Heights drawn for insertions are at least `1`, as `_randomLevel`
guarantees.  Deletions are unrestricted. -/
def HValid : List Op → Prop
  | [] => True
  | .ins _ _ h :: rest => 1 ≤ h ∧ HValid rest
  | .del _ :: rest => HValid rest

/-- Operation sequence validity from abstract contents `M`: insertion
heights are at least `1` and every deletion targets a then-present key
(no span drift). -/
def ValidFrom : List (Int × Int) → List Op → Prop
  | _, [] => True
  | M, .ins k d h :: rest => 1 ≤ h ∧ ValidFrom (insKV k d M) rest
  | M, .del k :: rest => k ∈ keysKV M ∧ ValidFrom (delKV k M) rest

/-- Sum of the spans along a full left-to-right traversal of a level,
head sentinel included (the implicit tail has span `0`). -/
def levelTotal (lvl : SLevel) : Int := lvl.headSpan + (lvl.nodes.map (·.span)).sum

/-! ## Invariants of reachable states -/

/-- Number of keys of `B` strictly below `k`; for a sorted duplicate-free
`B` and `k ∈ B` this is the 0-based rank of `k`. -/
def posIn (B : List Int) (k : Int) : Int := (B.countP (fun b => decide (b < k)) : Int)

/-- Rank value attached to an optional approach key: `-1` at a head
sentinel, the bottom position of the key otherwise. -/
def pkey (B : List Int) : Option Int → Int
  | none => -1
  | some a => posIn B a

/-- Number of nodes of a level with key strictly below the target: the
position of the approach point of the descent at that level. -/
def countLt (x : Int) (ns : List SLNode) : Nat := ns.countP (fun n => decide (n.key < x))

/-- Key of the rightmost node with key strictly below the target (the
accumulator is the key the walk entered the level with). -/
def lastKeyLt (x : Int) : List SLNode → Option Int → Option Int
  | [], acc => acc
  | n :: tl, acc => if n.key < x then lastKeyLt x tl (some n.key) else acc

/-- Intended approach point of the descent at one level: its position and
the rank accumulated on arrival. -/
def specPE (B : List Int) (x : Int) (lvl : SLevel) : Nat × Int :=
  (countLt x lvl.nodes, pkey B (lastKeyLt x lvl.nodes none))

/-- Span law of a level relative to the bottom key list `B`, walking the
level from the node with bottom position `cur` and span `curSpan`: every
edge between real nodes (and from the head) spans exactly the bottom
positions it skips, and the final edge to the tail spans at least the
remaining positions (`strict` forces equality, which holds at the bottom
level; upper levels can carry extra tail slack because
`_addLevelsAccordingToNewLevelsCount` seeds new heads from the stale
`itemsCount`). -/
def spanLaw (B : List Int) (strict : Bool) : Int → Int → List SLNode → Prop
  | cur, curSpan, [] => if strict then curSpan = (B.length : Int) - cur else (B.length : Int) - cur ≤ curSpan
  | cur, curSpan, n :: tl => curSpan = posIn B n.key - cur ∧ spanLaw B strict (posIn B n.key) n.span tl

/-- Nodes of a level are in strictly increasing key order. -/
def nodesSorted (ns : List SLNode) : Prop := ns.Pairwise (fun a b => a.key < b.key)

/-- Keys of a node list. -/
def keysOf (ns : List SLNode) : List Int := ns.map (·.key)

/-- Key and payload parts of a node list. -/
def levelKD (ns : List SLNode) : List (Int × Option Int) := ns.map (fun n => (n.key, n.data))

/-- Structural well-formedness of an upper (routing) level: sorted keys,
`null` payloads, and every key also present one level below (towers are
contiguous, so `down` pointers land on the same key). -/
def upperWF (below : List Int) (lvl : SLevel) : Prop :=
  nodesSorted lvl.nodes ∧ (∀ n ∈ lvl.nodes, n.data = none) ∧ ∀ n ∈ lvl.nodes, n.key ∈ below

/-- Structural well-formedness of the level stack (topmost first): at
least one level, the bottom level carrying exactly the abstract contents
`M`, every upper level an `upperWF` routing level over its neighbour. -/
def SWFlevels (M : List (Int × Int)) : List SLevel → Prop
  | [] => False
  | [lvl] => levelKD lvl.nodes = M.map (fun p => (p.1, some p.2))
  | lvl :: lvl2 :: rest => upperWF (keysOf lvl2.nodes) lvl ∧ SWFlevels M (lvl2 :: rest)

/-- Structural well-formedness: sorted abstract contents plus `SWFlevels`.
This is preserved by every operation, including deletions of absent keys
(which only corrupt spans). -/
def SWF (sl : SkipList) (M : List (Int × Int)) : Prop :=
  M.Pairwise (fun a b => a.1 < b.1) ∧ SWFlevels M sl.levels

/-- Span law for the whole level stack: strict at the bottom level, slack
allowed above. -/
def spanOK (B : List Int) : List SLevel → Prop
  | [] => True
  | [lvl] => spanLaw B true (-1) lvl.headSpan lvl.nodes
  | lvl :: lvl2 :: rest => spanLaw B false (-1) lvl.headSpan lvl.nodes ∧ spanOK B (lvl2 :: rest)

/-- Full well-formedness: structure, span law, and `itemsCount` at least
the number of stored keys (`delete` never decrements `itemsCount`, so it
overshoots after deletions).  Preserved by insertions and by deletions of
present keys. -/
def WFm (sl : SkipList) (M : List (Int × Int)) : Prop :=
  SWF sl M ∧ spanOK (keysKV M) sl.levels ∧ (M.length : Int) ≤ sl.itemsCount

/-! ## Pointer-level embedding of the queries

For the two claims about mutation-freedom and null-safety of the queries,
the functional embedding above is too abstract: it has no pointers to
dereference and its queries cannot mutate by construction.  The queries
are therefore embedded a second time over an explicit heap: nodes live at
addresses `(level index, horizontal position)` (position `0` the head
sentinel, positions `1..m` the real nodes, position `m + 1` the tail), a
heap maps addresses to nodes, every field read is an explicit dereference
that can observably fail, and every translated statement threads the heap
value through, so that a field write would show up in the returned heap. -/

/-- Pointer-level node: the five fields of `SkipListNode`, with `null`
pointers as `none`. -/
structure HNode where
  down : Option (Nat × Nat)
  right : Option (Nat × Nat)
  key : Option Int
  data : Option Int
  span : Int
deriving DecidableEq, Repr

/-- Pointer-level skip list: heap, the `head`, `tail` and `topRight`
pointers, and the two counters. -/
structure HState where
  mem : Nat × Nat → Option HNode
  headAddr : Nat × Nat
  tailAddr : Nat × Nat
  topRightAddr : Nat × Nat
  levelsCount : Nat
  itemsCount : Int

/-- Result of a pointer-level run: a value, a null/dangling dereference
(the crash the safety claim rules out), or fuel exhaustion. -/
inductive HRes (α : Type) where
  | ok (a : α)
  | nullDeref
  | noFuel
deriving DecidableEq, Repr

/-- Pointer-level `_findPath`, returning the bottom approach point and its
accumulated rank (the only part of the path `find` and `findRankOfKey`
consult).  Each iteration dereferences the current node, its `right`
neighbour and that neighbour's `key` exactly as the source condition
`next.right.key !== null && next.right.key < key` does, steps right or
descends, and threads the heap unchanged through every step. -/
def findPathBottomH (key : Int) (hs : HState) : Nat → Nat × Nat → Int → HRes ((Nat × Nat) × Int) × HState
  | 0, _, _ => (.noFuel, hs)
  | fuel + 1, cur, rank =>
    match hs.mem cur with
    | none => (.nullDeref, hs)
    | some n =>
      match n.right with
      | none => (.nullDeref, hs)
      | some ra =>
        match hs.mem ra with
        | none => (.nullDeref, hs)
        | some rn =>
          if (match rn.key with | some rk => decide (rk < key) | none => false) then
            findPathBottomH key hs fuel ra (rank + n.span)
          else
            match n.down with
            | some da => findPathBottomH key hs fuel da rank
            | none => (.ok (cur, rank), hs)

/-- Pointer-level `find`: run the descent from the head with rank `-1`,
then test the bottom approach point's right neighbour. -/
def findH (hs : HState) (key : Int) (fuel : Nat) : HRes (Option Int) × HState :=
  match findPathBottomH key hs fuel hs.headAddr (-1) with
  | (.ok pr, hs1) =>
    (match hs1.mem pr.1 with
     | none => (.nullDeref, hs1)
     | some n =>
       match n.right with
       | none => (.nullDeref, hs1)
       | some ra =>
         match hs1.mem ra with
         | none => (.nullDeref, hs1)
         | some rn => (.ok (if rn.key = some key then rn.data else none), hs1))
  | (.nullDeref, hs1) => (.nullDeref, hs1)
  | (.noFuel, hs1) => (.noFuel, hs1)

/-- Pointer-level `findRankOfKey`. -/
def rankOfH (hs : HState) (key : Int) (fuel : Nat) : HRes (Option Int) × HState :=
  match findPathBottomH key hs fuel hs.headAddr (-1) with
  | (.ok pr, hs1) =>
    (match hs1.mem pr.1 with
     | none => (.nullDeref, hs1)
     | some n =>
       match n.right with
       | none => (.nullDeref, hs1)
       | some ra =>
         match hs1.mem ra with
         | none => (.nullDeref, hs1)
         | some rn => (.ok (if rn.key = some key then some (pr.2 + 1) else none), hs1))
  | (.nullDeref, hs1) => (.nullDeref, hs1)
  | (.noFuel, hs1) => (.noFuel, hs1)

/-- Loop of the pointer-level `findByRank`.  The source short-circuits:
the right neighbour is dereferenced only when
`rankCounter + next.span < rank` already holds. -/
def byRankLoopH (rank : Int) (hs : HState) : Nat → Nat × Nat → Int → HRes ((Nat × Nat) × Int) × HState
  | 0, _, _ => (.noFuel, hs)
  | fuel + 1, cur, rc =>
    if rc < rank then
      match hs.mem cur with
      | none => (.nullDeref, hs)
      | some n =>
        if rc + n.span < rank then
          match n.right with
          | none => (.nullDeref, hs)
          | some ra =>
            match hs.mem ra with
            | none => (.nullDeref, hs)
            | some rn =>
              if rn.key ≠ none then byRankLoopH rank hs fuel ra (rc + n.span)
              else
                match n.down with
                | some da => byRankLoopH rank hs fuel da rc
                | none => (.ok (cur, rc), hs)
        else
          match n.down with
          | some da => byRankLoopH rank hs fuel da rc
          | none => (.ok (cur, rc), hs)
    else (.ok (cur, rc), hs)

/-- Pointer-level `findByRank`. -/
def byRankH (hs : HState) (rank : Int) (fuel : Nat) : HRes (Option Int) × HState :=
  match byRankLoopH rank hs fuel hs.headAddr (-1) with
  | (.ok pr, hs1) =>
    (match hs1.mem pr.1 with
     | none => (.nullDeref, hs1)
     | some n =>
       match n.right with
       | none => (.nullDeref, hs1)
       | some ra =>
         match hs1.mem ra with
         | none => (.nullDeref, hs1)
         | some rn => (.ok (if rn.key ≠ none then rn.data else none), hs1))
  | (.nullDeref, hs1) => (.nullDeref, hs1)
  | (.noFuel, hs1) => (.noFuel, hs1)

/-- Address of the tail of the level at (top-first) index `i`. -/
def tailPos (sl : SkipList) (i : Nat) : Nat :=
  match sl.levels[i]? with
  | some lvl => lvl.nodes.length + 1
  | none => 0

/-- Heap representation of a functional state: each level `i` lays out
head, real nodes and tail at addresses `(i, 0..m+1)`, `right` pointers
chain them, and `down` pointers of head, tail and each key go to the head,
tail and same key of the level below, as the source maintains them. -/
def reprMem (sl : SkipList) : Nat × Nat → Option HNode := fun a =>
  match sl.levels[a.1]? with
  | none => none
  | some lvl =>
    let m := lvl.nodes.length
    let bottom := a.1 + 1 = sl.levels.length
    if a.2 = 0 then
      some { down := if bottom then none else some (a.1 + 1, 0)
             right := some (a.1, 1), key := none, data := none, span := lvl.headSpan }
    else if a.2 = m + 1 then
      some { down := if bottom then none else some (a.1 + 1, tailPos sl (a.1 + 1))
             right := none, key := none, data := none, span := 0 }
    else
      match lvl.nodes[a.2 - 1]? with
      | some n =>
        some { down :=
                 if bottom then none
                 else some (a.1 + 1, idxOfKey n.key (match sl.levels[a.1 + 1]? with
                                                     | some l2 => l2.nodes
                                                     | none => []) + 1)
               right := some (a.1, a.2 + 1), key := some n.key, data := n.data, span := n.span }
      | none => none

/-- Pointer-level state representing a functional state. -/
def reprH (sl : SkipList) : HState :=
  { mem := reprMem sl
    headAddr := (0, 0)
    tailAddr := (sl.levels.length - 1, tailPos sl (sl.levels.length - 1))
    topRightAddr := (0, tailPos sl 0)
    levelsCount := sl.levels.length
    itemsCount := sl.itemsCount }

/-- Fuel measure for the pointer-level walks from address `(i, p)`: the
number of addresses at the current level from the current position on,
plus everything below. -/
def walkMeasure (sl : SkipList) (i p : Nat) : Nat :=
  ((sl.levels.drop i).map (fun l => l.nodes.length + 2)).sum - p

/-- Structure a descent needs of a level stack (topmost first): every
level sorted, every upper level's keys present one level below, and the
bottom level's keys equal to `B`. -/
def descentWF (B : List Int) : List SLevel → Prop
  | [] => True
  | [lvl] => nodesSorted lvl.nodes ∧ keysOf lvl.nodes = B
  | lvl :: lvl2 :: rest =>
    nodesSorted lvl.nodes ∧ (∀ n ∈ lvl.nodes, n.key ∈ keysOf lvl2.nodes) ∧
      descentWF B (lvl2 :: rest)

/-- Number of nodes of a level whose bottom position is below the target
rank: the position the `findByRank` run stops at. -/
def countRankLt (B : List Int) (r : Int) (ns : List SLNode) : Nat :=
  ns.countP (fun n => decide (posIn B n.key < r))

/-- Key of the rightmost node whose bottom position is below the target
rank. -/
def lastRankLt (B : List Int) (r : Int) : List SLNode → Option Int → Option Int
  | [], acc => acc
  | n :: tl, acc => if posIn B n.key < r then lastRankLt B r tl (some n.key) else acc

/-- Sortedness and tower contiguity of a level stack, without any span or
content condition: this much survives even deletions of absent keys. -/
def sortedContig : List SLevel → Prop
  | [] => True
  | [lvl] => nodesSorted lvl.nodes
  | lvl :: lvl2 :: rest =>
    nodesSorted lvl.nodes ∧ (∀ n ∈ lvl.nodes, n.key ∈ keysOf lvl2.nodes) ∧
      sortedContig (lvl2 :: rest)

/-- Precondition on the key a descent enters a level stack with: it is a
key of the topmost level and lies below the target. -/
def skOK (x : Int) : List SLevel → Option Int → Prop
  | _, none => True
  | [], some _ => True
  | lvl :: _, some a => a ∈ keysOf lvl.nodes ∧ a < x

/-- Precondition on the key the `findByRank` walk enters a level stack
with: a key of the topmost level whose bottom position is below the target
rank. -/
def skROK (B : List Int) (r : Int) : List SLevel → Option Int → Prop
  | _, none => True
  | [], some _ => True
  | lvl :: _, some a => a ∈ keysOf lvl.nodes ∧ posIn B a < r

/-- Per-level result of `deleteStep` at approach position `pos`. -/
def deleteLevel (x : Int) (lvl : SLevel) (pos : Nat) : SLevel :=
  match lvl.nodes[pos]? with
  | some right =>
    if right.key = x then spliceAt lvl pos right.span
    else bumpSpanAt lvl pos (-1)
  | none => bumpSpanAt lvl pos (-1)

/-- Rank value attached to an optional key under an arbitrary rank
function (`-1` at a head sentinel). -/
def pkeyF (F : Int → Int) : Option Int → Int
  | none => -1
  | some a => F a

/-- Drifted span law of a level under a rank function `F`: every edge into
a real node spans exactly the difference of the `F`-ranks of its
endpoints; the final edge into the tail is unconstrained (absent-key
deletions drive it below the true distance, stale head seeds drive it
above).  This is the span structure every reachable state carries, drift
included: one function `F` governs all levels at once. -/
def spanLawD (F : Int → Int) : Int → Int → List SLNode → Prop
  | _, _, [] => True
  | cur, curSpan, n :: tl => curSpan = F n.key - cur ∧ spanLawD F (F n.key) n.span tl

/-- Drifted span law for the whole stack. -/
def spanOKD (F : Int → Int) (lvls : List SLevel) : Prop :=
  ∀ lvl ∈ lvls, spanLawD F (-1) lvl.headSpan lvl.nodes

/-- Drift invariant of a reachable state: some rank function `F` governs
every level's spans, and never exceeds the true bottom position of any
stored key (absent-key deletions only lower accumulated ranks). -/
def DriftInv (M : List (Int × Int)) (sl : SkipList) (F : Int → Int) : Prop :=
  spanOKD F sl.levels ∧ ∀ k ∈ keysKV M, F k ≤ posIn (keysKV M) k

/-- Intended approach point of the descent at one level under a drifted
rank function. -/
def specPED (F : Int → Int) (x : Int) (lvl : SLevel) : Nat × Int :=
  (countLt x lvl.nodes, pkeyF F (lastKeyLt x lvl.nodes none))

/-- Key of the last node of a list (the accumulator when there is none). -/
def lastKeyAll : List SLNode → Option Int → Option Int
  | [], acc => acc
  | n :: tl, _ => lastKeyAll tl (some n.key)

/-- Precondition on the key a walk enters a level stack with: it is a key
of the topmost level (no relation to any target). -/
def skME : List SLevel → Option Int → Prop
  | _, none => True
  | [], some _ => True
  | lvl :: _, some a => a ∈ keysOf lvl.nodes

/-! ## Theorems -/

/-- Helper: `randomLevelAux` never exceeds `33` when started at or below
`33` (the loop increments only while the level is at most `32`). -/
theorem randomLevelAux_le_33 : ∀ (flips : List Bool) (level : Nat),
    level ≤ 33 → randomLevelAux level flips ≤ 33 := by
  intro flips
  induction flips with
  | nil => intro level h; simpa [randomLevelAux] using h
  | cons f rest ih =>
    intro level h
    by_cases h32 : level ≤ 32
    · cases f with
      | true => simpa [randomLevelAux, h32] using ih (level + 1) (by omega)
      | false => simpa [randomLevelAux, h32] using h
    · simpa [randomLevelAux, h32] using h

/-- Helper: `randomLevelAux` never decreases the level. -/
theorem le_randomLevelAux : ∀ (flips : List Bool) (level : Nat),
    level ≤ randomLevelAux level flips := by
  intro flips
  induction flips with
  | nil => intro level; simp [randomLevelAux]
  | cons f rest ih =>
    intro level
    by_cases h32 : level ≤ 32
    · cases f with
      | true =>
        have := ih (level + 1)
        simp only [randomLevelAux, h32, if_true]
        omega
      | false => simp [randomLevelAux, h32]
    · simp [randomLevelAux, h32]

/-- C6, counterexample: thirty-two successful coin flips drive
`_randomLevel` to `33`, exceeding the hard cap of `32` the claim states,
because the loop keeps incrementing while `level <= 32` rather than while
the level is strictly below the cap. -/
theorem c6_counterexample :
    randomLevel (List.replicate 32 true) = 33 ∧ 32 < randomLevel (List.replicate 32 true) := by
  constructor <;> decide

/-- C6, amended: for every sequence of coin-flip outcomes the drawn tower
height is at least `1` and at most `33`: it starts at `1` and is
incremented only while a flip succeeds and the height is at most `32`. -/
theorem c6_height_bounds (flips : List Bool) :
    1 ≤ randomLevel flips ∧ randomLevel flips ≤ 33 :=
  ⟨le_randomLevelAux flips 1, randomLevelAux_le_33 flips 1 (by omega)⟩

/-- C3, counterexample: re-inserting the already-present key `5` with a
drawn tower height of `2` grows the index from one level to two — a
structural change (a level and its head sentinel are added) — even though
the insertion is a pure payload replacement. -/
theorem c3_counterexample :
    (SkipList.empty.insert 5 7 1).levels.length = 1 ∧
    ((SkipList.empty.insert 5 7 1).insert 5 8 2).levels.length = 2 ∧
    ((SkipList.empty.insert 5 7 1).insert 5 8 2).find 5 = some 8 ∧
    ((SkipList.empty.insert 5 7 1).insert 5 8 2).itemsCount = 1 := by
  refine ⟨by decide, by decide, by decide, by decide⟩

/-- C5, counterexample: on a one-level index holding the single key `5`,
`findByRank (-1)` returns the stored payload instead of reporting
not-found: the loop guard `rankCounter < rank` fails immediately at the
head, whose right neighbour is the real bottom-level node. -/
theorem c5_counterexample :
    (SkipList.empty.insert 5 55 1).findByRank (-1) = some 55 := by decide

/-- C1, counterexample: after `insert 1`, `insert 2` and two deletions of
the absent key `0` (all tower heights `1`), key `2` is still stored with
payload `20` and `find` returns it, but the span drift caused by the
absent-key deletions makes `findRankOfKey 2` report `-1`, and
`findByRank (-1)` returns payload `10` of key `1`, so
`byRank (rankOf 2)` differs from `find 2`. -/
theorem c1_counterexample :
    (runOps [.ins 1 10 1, .ins 2 20 1, .del 0, .del 0]).find 2 = some 20 ∧
    (runOps [.ins 1 10 1, .ins 2 20 1, .del 0, .del 0]).findRankOfKey 2 = some (-1) ∧
    (runOps [.ins 1 10 1, .ins 2 20 1, .del 0, .del 0]).findByRank (-1) = some 10 := by
  refine ⟨by decide, by decide, by decide⟩

/-- C4, counterexample: in the reachable state after `insert 1`,
`insert 2` and a deletion of the absent key `0`, deleting the stored key
`1` leaves the rank reported for the greater key `2` unchanged at `0`
instead of decreasing it by `1`. -/
theorem c4_counterexample :
    (runOps [.ins 1 10 1, .ins 2 20 1, .del 0]).find 1 = some 10 ∧
    (runOps [.ins 1 10 1, .ins 2 20 1, .del 0]).findRankOfKey 2 = some 0 ∧
    ((runOps [.ins 1 10 1, .ins 2 20 1, .del 0]).delete 1).findRankOfKey 2 = some 0 := by
  refine ⟨by decide, by decide, by decide⟩

/-- C8, counterexample: after the single operation `insert 1` the only
level's spans (head included) sum to `2`, not to the element count `1`;
and after `insert 1`, `insert 2`, `delete 1`, `insert 3` with tower height
`2`, the two levels' span sums are `4` and `3` while only `2` elements
survive — the upper level's tail edge carries slack because
`_addLevelsAccordingToNewLevelsCount` seeds new heads from the stale
`itemsCount`, so not even "element count plus one" holds at upper
levels. -/
theorem c8_counterexample :
    (runOps [.ins 1 10 1]).levels.map levelTotal = [2] ∧
    (runOps [.ins 1 10 1]).itemsCount = 1 ∧
    (runOps [.ins 1 10 1]).levels.map (fun l => l.nodes.length) = [1] ∧
    (runOps [.ins 1 1 1, .ins 2 2 1, .del 1, .ins 3 3 2]).levels.map levelTotal = [4, 3] ∧
    (runOps [.ins 1 1 1, .ins 2 2 1, .del 1, .ins 3 3 2]).levels.map
      (fun l => l.nodes.length) = [1, 2] := by
  refine ⟨by decide, by decide, by decide, by decide, by decide⟩

/-- Helper: the pointer-level descent threads the heap through unchanged —
it performs no write. -/
theorem findPathBottomH_state (key : Int) (hs : HState) :
    ∀ (fuel : Nat) (cur : Nat × Nat) (rank : Int),
      (findPathBottomH key hs fuel cur rank).2 = hs := by
  intro fuel
  induction fuel with
  | zero => intro cur rank; rfl
  | succ fuel ih =>
    intro cur rank
    unfold findPathBottomH
    repeat' split
    all_goals first | rfl | apply ih

/-- Helper: the pointer-level `findByRank` loop performs no write. -/
theorem byRankLoopH_state (rank : Int) (hs : HState) :
    ∀ (fuel : Nat) (cur : Nat × Nat) (rc : Int),
      (byRankLoopH rank hs fuel cur rc).2 = hs := by
  intro fuel
  induction fuel with
  | zero => intro cur rc; rfl
  | succ fuel ih =>
    intro cur rc
    unfold byRankLoopH
    repeat' split
    all_goals first | rfl | apply ih

/-- C9: the three queries never modify the index.  Over the pointer-level
embedding, where every field write would surface in the returned heap,
`find`, `findRankOfKey` and `findByRank` return the state exactly as it
was passed in: every node's `key`, `data`, `span`, `right` and `down`
fields (the heap component) and the `levelsCount` and `itemsCount` fields
are unchanged, for every state, argument and fuel. -/
theorem c9_queries_pure (hs : HState) (key rank : Int) (fuel : Nat) :
    (findH hs key fuel).2 = hs ∧ (rankOfH hs key fuel).2 = hs ∧
    (byRankH hs rank fuel).2 = hs := by
  refine ⟨?_, ?_, ?_⟩
  · unfold findH
    have h := findPathBottomH_state key hs fuel hs.headAddr (-1)
    rcases hres : findPathBottomH key hs fuel hs.headAddr (-1) with ⟨r, hs1⟩
    rw [hres] at h
    cases r <;> simp at h ⊢ <;> subst h
    · repeat' split
      all_goals rfl
    · rfl
    · rfl
  · unfold rankOfH
    have h := findPathBottomH_state key hs fuel hs.headAddr (-1)
    rcases hres : findPathBottomH key hs fuel hs.headAddr (-1) with ⟨r, hs1⟩
    rw [hres] at h
    cases r <;> simp at h ⊢ <;> subst h
    · repeat' split
      all_goals rfl
    · rfl
    · rfl
  · unfold byRankH
    have h := byRankLoopH_state rank hs fuel hs.headAddr (-1)
    rcases hres : byRankLoopH rank hs fuel hs.headAddr (-1) with ⟨r, hs1⟩
    rw [hres] at h
    cases r <;> simp at h ⊢ <;> subst h
    · repeat' split
      all_goals rfl
    · rfl
    · rfl

/-- Helper: under the span law, the rightward walk of the descent stops at
the rightmost node below the target, and its accumulated rank is the
bottom position of the key it stops at.  Slack on the final tail edge is
irrelevant because a span is only accumulated when stepping past a node
that has a real right neighbour. -/
theorem walkRight_eq (x : Int) (B : List Int) (strict : Bool) :
    ∀ (rest : List SLNode) (acc : Option Int) (curSpan : Int) (pos : Nat),
      spanLaw B strict (pkey B acc) curSpan rest →
      rest.Pairwise (fun a b => a.key < b.key) →
      walkRight x rest curSpan pos (pkey B acc) =
        (pos + rest.countP (fun n => decide (n.key < x)), pkey B (lastKeyLt x rest acc)) := by
  intro rest
  induction rest with
  | nil => intro acc curSpan pos _ _; simp [walkRight, lastKeyLt]
  | cons n tl ih =>
    intro acc curSpan pos hlaw hsort
    rcases hlaw with ⟨hspan, hlaw2⟩
    rcases List.pairwise_cons.mp hsort with ⟨hn, htl⟩
    by_cases hlt : n.key < x
    · have hstep : pkey B acc + curSpan = pkey B (some n.key) := by
        simp [pkey, hspan]
      rw [walkRight, if_pos hlt, hstep, ih (some n.key) n.span (pos + 1) hlaw2 htl]
      simp [List.countP_cons, hlt, lastKeyLt]
      omega
    · rw [walkRight, if_neg hlt]
      have h0 : tl.countP (fun n => decide (n.key < x)) = 0 := by
        refine List.countP_eq_zero.mpr ?_
        intro m hm
        have := hn m hm
        simp only [decide_eq_true_eq]
        omega
      simp [List.countP_cons, hlt, lastKeyLt, h0]

/-- Helper: the position component of the rightward walk does not depend
on spans: on a sorted level it is the start position plus the number of
remaining nodes below the target. -/
theorem walkRight_fst (x : Int) :
    ∀ (rest : List SLNode) (curSpan rank : Int) (pos : Nat),
      rest.Pairwise (fun a b => a.key < b.key) →
      (walkRight x rest curSpan pos rank).1 =
        pos + rest.countP (fun n => decide (n.key < x)) := by
  intro rest
  induction rest with
  | nil => intro curSpan rank pos _; simp [walkRight]
  | cons n tl ih =>
    intro curSpan rank pos hsort
    rcases List.pairwise_cons.mp hsort with ⟨hn, htl⟩
    by_cases hlt : n.key < x
    · rw [walkRight, if_pos hlt, ih n.span (rank + curSpan) (pos + 1) htl]
      simp [List.countP_cons, hlt]
      omega
    · rw [walkRight, if_neg hlt]
      have h0 : tl.countP (fun n => decide (n.key < x)) = 0 := by
        refine List.countP_eq_zero.mpr ?_
        intro m hm
        have := hn m hm
        simp only [decide_eq_true_eq]
        omega
      simp [List.countP_cons, hlt, h0]

/-- Helper: a key present in a node list is found by `idxOfKey` at an
in-range index. -/
theorem idxOfKey_mem (k : Int) :
    ∀ ns : List SLNode, k ∈ keysOf ns →
      ∃ n, ns[idxOfKey k ns]? = some n ∧ n.key = k := by
  intro ns
  induction ns with
  | nil => intro h; simp [keysOf] at h
  | cons n tl ih =>
    intro hmem
    by_cases hk : n.key = k
    · exact ⟨n, by simp [idxOfKey, hk], hk⟩
    · have hmem2 : k ∈ keysOf tl := by
        rcases (by simpa [keysOf] using hmem : k = n.key ∨ k ∈ keysOf tl) with h | h
        · exact absurd h.symm hk
        · exact h
      rcases ih hmem2 with ⟨m, hget, hkey⟩
      exact ⟨m, by simpa [idxOfKey, hk] using hget, hkey⟩

/-- Helper: the span law restricted to the suffix after an in-range
index. -/
theorem spanLaw_suffix (B : List Int) (strict : Bool) :
    ∀ (ns : List SLNode) (cur curSpan : Int) (i : Nat) (n : SLNode),
      spanLaw B strict cur curSpan ns → ns[i]? = some n →
      spanLaw B strict (posIn B n.key) n.span (ns.drop (i + 1)) := by
  intro ns
  induction ns with
  | nil => intro cur curSpan i n _ h; simp at h
  | cons m tl ih =>
    intro cur curSpan i n hlaw hget
    rcases hlaw with ⟨hspan, hlaw2⟩
    cases i with
    | zero =>
      simp only [List.getElem?_cons_zero, Option.some.injEq] at hget
      subst hget
      simpa using hlaw2
    | succ i =>
      simpa using ih (posIn B m.key) m.span i n hlaw2 (by simpa using hget)

/-- Helper: in a sorted node list, every node up to an in-range index has
key at most that of the node there. -/
theorem take_key_le :
    ∀ (ns : List SLNode), nodesSorted ns → ∀ (i : Nat) (n : SLNode),
      ns[i]? = some n → ∀ m ∈ ns.take (i + 1), m.key ≤ n.key := by
  intro ns
  induction ns with
  | nil => intro _ i n h; simp at h
  | cons a tl ih =>
    intro hs i n hget m hm
    rcases List.pairwise_cons.mp hs with ⟨ha, htl⟩
    cases i with
    | zero =>
      simp only [List.getElem?_cons_zero, Option.some.injEq] at hget
      subst hget
      simp only [List.take_succ_cons, List.take_zero, List.mem_singleton] at hm
      subst hm; exact le_refl _
    | succ i =>
      have hget2 : tl[i]? = some n := by simpa using hget
      simp only [List.take_succ_cons, List.mem_cons] at hm
      rcases hm with rfl | hm
      · have hn : n ∈ tl := by
          have := List.getElem?_eq_some_iff.mp hget2
          rcases this with ⟨hlt, hval⟩
          exact hval ▸ List.getElem_mem hlt
        exact le_of_lt (ha n hn)
      · exact ih htl i n hget2 m hm

/-- Helper: `lastKeyLt` distributes over an append whose left part is all
below the target. -/
theorem lastKeyLt_append_lt (x : Int) :
    ∀ (l1 l2 : List SLNode), (∀ m ∈ l1, m.key < x) → ∀ acc,
      lastKeyLt x (l1 ++ l2) acc = lastKeyLt x l2 (lastKeyLt x l1 acc) := by
  intro l1
  induction l1 with
  | nil => intro l2 _ acc; simp [lastKeyLt]
  | cons n tl ih =>
    intro l2 h acc
    have hn : n.key < x := h n (by simp)
    simp only [List.cons_append, lastKeyLt, if_pos hn]
    exact ih l2 (fun m hm => h m (by simp [hm])) (some n.key)

/-- Helper: on a list of nodes all below the target, `lastKeyLt` returns
the last node's key (or the accumulator when empty). -/
theorem lastKeyLt_all_lt (x : Int) :
    ∀ (l : List SLNode), (∀ m ∈ l, m.key < x) → ∀ acc,
      lastKeyLt x l acc =
        (match l.getLast? with | some n => some n.key | none => acc) := by
  intro l
  induction l with
  | nil => intro _ acc; simp [lastKeyLt]
  | cons n tl ih =>
    intro h acc
    have hn : n.key < x := h n (by simp)
    simp only [lastKeyLt, if_pos hn]
    rw [ih (fun m hm => h m (by simp [hm])) (some n.key)]
    cases tl with
    | nil => simp
    | cons t tl2 =>
      have h2 : ((t :: tl2).getLast?).isSome := List.getLast?_isSome.mpr (by simp)
      rcases Option.isSome_iff_exists.mp h2 with ⟨y, hy⟩
      simp [hy]

/-- Helper: a key produced by `lastKeyLt` is a key of the list or the
accumulator. -/
theorem lastKeyLt_mem (x : Int) :
    ∀ (l : List SLNode) (acc : Option Int) (b : Int),
      lastKeyLt x l acc = some b → b ∈ keysOf l ∨ acc = some b := by
  intro l
  induction l with
  | nil => intro acc b h; right; simpa [lastKeyLt] using h
  | cons n tl ih =>
    intro acc b h
    by_cases hn : n.key < x
    · simp only [lastKeyLt, if_pos hn] at h
      rcases ih (some n.key) b h with hmem | hacc
      · left; simp [keysOf]; right; simpa [keysOf] using hmem
      · left; simp [keysOf]; left; exact (Option.some.injEq _ _ ▸ hacc).symm
    · simp only [lastKeyLt, if_neg hn] at h
      right; exact h

/-- Helper: a key produced by `lastKeyLt` is below the target when the
accumulator is. -/
theorem lastKeyLt_lt (x : Int) :
    ∀ (l : List SLNode) (acc : Option Int),
      (∀ c, acc = some c → c < x) → ∀ b, lastKeyLt x l acc = some b → b < x := by
  intro l
  induction l with
  | nil => intro acc hacc b h; exact hacc b (by simpa [lastKeyLt] using h)
  | cons n tl ih =>
    intro acc hacc b h
    by_cases hn : n.key < x
    · simp only [lastKeyLt, if_pos hn] at h
      exact ih (some n.key) (by rintro c ⟨rfl⟩; exact hn) b h
    · simp only [lastKeyLt, if_neg hn] at h
      exact hacc b h

/-- Helper: when no node is below the target, `lastKeyLt` returns its
accumulator. -/
theorem lastKeyLt_countLt_zero (x : Int) :
    ∀ (l : List SLNode), countLt x l = 0 → ∀ acc, lastKeyLt x l acc = acc := by
  intro l hc acc
  cases l with
  | nil => simp [lastKeyLt]
  | cons n tl =>
    have hn : ¬ n.key < x := by
      have := List.countP_eq_zero.mp hc n (by simp)
      simpa using this
    simp [lastKeyLt, hn]

/-- Helper: on a sorted level with at least one node below the target,
`lastKeyLt` ignores its accumulator. -/
theorem lastKeyLt_acc_irrel (x : Int) :
    ∀ (l : List SLNode), nodesSorted l → 0 < countLt x l → ∀ acc1 acc2,
      lastKeyLt x l acc1 = lastKeyLt x l acc2 := by
  intro l hs hc acc1 acc2
  cases l with
  | nil => simp [countLt] at hc
  | cons n tl =>
    by_cases hn : n.key < x
    · simp [lastKeyLt, hn]
    · exfalso
      rcases List.pairwise_cons.mp hs with ⟨ha, _⟩
      have h0 : countLt x (n :: tl) = 0 := by
        refine List.countP_eq_zero.mpr ?_
        intro m hm
        simp only [decide_eq_true_eq]
        rcases List.mem_cons.mp hm with rfl | hm2
        · exact hn
        · have := ha m hm2; omega
      omega

/-- Helper: on a sorted node list, the node just before the count of
below-target nodes is the rightmost below-target node. -/
theorem getLt_eq_lastKeyLt (x : Int) :
    ∀ (ns : List SLNode), nodesSorted ns →
      (if countLt x ns = 0 then none else (ns[countLt x ns - 1]?).map (·.key)) =
        lastKeyLt x ns none := by
  intro ns
  induction ns with
  | nil => intro _; simp [countLt, lastKeyLt]
  | cons n tl ih =>
    intro hs
    rcases List.pairwise_cons.mp hs with ⟨ha, htl⟩
    by_cases hn : n.key < x
    · have hcnt : countLt x (n :: tl) = countLt x tl + 1 := by
        simp [countLt, List.countP_cons, hn]
      rw [hcnt]
      simp only [Nat.add_sub_cancel, Nat.succ_ne_zero, if_false]
      rcases Nat.eq_zero_or_pos (countLt x tl) with hc0 | hcpos
      · rw [hc0]
        simp only [List.getElem?_cons_zero, Option.map_some']
        rw [show lastKeyLt x (n :: tl) none = lastKeyLt x tl (some n.key) by
          simp [lastKeyLt, hn]]
        rw [lastKeyLt_countLt_zero x tl hc0]
      · have hsplit : (n :: tl)[countLt x tl]? = tl[countLt x tl - 1]? := by
          rcases Nat.exists_eq_add_of_lt hcpos with ⟨c, hc⟩
          rw [show countLt x tl = c + 1 by omega]
          simp
        rw [hsplit]
        have := ih htl
        rw [if_neg (by omega)] at this
        rw [this]
        rw [show lastKeyLt x (n :: tl) none = lastKeyLt x tl (some n.key) by
          simp [lastKeyLt, hn]]
        exact (lastKeyLt_acc_irrel x tl htl hcpos (some n.key) none).symm
    · have h0 : countLt x (n :: tl) = 0 := by
        refine List.countP_eq_zero.mpr ?_
        intro m hm
        simp only [decide_eq_true_eq]
        rcases List.mem_cons.mp hm with rfl | hm2
        · exact hn
        · have := ha m hm2; omega
      rw [h0]
      simp [lastKeyLt, hn]

/-- Helper: `keyAt` at the approach position is the rightmost
below-target key. -/
theorem keyAt_countLt (x : Int) (lvl : SLevel) (hs : nodesSorted lvl.nodes) :
    keyAt lvl (countLt x lvl.nodes) = lastKeyLt x lvl.nodes none := by
  have := getLt_eq_lastKeyLt x lvl.nodes hs
  by_cases h0 : countLt x lvl.nodes = 0
  · rw [if_pos h0] at this
    rw [keyAt, if_pos h0]
    exact this
  · rw [if_neg h0] at this
    rw [keyAt, if_neg h0]
    exact this

/-- Helper: entering a sorted, law-abiding level at the key carried down
from above, the rightward walk stops at the intended approach point. -/
theorem level_walk_eq (x : Int) (B : List Int) (strict : Bool) (lvl : SLevel)
    (hs : nodesSorted lvl.nodes)
    (hlaw : spanLaw B strict (-1) lvl.headSpan lvl.nodes) :
    ∀ sk : Option Int,
      (∀ a, sk = some a → a ∈ keysOf lvl.nodes ∧ a < x) →
      walkRight x (lvl.nodes.drop (startPos sk lvl.nodes))
          (spanAt lvl (startPos sk lvl.nodes)) (startPos sk lvl.nodes) (pkey B sk) =
        specPE B x lvl := by
  intro sk hsk
  cases sk with
  | none =>
    have h := walkRight_eq x B strict lvl.nodes none lvl.headSpan 0
      (by simpa [pkey] using hlaw) hs
    simpa [startPos, spanAt, specPE, countLt, pkey] using h
  | some a =>
    rcases hsk a rfl with ⟨hmem, hax⟩
    rcases idxOfKey_mem a lvl.nodes hmem with ⟨n, hget, hkey⟩
    have hidx : idxOfKey a lvl.nodes < lvl.nodes.length :=
      (List.getElem?_eq_some_iff.mp hget).1
    have hspanAt : spanAt lvl (idxOfKey a lvl.nodes + 1) = n.span := by
      simp [spanAt, hget]
    have hlawS : spanLaw B strict (pkey B (some a)) n.span
        (lvl.nodes.drop (idxOfKey a lvl.nodes + 1)) := by
      have := spanLaw_suffix B strict lvl.nodes (-1) lvl.headSpan
        (idxOfKey a lvl.nodes) n hlaw hget
      simpa [pkey, hkey] using this
    have hsdrop : (lvl.nodes.drop (idxOfKey a lvl.nodes + 1)).Pairwise
        (fun a b => a.key < b.key) := hs.drop
    have hwalk := walkRight_eq x B strict
      (lvl.nodes.drop (idxOfKey a lvl.nodes + 1)) (some a) n.span
      (idxOfKey a lvl.nodes + 1) hlawS hsdrop
    rw [startPos, hspanAt, hwalk]
    have htake_lt : ∀ m ∈ lvl.nodes.take (idxOfKey a lvl.nodes + 1), m.key < x := by
      intro m hm
      have := take_key_le lvl.nodes hs (idxOfKey a lvl.nodes) n hget m hm
      omega
    have htd := List.take_append_drop (idxOfKey a lvl.nodes + 1) lvl.nodes
    have hcount : countLt x lvl.nodes =
        idxOfKey a lvl.nodes + 1 +
          (lvl.nodes.drop (idxOfKey a lvl.nodes + 1)).countP (fun n => decide (n.key < x)) := by
      conv_lhs => rw [countLt, ← htd]
      rw [List.countP_append]
      have hfull : (lvl.nodes.take (idxOfKey a lvl.nodes + 1)).countP
          (fun n => decide (n.key < x)) =
          (lvl.nodes.take (idxOfKey a lvl.nodes + 1)).length := by
        refine List.countP_eq_length.mpr ?_
        intro m hm
        simpa using htake_lt m hm
      rw [hfull, List.length_take]
      omega
    have hkey2 : lastKeyLt x lvl.nodes none =
        lastKeyLt x (lvl.nodes.drop (idxOfKey a lvl.nodes + 1)) (some a) := by
      conv_lhs => rw [← htd]
      rw [lastKeyLt_append_lt x _ _ htake_lt]
      have hgl : (lvl.nodes.take (idxOfKey a lvl.nodes + 1)).getLast? = some n := by
        rw [List.take_succ, hget]
        simp
      rw [lastKeyLt_all_lt x _ htake_lt, hgl]
      simp [hkey]
    rw [specPE, hcount, hkey2]

/-- Helper: one-step unfolding of the descent. -/
theorem findInsertPath_cons (x : Int) (lvl : SLevel) (lower : List SLevel)
    (sk : Option Int) (rank : Int) :
    findInsertPath x (lvl :: lower) sk rank =
      walkRight x (lvl.nodes.drop (startPos sk lvl.nodes))
          (spanAt lvl (startPos sk lvl.nodes)) (startPos sk lvl.nodes) rank ::
        findInsertPath x lower
          (keyAt lvl (walkRight x (lvl.nodes.drop (startPos sk lvl.nodes))
            (spanAt lvl (startPos sk lvl.nodes)) (startPos sk lvl.nodes) rank).1)
          (walkRight x (lvl.nodes.drop (startPos sk lvl.nodes))
            (spanAt lvl (startPos sk lvl.nodes)) (startPos sk lvl.nodes) rank).2 := rfl

/-- Helper: the descent of `_findInsertPath` computes, at every level, the
intended approach point: its position is the number of keys of the level
below the target, and its rank is the bottom position of the approach
key. -/
theorem findInsertPath_eq (x : Int) (B : List Int) :
    ∀ (lvls : List SLevel) (sk : Option Int),
      descentWF B lvls → spanOK B lvls → skOK x lvls sk →
      findInsertPath x lvls sk (pkey B sk) = lvls.map (specPE B x) := by
  intro lvls
  induction lvls with
  | nil => intro sk _ _ _; simp [findInsertPath]
  | cons lvl lower ih =>
    intro sk hd hsp hsk
    have hskfun : ∀ a, sk = some a → a ∈ keysOf lvl.nodes ∧ a < x := by
      intro a ha
      subst ha
      cases lower <;> simpa [skOK] using hsk
    cases lower with
    | nil =>
      rcases (by simpa [descentWF] using hd : nodesSorted lvl.nodes ∧ keysOf lvl.nodes = B)
        with ⟨hsort, _⟩
      have hlaw : spanLaw B true (-1) lvl.headSpan lvl.nodes := by
        simpa [spanOK] using hsp
      have hwalk := level_walk_eq x B true lvl hsort hlaw sk hskfun
      rw [findInsertPath_cons, hwalk]
      simp [findInsertPath]
    | cons lvl2 rest =>
      rcases (by simpa [descentWF] using hd :
          nodesSorted lvl.nodes ∧ (∀ n ∈ lvl.nodes, n.key ∈ keysOf lvl2.nodes) ∧
            descentWF B (lvl2 :: rest)) with ⟨hsort, hcontig, hd2⟩
      rcases (by simpa [spanOK] using hsp :
          spanLaw B false (-1) lvl.headSpan lvl.nodes ∧ spanOK B (lvl2 :: rest))
        with ⟨hlaw, hsp2⟩
      have hwalk := level_walk_eq x B false lvl hsort hlaw sk hskfun
      have hkeyAt : keyAt lvl (specPE B x lvl).1 = lastKeyLt x lvl.nodes none := by
        rw [specPE]
        exact keyAt_countLt x lvl hsort
      have hsk2 : skOK x (lvl2 :: rest) (lastKeyLt x lvl.nodes none) := by
        cases hlk : lastKeyLt x lvl.nodes none with
        | none => simp [skOK]
        | some b =>
          have hbmem : b ∈ keysOf lvl.nodes := by
            rcases lastKeyLt_mem x lvl.nodes none b hlk with h | h
            · exact h
            · cases h
          have hblt : b < x :=
            lastKeyLt_lt x lvl.nodes none (by rintro c ⟨⟩) b hlk
          rcases List.mem_map.mp hbmem with ⟨m, hm, hmk⟩
          exact ⟨hmk ▸ hcontig m hm, hblt⟩
      have hrec := ih (lastKeyLt x lvl.nodes none) hd2 hsp2 hsk2
      rw [findInsertPath_cons, hwalk, hkeyAt,
        show (specPE B x lvl).2 = pkey B (lastKeyLt x lvl.nodes none) from rfl, hrec,
        List.map_cons]
      simp

/-- Helper: counting below-target nodes splits at a below-target key's
index. -/
theorem countLt_split (x : Int) (ns : List SLNode) (hs : nodesSorted ns) (a : Int)
    (hmem : a ∈ keysOf ns) (hax : a < x) :
    countLt x ns = (idxOfKey a ns + 1) + countLt x (ns.drop (idxOfKey a ns + 1)) := by
  rcases idxOfKey_mem a ns hmem with ⟨n, hget, hkey⟩
  have htake_lt : ∀ m ∈ ns.take (idxOfKey a ns + 1), m.key < x := by
    intro m hm
    have := take_key_le ns hs (idxOfKey a ns) n hget m hm
    omega
  conv_lhs => rw [countLt, ← List.take_append_drop (idxOfKey a ns + 1) ns]
  rw [List.countP_append]
  have hfull : (ns.take (idxOfKey a ns + 1)).countP (fun n => decide (n.key < x)) =
      (ns.take (idxOfKey a ns + 1)).length := by
    refine List.countP_eq_length.mpr ?_
    intro m hm
    simpa using htake_lt m hm
  have hidx : idxOfKey a ns < ns.length := (List.getElem?_eq_some_iff.mp hget).1
  rw [hfull, List.length_take, countLt]
  omega

/-- Helper: the approach position at a level does not depend on spans. -/
theorem level_walk_fst (x : Int) (lvl : SLevel) (hs : nodesSorted lvl.nodes) :
    ∀ (sk : Option Int) (rank : Int),
      (∀ a, sk = some a → a ∈ keysOf lvl.nodes ∧ a < x) →
      (walkRight x (lvl.nodes.drop (startPos sk lvl.nodes))
          (spanAt lvl (startPos sk lvl.nodes)) (startPos sk lvl.nodes) rank).1 =
        countLt x lvl.nodes := by
  intro sk rank hsk
  cases sk with
  | none =>
    have := walkRight_fst x lvl.nodes lvl.headSpan rank 0 hs
    simpa [startPos, countLt] using this
  | some a =>
    rcases hsk a rfl with ⟨hmem, hax⟩
    have hw := walkRight_fst x (lvl.nodes.drop (idxOfKey a lvl.nodes + 1))
      (spanAt lvl (idxOfKey a lvl.nodes + 1)) rank (idxOfKey a lvl.nodes + 1) hs.drop
    rw [startPos, hw, countLt_split x lvl.nodes hs a hmem hax, countLt]

/-- Helper: the positions the descent computes depend only on keys, not on
spans; they survive span drift. -/
theorem findInsertPath_fst (x : Int) :
    ∀ (lvls : List SLevel) (sk : Option Int) (rank : Int),
      sortedContig lvls → skOK x lvls sk →
      (findInsertPath x lvls sk rank).map Prod.fst =
        lvls.map (fun lvl => countLt x lvl.nodes) := by
  intro lvls
  induction lvls with
  | nil => intro sk rank _ _; simp [findInsertPath]
  | cons lvl lower ih =>
    intro sk rank hsc hsk
    have hskfun : ∀ a, sk = some a → a ∈ keysOf lvl.nodes ∧ a < x := by
      intro a ha
      subst ha
      cases lower <;> simpa [skOK] using hsk
    have hsort : nodesSorted lvl.nodes := by
      cases lower with
      | nil => simpa [sortedContig] using hsc
      | cons l2 r => exact ((by simpa [sortedContig] using hsc :
          nodesSorted lvl.nodes ∧ _ ∧ _)).1
    have hw1 := level_walk_fst x lvl hsort sk rank hskfun
    rw [findInsertPath_cons, List.map_cons, hw1, keyAt_countLt x lvl hsort]
    cases lower with
    | nil => simp [findInsertPath]
    | cons lvl2 rest =>
      rcases (by simpa [sortedContig] using hsc :
          nodesSorted lvl.nodes ∧ (∀ n ∈ lvl.nodes, n.key ∈ keysOf lvl2.nodes) ∧
            sortedContig (lvl2 :: rest)) with ⟨_, hcontig, hsc2⟩
      have hsk2 : skOK x (lvl2 :: rest) (lastKeyLt x lvl.nodes none) := by
        cases hlk : lastKeyLt x lvl.nodes none with
        | none => simp [skOK]
        | some b =>
          have hbmem : b ∈ keysOf lvl.nodes := by
            rcases lastKeyLt_mem x lvl.nodes none b hlk with h | h
            · exact h
            · cases h
          have hblt : b < x :=
            lastKeyLt_lt x lvl.nodes none (by rintro c ⟨⟩) b hlk
          rcases List.mem_map.mp hbmem with ⟨m, hm, hmk⟩
          exact ⟨hmk ▸ hcontig m hm, hblt⟩
      rw [ih (lastKeyLt x lvl.nodes none) _ hsc2 hsk2, List.map_cons]
      simp

/-- Helper: keys of a level whose key-data image matches the abstract
contents. -/
theorem keysOf_of_levelKD (ns : List SLNode) (M : List (Int × Int))
    (h : levelKD ns = M.map (fun p => (p.1, some p.2))) :
    keysOf ns = keysKV M := by
  have := congrArg (List.map Prod.fst) h
  simpa [levelKD, keysOf, keysKV, List.map_map, Function.comp] using this

/-- Helper: the level stack of a structurally well-formed state ends in a
bottom level carrying the abstract contents. -/
theorem SWFlevels_getLast (M : List (Int × Int)) :
    ∀ lvls : List SLevel, SWFlevels M lvls →
      ∃ bl, lvls.getLast? = some bl ∧ levelKD bl.nodes = M.map (fun p => (p.1, some p.2)) := by
  intro lvls
  induction lvls with
  | nil => intro h; cases h
  | cons lvl lower ih =>
    intro h
    cases lower with
    | nil => exact ⟨lvl, rfl, by simpa [SWFlevels] using h⟩
    | cons lvl2 rest =>
      rcases (by simpa [SWFlevels] using h :
          upperWF (keysOf lvl2.nodes) lvl ∧ SWFlevels M (lvl2 :: rest)) with ⟨_, h2⟩
      rcases ih h2 with ⟨bl, hlast, hkd⟩
      exact ⟨bl, by rw [List.getLast?_cons_cons]; exact hlast, hkd⟩

/-- Helper: a sorted abstract content list makes its bottom level
sorted. -/
theorem nodesSorted_of_levelKD (ns : List SLNode) (M : List (Int × Int))
    (hM : M.Pairwise (fun a b => a.1 < b.1))
    (h : levelKD ns = M.map (fun p => (p.1, some p.2))) : nodesSorted ns := by
  have hk : keysOf ns = keysKV M := keysOf_of_levelKD ns M h
  have hkp : (keysKV M).Pairwise (· < ·) := by
    exact List.Pairwise.map _ (fun a b hab => hab) hM
  rw [← hk] at hkp
  have : ns.Pairwise (fun a b => a.key < b.key) :=
    (List.pairwise_map.mp hkp)
  exact this

/-- Helper: structural well-formedness yields sortedness and contiguity
of the whole stack. -/
theorem SWFlevels_sortedContig (M : List (Int × Int))
    (hM : M.Pairwise (fun a b => a.1 < b.1)) :
    ∀ lvls : List SLevel, SWFlevels M lvls → sortedContig lvls := by
  intro lvls
  induction lvls with
  | nil => intro h; cases h
  | cons lvl lower ih =>
    intro h
    cases lower with
    | nil =>
      have hkd : levelKD lvl.nodes = M.map (fun p => (p.1, some p.2)) := by
        simpa [SWFlevels] using h
      simpa [sortedContig] using nodesSorted_of_levelKD lvl.nodes M hM hkd
    | cons lvl2 rest =>
      rcases (by simpa [SWFlevels] using h :
          upperWF (keysOf lvl2.nodes) lvl ∧ SWFlevels M (lvl2 :: rest)) with ⟨hu, h2⟩
      exact (by simpa [sortedContig] using And.intro hu.1 (And.intro hu.2.2 (ih h2)))

/-- Helper: lookup misses when no key matches. -/
theorem lookupKV_none (x : Int) :
    ∀ M : List (Int × Int), (∀ p ∈ M, p.1 ≠ x) → lookupKV x M = none := by
  intro M
  induction M with
  | nil => intro _; rfl
  | cons p tl ih =>
    intro h
    have hne : x ≠ p.1 := fun he => h p (by simp) he.symm
    rcases p with ⟨a, b⟩
    simp only [lookupKV, if_neg hne]
    exact ih (fun q hq => h q (by simp [hq]))

/-- Helper: testing the node at the approach position of the bottom level
is exactly an association-list lookup. -/
theorem bottom_match_lookup (x : Int) :
    ∀ (M : List (Int × Int)) (ns : List SLNode),
      M.Pairwise (fun a b => a.1 < b.1) →
      levelKD ns = M.map (fun p => (p.1, some p.2)) →
      (match ns[countLt x ns]? with
       | some n => if n.key = x then n.data else none
       | none => none) = lookupKV x M := by
  intro M
  induction M with
  | nil =>
    intro ns _ hkd
    have : ns = [] := by
      cases ns with
      | nil => rfl
      | cons n tl => simp [levelKD] at hkd
    subst this
    simp [countLt, lookupKV]
  | cons p Mtl ih =>
    intro ns hM hkd
    rcases p with ⟨a, b⟩
    cases ns with
    | nil => simp [levelKD] at hkd
    | cons n tl =>
      simp only [levelKD, List.map_cons, List.cons.injEq, Prod.mk.injEq] at hkd
      rcases hkd with ⟨⟨hka, hdb⟩, hkd2⟩
      rcases List.pairwise_cons.mp hM with ⟨ha, hMtl⟩
      by_cases hax : a < x
      · have hcnt : countLt x (n :: tl) = countLt x tl + 1 := by
          simp [countLt, List.countP_cons, hka, hax]
        rw [hcnt]
        have : (n :: tl)[countLt x tl + 1]? = tl[countLt x tl]? := by simp
        rw [this]
        have hne : ¬ x = a := by omega
        rw [show lookupKV x ((a, b) :: Mtl) = lookupKV x Mtl by
          simp [lookupKV, hne]]
        exact ih tl hMtl hkd2
      · have hc0 : countLt x tl = 0 := by
          refine List.countP_eq_zero.mpr ?_
          intro m hm
          simp only [decide_eq_true_eq]
          have hmk : m.key ∈ keysKV Mtl := by
            rw [← keysOf_of_levelKD tl Mtl hkd2]
            exact List.mem_map.mpr ⟨m, hm, rfl⟩
          rcases List.mem_map.mp hmk with ⟨q, hq, hqk⟩
          have := ha q hq
          omega
        have hcnt : countLt x (n :: tl) = 0 := by
          simp [countLt, List.countP_cons, hka, hax] at hc0 ⊢
          exact hc0
        rw [hcnt]
        simp only [List.getElem?_cons_zero]
        by_cases hxa : a = x
        · subst hxa
          simp [hka, hdb, lookupKV]
        · have hnx : n.key ≠ x := by rw [hka]; exact hxa
          simp only [if_neg hnx]
          have hne : ¬ x = a := fun he => hxa he.symm
          rw [show lookupKV x ((a, b) :: Mtl) = lookupKV x Mtl by
            simp [lookupKV, hne]]
          refine (lookupKV_none x Mtl ?_).symm
          intro q hq
          have := ha q hq
          omega

/-- Helper: `find` is an association-list lookup on every structurally
well-formed state, spans (and hence span drift) notwithstanding. -/
theorem find_eq_lookup (sl : SkipList) (M : List (Int × Int)) (h : SWF sl M) (x : Int) :
    sl.find x = lookupKV x M := by
  rcases h with ⟨hM, hlv⟩
  rcases SWFlevels_getLast M sl.levels hlv with ⟨bl, hlast, hkd⟩
  have hsc := SWFlevels_sortedContig M hM sl.levels hlv
  have hfst := findInsertPath_fst x sl.levels none (-1) hsc
    (by cases sl.levels <;> simp [skOK])
  have hplast : ((findInsertPath x sl.levels none (-1)).getLast?).map Prod.fst =
      some (countLt x bl.nodes) := by
    rw [← List.getLast?_map, hfst, List.getLast?_map, hlast]
    rfl
  cases hpr : (findInsertPath x sl.levels none (-1)).getLast? with
  | none => rw [hpr] at hplast; cases hplast
  | some pr =>
    rw [hpr] at hplast
    have hpr1 : pr.1 = countLt x bl.nodes := by simpa using hplast
    have hred : sl.find x =
        (match bl.nodes[pr.1]? with
         | some n => if n.key = x then n.data else none
         | none => none) := by
      rw [SkipList.find, hlast, hpr]
    rw [hred, hpr1]
    exact bottom_match_lookup x M bl.nodes hM hkd

/-- Helper: the bottom position of an arbitrary key is the count of
below-key nodes. -/
theorem posIn_keysOf (ns : List SLNode) (x : Int) :
    posIn (keysOf ns) x = (countLt x ns : Int) := by
  rw [posIn, countLt, keysOf, List.countP_map]
  rfl

/-- Helper: in a sorted level, the number of nodes below the key of the
node at an index is that index. -/
theorem countLt_getElem :
    ∀ (ns : List SLNode), nodesSorted ns → ∀ (i : Nat) (n : SLNode),
      ns[i]? = some n → countLt n.key ns = i := by
  intro ns
  induction ns with
  | nil => intro _ i n h; simp at h
  | cons m tl ih =>
    intro hs i n hget
    rcases List.pairwise_cons.mp hs with ⟨hm, htl⟩
    cases i with
    | zero =>
      simp only [List.getElem?_cons_zero, Option.some.injEq] at hget
      subst hget
      refine List.countP_eq_zero.mpr ?_
      intro q hq
      simp only [decide_eq_true_eq]
      rcases List.mem_cons.mp hq with rfl | hq2
      · omega
      · have := hm q hq2; omega
    | succ i =>
      have hget2 : tl[i]? = some n := by simpa using hget
      have hn : n ∈ tl := by
        rcases List.getElem?_eq_some_iff.mp hget2 with ⟨hlt, hval⟩
        exact hval ▸ List.getElem_mem hlt
      have hmn : m.key < n.key := hm n hn
      have hrec := ih htl i n hget2
      simp only [countLt, List.countP_cons, decide_eq_true_eq] at hrec ⊢
      simp [hmn, hrec]

/-- Helper: in a sorted level, the bottom position of the key of the node
at an index is that index. -/
theorem posIn_getElem (ns : List SLNode) (hs : nodesSorted ns) (i : Nat) (n : SLNode)
    (hget : ns[i]? = some n) : posIn (keysOf ns) n.key = (i : Int) := by
  rw [posIn_keysOf, countLt_getElem ns hs i n hget]

/-- Helper: a stored key is found exactly at the approach position of the
bottom level. -/
theorem countLt_found (x : Int) :
    ∀ (ns : List SLNode), nodesSorted ns → x ∈ keysOf ns →
      ∃ n, ns[countLt x ns]? = some n ∧ n.key = x := by
  intro ns
  induction ns with
  | nil => intro _ h; simp [keysOf] at h
  | cons m tl ih =>
    intro hs hmem
    rcases List.pairwise_cons.mp hs with ⟨hm, htl⟩
    by_cases hmx : m.key = x
    · have h0 : countLt x (m :: tl) = 0 := by
        refine List.countP_eq_zero.mpr ?_
        intro q hq
        simp only [decide_eq_true_eq]
        rcases List.mem_cons.mp hq with rfl | hq2
        · omega
        · have := hm q hq2; omega
      exact ⟨m, by simp [h0], hmx⟩
    · have hmem2 : x ∈ keysOf tl := by
        rcases (by simpa [keysOf] using hmem : x = m.key ∨ x ∈ keysOf tl) with h | h
        · exact absurd h.symm hmx
        · exact h
      have hmlt : m.key < x := by
        rcases List.mem_map.mp hmem2 with ⟨q, hq, hqk⟩
        have := hm q hq; omega
      have hcnt : countLt x (m :: tl) = countLt x tl + 1 := by
        simp [countLt, List.countP_cons, hmlt]
      rcases ih htl hmem2 with ⟨n, hget, hkey⟩
      exact ⟨n, by simpa [hcnt] using hget, hkey⟩

/-- Helper: an absent key is never the key at the approach position. -/
theorem countLt_notfound (x : Int) (ns : List SLNode) (hx : x ∉ keysOf ns) :
    ∀ n, ns[countLt x ns]? = some n → n.key ≠ x := by
  intro n hget he
  apply hx
  rw [← he]
  rcases List.getElem?_eq_some_iff.mp hget with ⟨hlt, hval⟩
  exact List.mem_map.mpr ⟨n, hval ▸ List.getElem_mem hlt, rfl⟩

/-- Helper: the rank accumulated at the bottom approach point is one less
than the count of below-target nodes. -/
theorem pkey_lastKeyLt (ns : List SLNode) (hs : nodesSorted ns) (x : Int) :
    pkey (keysOf ns) (lastKeyLt x ns none) = (countLt x ns : Int) - 1 := by
  rcases Nat.eq_zero_or_pos (countLt x ns) with h0 | hpos
  · rw [lastKeyLt_countLt_zero x ns h0, h0]
    rfl
  · have hgl := getLt_eq_lastKeyLt x ns hs
    rw [if_neg (by omega)] at hgl
    cases hget : ns[countLt x ns - 1]? with
    | none =>
      exfalso
      have hle : countLt x ns ≤ ns.length := List.countP_le_length _
      have hlt : countLt x ns - 1 < ns.length := by omega
      rw [List.getElem?_eq_none_iff] at hget
      omega
    | some n =>
      rw [hget] at hgl
      simp only [Option.map_some'] at hgl
      rw [← hgl]
      have hpi := posIn_getElem ns hs (countLt x ns - 1) n hget
      simp only [pkey, hpi]
      omega

/-- Helper: structural well-formedness yields the descent
precondition. -/
theorem SWFlevels_descentWF (M : List (Int × Int))
    (hM : M.Pairwise (fun a b => a.1 < b.1)) :
    ∀ lvls : List SLevel, SWFlevels M lvls → descentWF (keysKV M) lvls := by
  intro lvls
  induction lvls with
  | nil => intro h; cases h
  | cons lvl lower ih =>
    intro h
    cases lower with
    | nil =>
      have hkd : levelKD lvl.nodes = M.map (fun p => (p.1, some p.2)) := by
        simpa [SWFlevels] using h
      have ha := nodesSorted_of_levelKD lvl.nodes M hM hkd
      have hb := keysOf_of_levelKD lvl.nodes M hkd
      exact (by simpa [descentWF] using And.intro ha hb)
    | cons lvl2 rest =>
      rcases (by simpa [SWFlevels] using h :
          upperWF (keysOf lvl2.nodes) lvl ∧ SWFlevels M (lvl2 :: rest)) with ⟨hu, h2⟩
      exact (by simpa [descentWF] using And.intro hu.1 (And.intro hu.2.2 (ih h2)))

/-- Helper: `findRankOfKey` reports for each stored key its 0-based rank
among the stored keys, and a miss for any other key, on every fully
well-formed state. -/
theorem rankOf_eq (sl : SkipList) (M : List (Int × Int)) (h : WFm sl M) (x : Int) :
    sl.findRankOfKey x =
      if x ∈ keysKV M then some (posIn (keysKV M) x) else none := by
  rcases h with ⟨⟨hM, hlv⟩, hsp, _⟩
  rcases SWFlevels_getLast M sl.levels hlv with ⟨bl, hlast, hkd⟩
  have hkeys : keysOf bl.nodes = keysKV M := keysOf_of_levelKD bl.nodes M hkd
  have hbs : nodesSorted bl.nodes := nodesSorted_of_levelKD bl.nodes M hM hkd
  have hpath := findInsertPath_eq x (keysKV M) sl.levels none
    (SWFlevels_descentWF M hM sl.levels hlv) hsp
    (by cases sl.levels <;> simp [skOK])
  have hplast : (findInsertPath x sl.levels none (-1)).getLast? =
      some (specPE (keysKV M) x bl) := by
    rw [show (-1 : Int) = pkey (keysKV M) none from rfl, hpath,
      List.getLast?_map, hlast]
    rfl
  have hred : sl.findRankOfKey x =
      (match bl.nodes[(specPE (keysKV M) x bl).1]? with
       | some n => if n.key = x then some ((specPE (keysKV M) x bl).2 + 1) else none
       | none => none) := by
    rw [SkipList.findRankOfKey, hlast, hplast]
  rw [hred]
  have hpe1 : (specPE (keysKV M) x bl).1 = countLt x bl.nodes := rfl
  by_cases hmem : x ∈ keysKV M
  · rcases countLt_found x bl.nodes hbs (by rw [hkeys]; exact hmem) with ⟨n, hget, hkey⟩
    rw [hpe1, hget]
    rw [show (match some n with
         | some n => if n.key = x then some ((specPE (keysKV M) x bl).2 + 1) else none
         | none => none) =
        if n.key = x then some ((specPE (keysKV M) x bl).2 + 1) else none from rfl]
    rw [if_pos hkey, if_pos hmem]
    have hpe2 : (specPE (keysKV M) x bl).2 =
        pkey (keysKV M) (lastKeyLt x bl.nodes none) := rfl
    rw [hpe2, ← hkeys, pkey_lastKeyLt bl.nodes hbs x, posIn_keysOf]
    congr 1
    omega
  · rw [if_neg hmem, hpe1]
    cases hget : bl.nodes[countLt x bl.nodes]? with
    | none => rfl
    | some n =>
      have hne := countLt_notfound x bl.nodes (by rw [hkeys]; exact hmem) n hget
      rw [show (match some n with
           | some n => if n.key = x then some ((specPE (keysKV M) x bl).2 + 1) else none
           | none => none) =
          if n.key = x then some ((specPE (keysKV M) x bl).2 + 1) else none from rfl]
      rw [if_neg hne]

/-- Helper: bottom positions are monotone in the key. -/
theorem posIn_mono (B : List Int) (a b : Int) (h : a ≤ b) : posIn B a ≤ posIn B b := by
  unfold posIn
  have : B.countP (fun c => decide (c < a)) ≤ B.countP (fun c => decide (c < b)) := by
    refine List.countP_mono_left ?_
    intro c _ hc
    simp only [decide_eq_true_eq] at hc ⊢
    omega
  exact_mod_cast this

/-- Helper: under the span law, the rightward run of `findByRank` steps
exactly past the nodes whose bottom position is below the target rank. -/
theorem byRankRun_eq (r : Int) (B : List Int) (strict : Bool) :
    ∀ (rest : List SLNode) (acc : Option Int) (curSpan : Int) (pos : Nat),
      spanLaw B strict (pkey B acc) curSpan rest →
      rest.Pairwise (fun a b => a.key < b.key) →
      pkey B acc < r →
      byRankRun r rest curSpan (pkey B acc) pos =
        (pos + countRankLt B r rest, pkey B (lastRankLt B r rest acc)) := by
  intro rest
  induction rest with
  | nil => intro acc curSpan pos _ _ _; simp [byRankRun, lastRankLt, countRankLt]
  | cons n tl ih =>
    intro acc curSpan pos hlaw hsort hrc
    rcases hlaw with ⟨hspan, hlaw2⟩
    rcases List.pairwise_cons.mp hsort with ⟨hn, htl⟩
    by_cases hp : posIn B n.key < r
    · have hguard : pkey B acc < r ∧ pkey B acc + curSpan < r := by
        constructor
        · exact hrc
        · rw [hspan]; omega
      rw [byRankRun, if_pos hguard]
      have hstep : pkey B acc + curSpan = pkey B (some n.key) := by
        simp [pkey, hspan]
      rw [hstep, ih (some n.key) n.span (pos + 1) hlaw2 htl hp]
      have hcnt : countRankLt B r (n :: tl) = countRankLt B r tl + 1 := by
        simp [countRankLt, List.countP_cons, hp]
      rw [hcnt, show lastRankLt B r (n :: tl) acc = lastRankLt B r tl (some n.key) by
        simp [lastRankLt, hp]]
      rw [Prod.mk.injEq]
      constructor
      · omega
      · rfl
    · have hguard : ¬ (pkey B acc < r ∧ pkey B acc + curSpan < r) := by
        rw [hspan]
        omega
      rw [byRankRun, if_neg hguard]
      have h0 : countRankLt B r tl = 0 := by
        refine List.countP_eq_zero.mpr ?_
        intro m hm
        simp only [decide_eq_true_eq]
        have hmono := posIn_mono B n.key m.key (le_of_lt (hn m hm))
        omega
      have hcnt : countRankLt B r (n :: tl) = 0 := by
        simp [countRankLt, List.countP_cons, hp] at h0 ⊢
        exact h0
      rw [hcnt, show lastRankLt B r (n :: tl) acc = acc by simp [lastRankLt, hp]]
      simp

/-- Helper: when no node is below the target rank, `lastRankLt` returns
its accumulator. -/
theorem lastRankLt_zero (B : List Int) (r : Int) :
    ∀ (l : List SLNode), countRankLt B r l = 0 → ∀ acc, lastRankLt B r l acc = acc := by
  intro l hc acc
  cases l with
  | nil => simp [lastRankLt]
  | cons n tl =>
    have hn : ¬ posIn B n.key < r := by
      have := List.countP_eq_zero.mp hc n (by simp)
      simpa using this
    simp [lastRankLt, hn]

/-- Helper: on a sorted level with at least one node below the target
rank, `lastRankLt` ignores its accumulator. -/
theorem lastRankLt_acc_irrel (B : List Int) (r : Int) :
    ∀ (l : List SLNode), nodesSorted l → 0 < countRankLt B r l → ∀ acc1 acc2,
      lastRankLt B r l acc1 = lastRankLt B r l acc2 := by
  intro l hs hc acc1 acc2
  cases l with
  | nil => simp [countRankLt] at hc
  | cons n tl =>
    by_cases hn : posIn B n.key < r
    · simp [lastRankLt, hn]
    · exfalso
      rcases List.pairwise_cons.mp hs with ⟨ha, _⟩
      have h0 : countRankLt B r (n :: tl) = 0 := by
        refine List.countP_eq_zero.mpr ?_
        intro m hm
        simp only [decide_eq_true_eq]
        rcases List.mem_cons.mp hm with rfl | hm2
        · exact hn
        · have := posIn_mono B n.key m.key (le_of_lt (ha m hm2))
          omega
      omega

/-- Helper: the node just before the count of below-rank nodes is the
rightmost below-rank node. -/
theorem getRank_eq_lastRankLt (B : List Int) (r : Int) :
    ∀ (ns : List SLNode), nodesSorted ns →
      (if countRankLt B r ns = 0 then none
       else (ns[countRankLt B r ns - 1]?).map (·.key)) =
        lastRankLt B r ns none := by
  intro ns
  induction ns with
  | nil => intro _; simp [countRankLt, lastRankLt]
  | cons n tl ih =>
    intro hs
    rcases List.pairwise_cons.mp hs with ⟨ha, htl⟩
    by_cases hn : posIn B n.key < r
    · have hcnt : countRankLt B r (n :: tl) = countRankLt B r tl + 1 := by
        simp [countRankLt, List.countP_cons, hn]
      rw [hcnt]
      simp only [Nat.add_sub_cancel, Nat.succ_ne_zero, if_false]
      rcases Nat.eq_zero_or_pos (countRankLt B r tl) with hc0 | hcpos
      · rw [hc0]
        simp only [List.getElem?_cons_zero, Option.map_some']
        rw [show lastRankLt B r (n :: tl) none = lastRankLt B r tl (some n.key) by
          simp [lastRankLt, hn]]
        rw [lastRankLt_zero B r tl hc0]
      · have hsplit : (n :: tl)[countRankLt B r tl]? = tl[countRankLt B r tl - 1]? := by
          rcases Nat.exists_eq_add_of_lt hcpos with ⟨c, hc⟩
          rw [show countRankLt B r tl = c + 1 by omega]
          simp
        rw [hsplit]
        have hih := ih htl
        rw [if_neg (by omega)] at hih
        rw [hih]
        rw [show lastRankLt B r (n :: tl) none = lastRankLt B r tl (some n.key) by
          simp [lastRankLt, hn]]
        exact (lastRankLt_acc_irrel B r tl htl hcpos (some n.key) none).symm
    · have h0 : countRankLt B r (n :: tl) = 0 := by
        refine List.countP_eq_zero.mpr ?_
        intro m hm
        simp only [decide_eq_true_eq]
        rcases List.mem_cons.mp hm with rfl | hm2
        · exact hn
        · have := posIn_mono B n.key m.key (le_of_lt (ha m hm2))
          omega
      rw [h0]
      simp [lastRankLt, hn]

/-- Helper: `keyAt` at the run's stop position is the rightmost below-rank
key. -/
theorem keyAt_countRankLt (B : List Int) (r : Int) (lvl : SLevel)
    (hs : nodesSorted lvl.nodes) :
    keyAt lvl (countRankLt B r lvl.nodes) = lastRankLt B r lvl.nodes none := by
  have h := getRank_eq_lastRankLt B r lvl.nodes hs
  by_cases h0 : countRankLt B r lvl.nodes = 0
  · rw [if_pos h0] at h
    rw [keyAt, if_pos h0]
    exact h
  · rw [if_neg h0] at h
    rw [keyAt, if_neg h0]
    exact h

/-- Helper: a key produced by `lastRankLt` is a key of the list or the
accumulator. -/
theorem lastRankLt_mem (B : List Int) (r : Int) :
    ∀ (l : List SLNode) (acc : Option Int) (b : Int),
      lastRankLt B r l acc = some b → b ∈ keysOf l ∨ acc = some b := by
  intro l
  induction l with
  | nil => intro acc b h; right; simpa [lastRankLt] using h
  | cons n tl ih =>
    intro acc b h
    by_cases hn : posIn B n.key < r
    · simp only [lastRankLt, if_pos hn] at h
      rcases ih (some n.key) b h with hmem | hacc
      · left; simp [keysOf]; right; simpa [keysOf] using hmem
      · left; simp [keysOf]; left; exact (Option.some.injEq _ _ ▸ hacc).symm
    · simp only [lastRankLt, if_neg hn] at h
      right; exact h

/-- Helper: a key produced by `lastRankLt` has bottom position below the
target rank when the accumulator does. -/
theorem lastRankLt_lt (B : List Int) (r : Int) :
    ∀ (l : List SLNode) (acc : Option Int),
      (∀ c, acc = some c → posIn B c < r) → ∀ b,
        lastRankLt B r l acc = some b → posIn B b < r := by
  intro l
  induction l with
  | nil => intro acc hacc b h; exact hacc b (by simpa [lastRankLt] using h)
  | cons n tl ih =>
    intro acc hacc b h
    by_cases hn : posIn B n.key < r
    · simp only [lastRankLt, if_pos hn] at h
      exact ih (some n.key) (by rintro c ⟨rfl⟩; exact hn) b h
    · simp only [lastRankLt, if_neg hn] at h
      exact hacc b h

/-- Helper: `lastRankLt` distributes over an append whose left part is all
below the target rank. -/
theorem lastRankLt_append_lt (B : List Int) (r : Int) :
    ∀ (l1 l2 : List SLNode), (∀ m ∈ l1, posIn B m.key < r) → ∀ acc,
      lastRankLt B r (l1 ++ l2) acc = lastRankLt B r l2 (lastRankLt B r l1 acc) := by
  intro l1
  induction l1 with
  | nil => intro l2 _ acc; simp [lastRankLt]
  | cons n tl ih =>
    intro l2 h acc
    have hn : posIn B n.key < r := h n (by simp)
    simp only [List.cons_append, lastRankLt, if_pos hn]
    exact ih l2 (fun m hm => h m (by simp [hm])) (some n.key)

/-- Helper: on nodes all below the target rank, `lastRankLt` returns the
last node's key (or the accumulator when empty). -/
theorem lastRankLt_all_lt (B : List Int) (r : Int) :
    ∀ (l : List SLNode), (∀ m ∈ l, posIn B m.key < r) → ∀ acc,
      lastRankLt B r l acc =
        (match l.getLast? with | some n => some n.key | none => acc) := by
  intro l
  induction l with
  | nil => intro _ acc; simp [lastRankLt]
  | cons n tl ih =>
    intro h acc
    have hn : posIn B n.key < r := h n (by simp)
    simp only [lastRankLt, if_pos hn]
    rw [ih (fun m hm => h m (by simp [hm])) (some n.key)]
    cases tl with
    | nil => simp
    | cons t tl2 =>
      have h2 : ((t :: tl2).getLast?).isSome := List.getLast?_isSome.mpr (by simp)
      rcases Option.isSome_iff_exists.mp h2 with ⟨y, hy⟩
      simp [hy]

/-- Helper: entering a sorted, law-abiding level at the key carried down,
the `findByRank` run stops at the rightmost node of the level whose bottom
position is below the target rank. -/
theorem level_run_eq (r : Int) (B : List Int) (strict : Bool) (lvl : SLevel)
    (hs : nodesSorted lvl.nodes)
    (hlaw : spanLaw B strict (-1) lvl.headSpan lvl.nodes) :
    ∀ sk : Option Int,
      (∀ a, sk = some a → a ∈ keysOf lvl.nodes ∧ posIn B a < r) →
      pkey B sk < r →
      byRankRun r (lvl.nodes.drop (startPos sk lvl.nodes))
          (spanAt lvl (startPos sk lvl.nodes)) (pkey B sk) (startPos sk lvl.nodes) =
        (countRankLt B r lvl.nodes, pkey B (lastRankLt B r lvl.nodes none)) := by
  intro sk hsk hrc
  cases sk with
  | none =>
    have h := byRankRun_eq r B strict lvl.nodes none lvl.headSpan 0
      (by simpa [pkey] using hlaw) hs hrc
    simpa [startPos, spanAt, pkey] using h
  | some a =>
    rcases hsk a rfl with ⟨hmem, har⟩
    rcases idxOfKey_mem a lvl.nodes hmem with ⟨n, hget, hkey⟩
    have hidx : idxOfKey a lvl.nodes < lvl.nodes.length :=
      (List.getElem?_eq_some_iff.mp hget).1
    have hspanAt : spanAt lvl (idxOfKey a lvl.nodes + 1) = n.span := by
      simp [spanAt, hget]
    have hlawS : spanLaw B strict (pkey B (some a)) n.span
        (lvl.nodes.drop (idxOfKey a lvl.nodes + 1)) := by
      have := spanLaw_suffix B strict lvl.nodes (-1) lvl.headSpan
        (idxOfKey a lvl.nodes) n hlaw hget
      simpa [pkey, hkey] using this
    have hrun := byRankRun_eq r B strict
      (lvl.nodes.drop (idxOfKey a lvl.nodes + 1)) (some a) n.span
      (idxOfKey a lvl.nodes + 1) hlawS hs.drop hrc
    rw [startPos, hspanAt, hrun]
    have htake_lt : ∀ m ∈ lvl.nodes.take (idxOfKey a lvl.nodes + 1), posIn B m.key < r := by
      intro m hm
      have hle := take_key_le lvl.nodes hs (idxOfKey a lvl.nodes) n hget m hm
      have := posIn_mono B m.key a (by omega)
      omega
    have htd := List.take_append_drop (idxOfKey a lvl.nodes + 1) lvl.nodes
    have hcount : countRankLt B r lvl.nodes =
        idxOfKey a lvl.nodes + 1 +
          countRankLt B r (lvl.nodes.drop (idxOfKey a lvl.nodes + 1)) := by
      conv_lhs => rw [countRankLt, ← htd]
      rw [List.countP_append]
      have hfull : (lvl.nodes.take (idxOfKey a lvl.nodes + 1)).countP
          (fun n => decide (posIn B n.key < r)) =
          (lvl.nodes.take (idxOfKey a lvl.nodes + 1)).length := by
        refine List.countP_eq_length.mpr ?_
        intro m hm
        simpa using htake_lt m hm
      rw [hfull, List.length_take, countRankLt]
      omega
    have hkey2 : lastRankLt B r lvl.nodes none =
        lastRankLt B r (lvl.nodes.drop (idxOfKey a lvl.nodes + 1)) (some a) := by
      conv_lhs => rw [← htd]
      rw [lastRankLt_append_lt B r _ _ htake_lt]
      have hgl : (lvl.nodes.take (idxOfKey a lvl.nodes + 1)).getLast? = some n := by
        rw [List.take_succ, hget]
        simp
      rw [lastRankLt_all_lt B r _ htake_lt, hgl]
      simp [hkey]
    rw [hcount, hkey2]

/-- Helper: one-step unfolding of the `findByRank` walk. -/
theorem byRankLevels_cons (r : Int) (lvl : SLevel) (lower : List SLevel)
    (sk : Option Int) (rc : Int) :
    byRankLevels r (lvl :: lower) sk rc =
      (if rc < r then
        (if (byRankRun r (lvl.nodes.drop (startPos sk lvl.nodes))
              (spanAt lvl (startPos sk lvl.nodes)) rc (startPos sk lvl.nodes)).2 < r then
          match lower with
          | [] => answerAt lvl (byRankRun r (lvl.nodes.drop (startPos sk lvl.nodes))
              (spanAt lvl (startPos sk lvl.nodes)) rc (startPos sk lvl.nodes)).1
          | _ :: _ => byRankLevels r lower
              (keyAt lvl (byRankRun r (lvl.nodes.drop (startPos sk lvl.nodes))
                (spanAt lvl (startPos sk lvl.nodes)) rc (startPos sk lvl.nodes)).1)
              (byRankRun r (lvl.nodes.drop (startPos sk lvl.nodes))
                (spanAt lvl (startPos sk lvl.nodes)) rc (startPos sk lvl.nodes)).2
         else answerAt lvl (byRankRun r (lvl.nodes.drop (startPos sk lvl.nodes))
            (spanAt lvl (startPos sk lvl.nodes)) rc (startPos sk lvl.nodes)).1)
       else answerAt lvl (startPos sk lvl.nodes)) := rfl

/-- Helper: on a well-formed stack entered below the target rank, the
`findByRank` walk descends to the bottom level and stops at the node whose
right neighbour sits at the target rank. -/
theorem byRankLevels_eq (r : Int) (B : List Int) :
    ∀ (lvls : List SLevel) (sk : Option Int),
      descentWF B lvls → spanOK B lvls → skROK B r lvls sk →
      pkey B sk < r →
      byRankLevels r lvls sk (pkey B sk) =
        (match lvls.getLast? with
         | some bl => answerAt bl (countRankLt B r bl.nodes)
         | none => none) := by
  intro lvls
  induction lvls with
  | nil => intro sk _ _ _ _; simp [byRankLevels]
  | cons lvl lower ih =>
    intro sk hd hsp hsk hrc
    have hskfun : ∀ a, sk = some a → a ∈ keysOf lvl.nodes ∧ posIn B a < r := by
      intro a ha
      subst ha
      cases lower <;> simpa [skROK] using hsk
    have hm1 : (-1 : Int) < r := by
      cases sk with
      | none => simpa [pkey] using hrc
      | some a =>
        have h0 : (0 : Int) ≤ posIn B a := by
          rw [posIn]
          positivity
        have := hrc
        simp only [pkey] at this
        omega
    have hsort : nodesSorted lvl.nodes := by
      cases lower with
      | nil =>
        rcases (by simpa [descentWF] using hd :
          nodesSorted lvl.nodes ∧ keysOf lvl.nodes = B) with ⟨h1, _⟩
        exact h1
      | cons l2 rest =>
        rcases (by simpa [descentWF] using hd :
          nodesSorted lvl.nodes ∧ (∀ n ∈ lvl.nodes, n.key ∈ keysOf l2.nodes) ∧
            descentWF B (l2 :: rest)) with ⟨h1, _, _⟩
        exact h1
    have hlaw : ∃ strict, spanLaw B strict (-1) lvl.headSpan lvl.nodes := by
      cases lower with
      | nil => exact ⟨true, by simpa [spanOK] using hsp⟩
      | cons l2 rest =>
        rcases (by simpa [spanOK] using hsp :
          spanLaw B false (-1) lvl.headSpan lvl.nodes ∧ spanOK B (l2 :: rest)) with ⟨h1, _⟩
        exact ⟨false, h1⟩
    rcases hlaw with ⟨strict, hlaw⟩
    have hrun := level_run_eq r B strict lvl hsort hlaw sk hskfun hrc
    rw [byRankLevels_cons, if_pos hrc, hrun]
    have hpr2lt : pkey B (lastRankLt B r lvl.nodes none) < r := by
      cases hlk : lastRankLt B r lvl.nodes none with
      | none => simpa [pkey] using hm1
      | some b =>
        have := lastRankLt_lt B r lvl.nodes none (by rintro c ⟨⟩) b hlk
        simpa [pkey] using this
    rw [if_pos hpr2lt]
    cases lower with
    | nil => rfl
    | cons lvl2 rest =>
      rcases (by simpa [descentWF] using hd :
          nodesSorted lvl.nodes ∧ (∀ n ∈ lvl.nodes, n.key ∈ keysOf lvl2.nodes) ∧
            descentWF B (lvl2 :: rest)) with ⟨_, hcontig, hd2⟩
      rcases (by simpa [spanOK] using hsp :
          spanLaw B false (-1) lvl.headSpan lvl.nodes ∧ spanOK B (lvl2 :: rest))
        with ⟨_, hsp2⟩
      have hkeyAt : keyAt lvl (countRankLt B r lvl.nodes) = lastRankLt B r lvl.nodes none :=
        keyAt_countRankLt B r lvl hsort
      have hsk2 : skROK B r (lvl2 :: rest) (lastRankLt B r lvl.nodes none) := by
        cases hlk : lastRankLt B r lvl.nodes none with
        | none => simp [skROK]
        | some b =>
          have hbmem : b ∈ keysOf lvl.nodes := by
            rcases lastRankLt_mem B r lvl.nodes none b hlk with h | h
            · exact h
            · cases h
          have hblt : posIn B b < r :=
            lastRankLt_lt B r lvl.nodes none (by rintro c ⟨⟩) b hlk
          rcases List.mem_map.mp hbmem with ⟨m, hm, hmk⟩
          exact ⟨hmk ▸ hcontig m hm, hblt⟩
      have hrec := ih (lastRankLt B r lvl.nodes none) hd2 hsp2 hsk2 hpr2lt
      rw [hkeyAt, hrec]
      rw [List.getLast?_cons_cons]

/-- Helper: at the bottom level, the count of below-rank nodes is the
target rank clamped to the element count. -/
theorem countRankLt_bottom :
    ∀ (ns : List SLNode), nodesSorted ns → ∀ (r : Int),
      (countRankLt (keysOf ns) r ns : Int) = max 0 (min r (ns.length : Int)) := by
  intro ns
  induction ns with
  | nil =>
    intro _ r
    simp only [countRankLt, List.countP_nil, List.length_nil, Nat.cast_zero, Int.ofNat_zero]
    omega
  | cons n tl ih =>
    intro hs r
    rcases List.pairwise_cons.mp hs with ⟨hn, htl⟩
    have h0 : posIn (keysOf (n :: tl)) n.key = 0 :=
      posIn_getElem (n :: tl) hs 0 n (by simp)
    have hshift : ∀ m ∈ tl, posIn (keysOf (n :: tl)) m.key = posIn (keysOf tl) m.key + 1 := by
      intro m hm
      have hlt : n.key < m.key := hn m hm
      rw [posIn, posIn, keysOf, keysOf, List.map_cons, List.countP_cons]
      simp [hlt]
    have hcong : tl.countP (fun m => decide (posIn (keysOf (n :: tl)) m.key < r)) =
        tl.countP (fun m => decide (posIn (keysOf tl) m.key < r - 1)) := by
      refine List.countP_congr ?_
      intro m hm
      simp only [decide_eq_true_eq]
      rw [hshift m hm]
      omega
    have hih := ih htl (r - 1)
    rw [countRankLt, List.countP_cons, h0]
    rw [show (tl.countP fun m => decide (posIn (keysOf (n :: tl)) m.key < r)) =
      countRankLt (keysOf tl) (r - 1) tl from hcong]
    have hd : (if decide (0 < r) = true then 1 else 0) = (if 0 < r then 1 else 0) := by
      by_cases hr : (0 : Int) < r <;> simp [hr]
    rw [hd]
    push_cast
    push_cast at hih
    simp only [List.length_cons]
    push_cast
    rw [Int.max_def, Int.min_def] at hih ⊢
    by_cases hr : (0 : Int) < r <;>
      simp only [hr, if_true, if_false] <;>
      split_ifs at hih ⊢ <;> omega

/-- Helper: reading the right neighbour's data at the bottom level is an
indexed read of the abstract contents. -/
theorem answerAt_levelKD (lvl : SLevel) (M : List (Int × Int))
    (h : levelKD lvl.nodes = M.map (fun p => (p.1, some p.2))) (i : Nat) :
    answerAt lvl i = (M[i]?).map (·.2) := by
  have hget : (lvl.nodes[i]?).map (fun n => (n.key, n.data)) =
      (M[i]?).map (fun p => (p.1, some p.2)) := by
    rw [show (lvl.nodes[i]?).map (fun n => (n.key, n.data)) = (levelKD lvl.nodes)[i]? by
      rw [levelKD, List.getElem?_map], h, List.getElem?_map]
  rw [answerAt]
  cases hn : lvl.nodes[i]? with
  | none =>
    rw [hn] at hget
    cases hM : M[i]? with
    | none => simp
    | some p => rw [hM] at hget; simp at hget
  | some n =>
    rw [hn] at hget
    cases hM : M[i]? with
    | none => rw [hM] at hget; simp at hget
    | some p =>
      rw [hM] at hget
      simp only [Option.map_some', Option.some.injEq, Prod.mk.injEq] at hget
      simp [hget.2]

/-- Helper: a level carrying the abstract contents has as many nodes as
there are entries. -/
theorem levelKD_length (ns : List SLNode) (M : List (Int × Int))
    (h : levelKD ns = M.map (fun p => (p.1, some p.2))) : ns.length = M.length := by
  have := congrArg List.length h
  simpa [levelKD] using this

/-- Helper: on a fully well-formed state, `findByRank` at a nonnegative
rank returns the payload stored at that rank (and a miss beyond the
element count). -/
theorem byRank_eq (sl : SkipList) (M : List (Int × Int)) (h : WFm sl M)
    (r : Int) (h0 : 0 ≤ r) :
    sl.findByRank r = (M[r.toNat]?).map (·.2) := by
  rcases h with ⟨⟨hM, hlv⟩, hsp, _⟩
  rcases SWFlevels_getLast M sl.levels hlv with ⟨bl, hlast, hkd⟩
  have hkeys : keysOf bl.nodes = keysKV M := keysOf_of_levelKD bl.nodes M hkd
  have hbs : nodesSorted bl.nodes := nodesSorted_of_levelKD bl.nodes M hM hkd
  have hwalk := byRankLevels_eq r (keysKV M) sl.levels none
    (SWFlevels_descentWF M hM sl.levels hlv) hsp
    (by cases sl.levels <;> simp [skROK]) (by simp [pkey]; omega)
  rw [SkipList.findByRank, show (-1 : Int) = pkey (keysKV M) none from rfl, hwalk, hlast]
  rw [show (match some bl with
      | some bl => answerAt bl (countRankLt (keysKV M) r bl.nodes)
      | none => none) = answerAt bl (countRankLt (keysKV M) r bl.nodes) from rfl]
  have hcnt := countRankLt_bottom bl.nodes hbs r
  rw [hkeys] at hcnt
  have hlen : bl.nodes.length = M.length := levelKD_length bl.nodes M hkd
  rw [answerAt_levelKD bl M hkd]
  by_cases hlt : r < (M.length : Int)
  · have : countRankLt (keysKV M) r bl.nodes = r.toNat := by
      have : (countRankLt (keysKV M) r bl.nodes : Int) = r := by
        rw [hcnt, hlen]; omega
      omega
    rw [this]
  · have hc : countRankLt (keysKV M) r bl.nodes = M.length := by
      have : (countRankLt (keysKV M) r bl.nodes : Int) = (M.length : Int) := by
        rw [hcnt, hlen]; omega
      omega
    rw [hc]
    have h1 : M[M.length]? = none := by simp
    have h2 : M[r.toNat]? = none := by
      refine List.getElem?_eq_none ?_
      omega
    rw [h1, h2]

/-- Helper: the span law is invariant under uniformly shifting the bottom
positions of every node of the suffix and of the total length by the same
amount. -/
theorem spanLaw_shift (B B' : List Int) (δ : Int) (strict : Bool)
    (hlen : (B'.length : Int) = (B.length : Int) + δ) :
    ∀ (ns : List SLNode) (cur curSpan : Int),
      (∀ m ∈ ns, posIn B' m.key = posIn B m.key + δ) →
      spanLaw B strict cur curSpan ns →
      spanLaw B' strict (cur + δ) curSpan ns := by
  intro ns
  induction ns with
  | nil =>
    intro cur curSpan _ hlaw
    cases strict with
    | true =>
      have h1 : curSpan = (B.length : Int) - cur := by simpa [spanLaw] using hlaw
      show spanLaw B' true (cur + δ) curSpan []
      simp only [spanLaw, if_pos]
      omega
    | false =>
      have h1 : (B.length : Int) - cur ≤ curSpan := by simpa [spanLaw] using hlaw
      show spanLaw B' false (cur + δ) curSpan []
      simp only [spanLaw, Bool.false_eq_true, if_false]
      omega
  | cons n tl ih =>
    intro cur curSpan hsh hlaw
    rcases hlaw with ⟨hspan, hlaw2⟩
    refine ⟨?_, ?_⟩
    · rw [hsh n (by simp)]
      omega
    · have := ih (posIn B n.key) n.span (fun m hm => hsh m (by simp [hm])) hlaw2
      rw [hsh n (by simp)]
      exact this

/-- Helper: keys of an in-range index insertion. -/
theorem insIdx_eq_take_drop (nn : SLNode) :
    ∀ (ns : List SLNode) (pos : Nat), pos ≤ ns.length →
      insIdx nn ns pos = ns.take pos ++ nn :: ns.drop pos := by
  intro ns
  induction ns with
  | nil =>
    intro pos hpos
    have h0 : pos = 0 := by simpa using hpos
    subst h0
    rfl
  | cons n tl ih =>
    intro pos hpos
    cases pos with
    | zero => rfl
    | succ pos =>
      simp only [insIdx, List.take_succ_cons, List.drop_succ_cons, List.cons_append,
        List.cons.injEq, true_and]
      exact ih pos (by simpa using hpos)

/-- Helper: removal at an in-range index. -/
theorem remIdx_eq_take_drop :
    ∀ (ns : List SLNode) (pos : Nat),
      remIdx ns pos = ns.take pos ++ ns.drop (pos + 1) := by
  intro ns
  induction ns with
  | nil => intro pos; cases pos <;> rfl
  | cons n tl ih =>
    intro pos
    cases pos with
    | zero => rfl
    | succ pos =>
      simp only [remIdx, List.take_succ_cons, List.drop_succ_cons, List.cons_append,
        List.cons.injEq, true_and]
      exact ih pos

/-- Helper: a span-only modification keeps keys and payloads. -/
theorem levelKD_modIdx (f : Int → Int) :
    ∀ (ns : List SLNode) (i : Nat),
      levelKD (modIdx (fun n => { n with span := f n.span }) ns i) = levelKD ns := by
  intro ns
  induction ns with
  | nil => intro i; rfl
  | cons n tl ih =>
    intro i
    cases i with
    | zero => simp [modIdx, levelKD]
    | succ i => simpa [modIdx, levelKD] using ih i

/-- Helper: a span-only modification keeps the key list. -/
theorem keysOf_modIdx (f : Int → Int) (ns : List SLNode) (i : Nat) :
    keysOf (modIdx (fun n => { n with span := f n.span }) ns i) = keysOf ns := by
  have := levelKD_modIdx f ns i
  have h1 := congrArg (List.map Prod.fst) this
  simpa [levelKD, keysOf, List.map_map, Function.comp] using h1

/-- Helper: unfolding of the span law at a cons. -/
theorem spanLaw_cons_iff (B : List Int) (strict : Bool) (cur curSpan : Int)
    (n : SLNode) (tl : List SLNode) :
    spanLaw B strict cur curSpan (n :: tl) ↔
      curSpan = posIn B n.key - cur ∧ spanLaw B strict (posIn B n.key) n.span tl :=
  Iff.rfl

/-- Helper: sorted insertion decomposes as take-and-drop at the insertion
point when the key is new. -/
theorem insKV_take_drop (x d : Int) :
    ∀ M : List (Int × Int), M.Pairwise (fun a b => a.1 < b.1) → x ∉ keysKV M →
      insKV x d M =
        M.take (M.countP (fun p => decide (p.1 < x))) ++ (x, d) ::
          M.drop (M.countP (fun p => decide (p.1 < x))) := by
  intro M
  induction M with
  | nil => intro _ _; rfl
  | cons p tl ih =>
    intro hM hx
    rcases p with ⟨a, b⟩
    rcases List.pairwise_cons.mp hM with ⟨ha, htl⟩
    have hne : x ≠ a := by
      intro he
      exact hx (by simp [keysKV, he])
    by_cases hlt : x < a
    · have h0 : ((a, b) :: tl).countP (fun p => decide (p.1 < x)) = 0 := by
        refine List.countP_eq_zero.mpr ?_
        intro q hq
        simp only [decide_eq_true_eq]
        rcases List.mem_cons.mp hq with rfl | hq2
        · simp; omega
        · have := ha q hq2; simp; omega
      rw [h0]
      simp [insKV, hlt]
    · have halt : a < x := by omega
      have hcnt : ((a, b) :: tl).countP (fun p => decide (p.1 < x)) =
          tl.countP (fun p => decide (p.1 < x)) + 1 := by
        simp [List.countP_cons, halt]
      rw [hcnt]
      have hx2 : x ∉ keysKV tl := fun h => hx (by simp [keysKV] at h ⊢; right; exact h)
      rw [show insKV x d ((a, b) :: tl) = (a, b) :: insKV x d tl by
        simp [insKV, hne]; omega]
      rw [ih htl hx2]
      simp

/-- Helper: sorted insertion at a present key replaces the entry at the
insertion point. -/
theorem insKV_replace_take_drop (x d : Int) :
    ∀ M : List (Int × Int), M.Pairwise (fun a b => a.1 < b.1) → x ∈ keysKV M →
      insKV x d M =
        M.take (M.countP (fun p => decide (p.1 < x))) ++ (x, d) ::
          M.drop (M.countP (fun p => decide (p.1 < x)) + 1) := by
  intro M
  induction M with
  | nil => intro _ h; simp [keysKV] at h
  | cons p tl ih =>
    intro hM hx
    rcases p with ⟨a, b⟩
    rcases List.pairwise_cons.mp hM with ⟨ha, htl⟩
    by_cases hxa : x = a
    · subst hxa
      have h0 : ((x, b) :: tl).countP (fun p => decide (p.1 < x)) = 0 := by
        refine List.countP_eq_zero.mpr ?_
        intro q hq
        simp only [decide_eq_true_eq]
        rcases List.mem_cons.mp hq with rfl | hq2
        · simp
        · have := ha q hq2; simp; omega
      rw [h0]
      simp [insKV]
    · have hx2 : x ∈ keysKV tl := by
        rcases (by simpa [keysKV] using hx : x = a ∨ x ∈ keysKV tl) with h | h
        · exact absurd h hxa
        · exact h
      have halt : a < x := by
        rcases List.mem_map.mp hx2 with ⟨q, hq, hqk⟩
        have := ha q hq; omega
      have hcnt : ((a, b) :: tl).countP (fun p => decide (p.1 < x)) =
          tl.countP (fun p => decide (p.1 < x)) + 1 := by
        simp [List.countP_cons, halt]
      rw [hcnt]
      rw [show insKV x d ((a, b) :: tl) = (a, b) :: insKV x d tl by
        simp [insKV, hxa]; omega]
      rw [ih htl hx2]
      simp

/-- Helper: sorted deletion decomposes as take-and-drop at the deletion
point. -/
theorem delKV_take_drop (x : Int) :
    ∀ M : List (Int × Int), M.Pairwise (fun a b => a.1 < b.1) → x ∈ keysKV M →
      delKV x M =
        M.take (M.countP (fun p => decide (p.1 < x))) ++
          M.drop (M.countP (fun p => decide (p.1 < x)) + 1) := by
  intro M
  induction M with
  | nil => intro _ h; simp [keysKV] at h
  | cons p tl ih =>
    intro hM hx
    rcases p with ⟨a, b⟩
    rcases List.pairwise_cons.mp hM with ⟨ha, htl⟩
    by_cases hxa : x = a
    · subst hxa
      have h0 : ((x, b) :: tl).countP (fun p => decide (p.1 < x)) = 0 := by
        refine List.countP_eq_zero.mpr ?_
        intro q hq
        simp only [decide_eq_true_eq]
        rcases List.mem_cons.mp hq with rfl | hq2
        · simp
        · have := ha q hq2; simp; omega
      rw [h0]
      simp [delKV]
    · have hx2 : x ∈ keysKV tl := by
        rcases (by simpa [keysKV] using hx : x = a ∨ x ∈ keysKV tl) with h | h
        · exact absurd h hxa
        · exact h
      have halt : a < x := by
        rcases List.mem_map.mp hx2 with ⟨q, hq, hqk⟩
        have := ha q hq; omega
      have hcnt : ((a, b) :: tl).countP (fun p => decide (p.1 < x)) =
          tl.countP (fun p => decide (p.1 < x)) + 1 := by
        simp [List.countP_cons, halt]
      rw [hcnt]
      rw [show delKV x ((a, b) :: tl) = (a, b) :: delKV x tl by
        simp [delKV, hxa]]
      rw [ih htl hx2]
      simp

/-- Helper: inserting a fresh key shifts the position of every strictly
greater key by one. -/
theorem posIn_insKV (x d : Int) (M : List (Int × Int))
    (hM : M.Pairwise (fun a b => a.1 < b.1)) (hx : x ∉ keysKV M) (y : Int) :
    posIn (keysKV (insKV x d M)) y =
      posIn (keysKV M) y + (if x < y then 1 else 0) := by
  rw [insKV_take_drop x d M hM hx]
  rw [posIn, posIn, keysKV, keysKV]
  conv_rhs => rw [← List.take_append_drop (M.countP (fun p => decide (p.1 < x))) M]
  rw [List.map_append, List.map_cons, List.countP_append, List.countP_cons,
    List.map_append, List.countP_append]
  by_cases hxy : x < y <;> simp [hxy] <;> push_cast <;> ring

/-- Helper: a stored key sits exactly at its position, with its stored
payload. -/
theorem lookup_found_KV (x : Int) :
    ∀ M : List (Int × Int), M.Pairwise (fun a b => a.1 < b.1) → x ∈ keysKV M →
      ∃ d, M[M.countP (fun p => decide (p.1 < x))]? = some (x, d) ∧
        lookupKV x M = some d := by
  intro M
  induction M with
  | nil => intro _ h; simp [keysKV] at h
  | cons p tl ih =>
    intro hM hx
    rcases p with ⟨a, b⟩
    rcases List.pairwise_cons.mp hM with ⟨ha, htl⟩
    by_cases hxa : x = a
    · subst hxa
      have h0 : ((x, b) :: tl).countP (fun p => decide (p.1 < x)) = 0 := by
        refine List.countP_eq_zero.mpr ?_
        intro q hq
        simp only [decide_eq_true_eq]
        rcases List.mem_cons.mp hq with rfl | hq2
        · simp
        · have := ha q hq2; simp; omega
      exact ⟨b, by simp [h0], by simp [lookupKV]⟩
    · have hx2 : x ∈ keysKV tl := by
        rcases (by simpa [keysKV] using hx : x = a ∨ x ∈ keysKV tl) with h | h
        · exact absurd h hxa
        · exact h
      have halt : a < x := by
        rcases List.mem_map.mp hx2 with ⟨q, hq, hqk⟩
        have := ha q hq; omega
      have hcnt : ((a, b) :: tl).countP (fun p => decide (p.1 < x)) =
          tl.countP (fun p => decide (p.1 < x)) + 1 := by
        simp [List.countP_cons, halt]
      rcases ih htl hx2 with ⟨d, hget, hlook⟩
      refine ⟨d, ?_, ?_⟩
      · rw [hcnt]
        simpa using hget
      · simpa [lookupKV, hxa] using hlook

/-- Helper: deleting a key shifts the position of every strictly greater
key back by one. -/
theorem posIn_delKV (x : Int) (M : List (Int × Int))
    (hM : M.Pairwise (fun a b => a.1 < b.1)) (hx : x ∈ keysKV M) (y : Int) :
    posIn (keysKV (delKV x M)) y =
      posIn (keysKV M) y - (if x < y then 1 else 0) := by
  rcases lookup_found_KV x M hM hx with ⟨d, hget, _⟩
  have hclen : M.countP (fun p => decide (p.1 < x)) < M.length :=
    (List.getElem?_eq_some_iff.mp hget).1
  have hdropc : M.drop (M.countP (fun p => decide (p.1 < x))) =
      (x, d) :: M.drop (M.countP (fun p => decide (p.1 < x)) + 1) := by
    rw [List.drop_eq_getElem_cons hclen]
    have := (List.getElem?_eq_some_iff.mp hget).2
    rw [this]
  rw [delKV_take_drop x M hM hx]
  conv_rhs => rw [← List.take_append_drop (M.countP (fun p => decide (p.1 < x))) M, hdropc]
  rw [posIn, posIn, keysKV, keysKV, List.map_append, List.countP_append,
    List.map_append, List.map_cons, List.countP_append, List.countP_cons]
  by_cases hxy : x < y <;> simp [hxy] <;> push_cast <;> ring

/-- Helper: inserting a fresh key grows the contents by one entry. -/
theorem length_insKV_new (x d : Int) (M : List (Int × Int))
    (hM : M.Pairwise (fun a b => a.1 < b.1)) (hx : x ∉ keysKV M) :
    (insKV x d M).length = M.length + 1 := by
  rw [insKV_take_drop x d M hM hx]
  have := List.countP_le_length (fun p => decide (p.1 < x)) (l := M)
  simp [List.length_take, List.length_drop]
  omega

/-- Helper: replacing a present key keeps the length. -/
theorem length_insKV_replace (x d : Int) (M : List (Int × Int))
    (hM : M.Pairwise (fun a b => a.1 < b.1)) (hx : x ∈ keysKV M) :
    (insKV x d M).length = M.length := by
  rcases lookup_found_KV x M hM hx with ⟨e, hget, _⟩
  have hclen : M.countP (fun p => decide (p.1 < x)) < M.length :=
    (List.getElem?_eq_some_iff.mp hget).1
  rw [insKV_replace_take_drop x d M hM hx]
  simp [List.length_take, List.length_drop]
  omega

/-- Helper: deleting a present key shrinks the contents by one entry. -/
theorem length_delKV (x : Int) (M : List (Int × Int))
    (hM : M.Pairwise (fun a b => a.1 < b.1)) (hx : x ∈ keysKV M) :
    (delKV x M).length + 1 = M.length := by
  rcases lookup_found_KV x M hM hx with ⟨e, hget, _⟩
  have hclen : M.countP (fun p => decide (p.1 < x)) < M.length :=
    (List.getElem?_eq_some_iff.mp hget).1
  rw [delKV_take_drop x M hM hx]
  simp [List.length_take, List.length_drop]
  omega

/-- Helper: membership in the keys after an insertion. -/
theorem mem_keys_insKV (x d y : Int) :
    ∀ M : List (Int × Int), (y ∈ keysKV (insKV x d M) ↔ y = x ∨ y ∈ keysKV M) := by
  intro M
  induction M with
  | nil => simp [insKV, keysKV]
  | cons p tl ih =>
    rcases p with ⟨a, b⟩
    by_cases h1 : x < a
    · simp [insKV, h1, keysKV]
    · by_cases h2 : x = a
      · subst h2
        simp only [insKV, if_neg h1, if_pos rfl]
        simp [keysKV]
        try tauto
      · simp only [insKV, if_neg h1, if_neg h2]
        simp [keysKV] at ih ⊢
        tauto

/-- Helper: deletion yields a sublist. -/
theorem delKV_sublist (x : Int) :
    ∀ M : List (Int × Int), (delKV x M).Sublist M := by
  intro M
  induction M with
  | nil => simp [delKV]
  | cons p tl ih =>
    rcases p with ⟨a, b⟩
    by_cases h : x = a
    · simp only [delKV, if_pos h]
      exact (List.sublist_cons_self _ _)
    · simp only [delKV, if_neg h]
      exact ih.cons₂ _

/-- Helper: sorted contents stay sorted under deletion. -/
theorem delKV_sorted (x : Int) (M : List (Int × Int))
    (hM : M.Pairwise (fun a b => a.1 < b.1)) :
    (delKV x M).Pairwise (fun a b => a.1 < b.1) :=
  hM.sublist (delKV_sublist x M)

/-- Helper: entries of an insertion come from the new entry or the old
contents. -/
theorem mem_insKV (x d : Int) :
    ∀ (M : List (Int × Int)) (q : Int × Int), q ∈ insKV x d M → q = (x, d) ∨ q ∈ M := by
  intro M
  induction M with
  | nil => intro q hq; simpa [insKV] using hq
  | cons p tl ih =>
    intro q hq
    rcases p with ⟨a, b⟩
    by_cases h1 : x < a
    · simp only [insKV, if_pos h1] at hq
      rcases List.mem_cons.mp hq with rfl | hq2
      · exact Or.inl rfl
      · exact Or.inr hq2
    · by_cases h2 : x = a
      · simp only [insKV, if_neg h1, if_pos h2] at hq
        rcases List.mem_cons.mp hq with rfl | hq2
        · exact Or.inl rfl
        · exact Or.inr (by simp [hq2])
      · simp only [insKV, if_neg h1, if_neg h2] at hq
        rcases List.mem_cons.mp hq with rfl | hq2
        · exact Or.inr (by simp)
        · rcases ih q hq2 with h | h
          · exact Or.inl h
          · exact Or.inr (by simp [h])

/-- Helper: sorted contents stay sorted under insertion. -/
theorem insKV_sorted (x d : Int) :
    ∀ M : List (Int × Int), M.Pairwise (fun a b => a.1 < b.1) →
      (insKV x d M).Pairwise (fun a b => a.1 < b.1) := by
  intro M
  induction M with
  | nil => intro _; simp [insKV]
  | cons p tl ih =>
    intro hM
    rcases p with ⟨a, b⟩
    rcases List.pairwise_cons.mp hM with ⟨ha, htl⟩
    by_cases h1 : x < a
    · simp only [insKV, if_pos h1]
      refine List.pairwise_cons.mpr ⟨?_, hM⟩
      intro q hq
      rcases List.mem_cons.mp hq with rfl | hq2
      · simpa using h1
      · have := ha q hq2
        simp
        omega
    · by_cases h2 : x = a
      · subst h2
        simp only [insKV, if_neg h1, if_pos rfl]
        refine List.pairwise_cons.mpr ⟨?_, htl⟩
        intro q hq
        simpa using ha q hq
      · simp only [insKV, if_neg h1, if_neg h2]
        refine List.pairwise_cons.mpr ⟨?_, ih htl⟩
        intro q hq
        rcases mem_insKV x d tl q hq with rfl | hq2
        · simp; omega
        · exact ha q hq2

/-- Helper: `spanAt` one step in. -/
theorem spanAt_cons (hs0 : Int) (n : SLNode) (tl : List SLNode) (c : Nat) :
    spanAt ⟨hs0, n :: tl⟩ (c + 1) = spanAt ⟨n.span, tl⟩ c := by
  cases c with
  | zero => simp [spanAt]
  | succ c => simp [spanAt]

/-- Helper: `insertAt` one step in. -/
theorem insertAt_cons (hs0 : Int) (n : SLNode) (tl : List SLNode) (c : Nat) (nn : SLNode) :
    insertAt ⟨hs0, n :: tl⟩ (c + 1) nn =
      ⟨hs0, { n with span := (insertAt ⟨n.span, tl⟩ c nn).headSpan } ::
              (insertAt ⟨n.span, tl⟩ c nn).nodes⟩ := by
  cases c with
  | zero => simp [insertAt, modIdx, insIdx]
  | succ c => simp [insertAt, modIdx, insIdx]

/-- Helper: the span law survives the linking-in of a fresh key's node at
a level, relative to the grown bottom contents. -/
theorem insertAt_spanLaw (B B' : List Int) (x : Int) (d? : Option Int) (iar : Int)
    (hB' : ∀ y, posIn B' y = posIn B y + (if x < y then 1 else 0))
    (hlen : (B'.length : Int) = (B.length : Int) + 1)
    (hiar : iar = posIn B' x)
    (strict : Bool) :
    ∀ (ns : List SLNode) (cur curSpan : Int) (acc : Option Int),
      spanLaw B strict cur curSpan ns →
      nodesSorted ns →
      (∀ m ∈ ns, m.key ≠ x) →
      pkey B acc = cur →
      spanLaw B' strict cur
        (insertAt ⟨curSpan, ns⟩ (countLt x ns)
          ⟨x, d?, spanAt ⟨curSpan, ns⟩ (countLt x ns) + 1 -
            (iar - pkey B (lastKeyLt x ns acc))⟩).headSpan
        (insertAt ⟨curSpan, ns⟩ (countLt x ns)
          ⟨x, d?, spanAt ⟨curSpan, ns⟩ (countLt x ns) + 1 -
            (iar - pkey B (lastKeyLt x ns acc))⟩).nodes := by
  have hxx : posIn B' x = posIn B x := by
    have := hB' x
    simpa using this
  intro ns
  induction ns with
  | nil =>
    intro cur curSpan acc hlaw hsort hnx hacc
    have hc : countLt x ([] : List SLNode) = 0 := rfl
    rw [hc]
    have hlk : lastKeyLt x ([] : List SLNode) acc = acc := rfl
    rw [hlk, hacc]
    have hsa : spanAt ⟨curSpan, ([] : List SLNode)⟩ 0 = curSpan := rfl
    rw [hsa]
    show spanLaw B' strict cur (curSpan + 1 - (curSpan + 1 - (iar - cur)))
      [⟨x, d?, curSpan + 1 - (iar - cur)⟩]
    refine ⟨by show curSpan + 1 - (curSpan + 1 - (iar - cur)) = posIn B' x - cur
               rw [hiar]; ring, ?_⟩
    show spanLaw B' strict (posIn B' x) (curSpan + 1 - (iar - cur)) []
    cases strict with
    | true =>
      have h1 : curSpan = (B.length : Int) - cur := by simpa [spanLaw] using hlaw
      show spanLaw B' true (posIn B' x) (curSpan + 1 - (iar - cur)) []
      simp only [spanLaw, if_pos]
      omega
    | false =>
      have h1 : (B.length : Int) - cur ≤ curSpan := by simpa [spanLaw] using hlaw
      show spanLaw B' false (posIn B' x) (curSpan + 1 - (iar - cur)) []
      simp only [spanLaw, Bool.false_eq_true, if_false]
      omega
  | cons n tl ih =>
    intro cur curSpan acc hlaw hsort hnx hacc
    rcases hlaw with ⟨hspan, hlaw2⟩
    rcases List.pairwise_cons.mp hsort with ⟨hn, htl⟩
    have hnex : n.key ≠ x := hnx n (by simp)
    by_cases hx : n.key < x
    · have hcnt : countLt x (n :: tl) = countLt x tl + 1 := by
        simp [countLt, List.countP_cons, hx]
      have hlk : lastKeyLt x (n :: tl) acc = lastKeyLt x tl (some n.key) := by
        simp [lastKeyLt, hx]
      rw [hcnt, hlk, spanAt_cons, insertAt_cons]
      have hBn : posIn B' n.key = posIn B n.key := by
        have := hB' n.key
        simp only [if_neg (by omega : ¬ x < n.key)] at this
        omega
      have hih := ih (posIn B n.key) n.span (some n.key) hlaw2 htl
        (fun m hm => hnx m (by simp [hm])) rfl
      refine ⟨by rw [hBn]; exact hspan, ?_⟩
      rw [hBn]
      exact hih
    · have hgt : x < n.key := by omega
      have hc0 : countLt x (n :: tl) = 0 := by
        refine List.countP_eq_zero.mpr ?_
        intro m hm
        simp only [decide_eq_true_eq]
        rcases List.mem_cons.mp hm with rfl | hm2
        · omega
        · have := hn m hm2; omega
      have hlk : lastKeyLt x (n :: tl) acc = acc := by
        simp [lastKeyLt, hx]
      rw [hc0, hlk, hacc]
      have hsa : spanAt ⟨curSpan, n :: tl⟩ 0 = curSpan := rfl
      rw [hsa]
      show spanLaw B' strict cur (curSpan + 1 - (curSpan + 1 - (iar - cur)))
        (⟨x, d?, curSpan + 1 - (iar - cur)⟩ :: n :: tl)
      refine ⟨by show curSpan + 1 - (curSpan + 1 - (iar - cur)) = posIn B' x - cur
                 rw [hiar]; ring, ?_⟩
      show spanLaw B' strict (posIn B' x) (curSpan + 1 - (iar - cur)) (n :: tl)
      have hBn : posIn B' n.key = posIn B n.key + 1 := by
        have := hB' n.key
        simp only [if_pos hgt] at this
        omega
      refine ⟨by rw [hBn, hiar]; omega, ?_⟩
      rw [hBn]
      have hshift := spanLaw_shift B B' 1 strict (by omega) tl (posIn B n.key) n.span
        (fun m hm => by
          have := hB' m.key
          have hxm : x < m.key := lt_trans hgt (hn m hm)
          simp only [if_pos hxm] at this
          omega) hlaw2
      exact hshift

/-- Helper: `bumpSpanAt` one step in. -/
theorem bumpSpanAt_cons (hs0 : Int) (n : SLNode) (tl : List SLNode) (c : Nat) (d : Int) :
    bumpSpanAt ⟨hs0, n :: tl⟩ (c + 1) d =
      ⟨hs0, { n with span := (bumpSpanAt ⟨n.span, tl⟩ c d).headSpan } ::
              (bumpSpanAt ⟨n.span, tl⟩ c d).nodes⟩ := by
  cases c with
  | zero => simp [bumpSpanAt, modIdx]
  | succ c => simp [bumpSpanAt, modIdx]

/-- Helper: the span law survives the span increment of the approach point
at levels the fresh key's tower does not reach. -/
theorem bumpSpanAt_spanLaw (B B' : List Int) (x : Int)
    (hB' : ∀ y, posIn B' y = posIn B y + (if x < y then 1 else 0))
    (hlen : (B'.length : Int) = (B.length : Int) + 1)
    (strict : Bool) :
    ∀ (ns : List SLNode) (cur curSpan : Int),
      spanLaw B strict cur curSpan ns →
      nodesSorted ns →
      (∀ m ∈ ns, m.key ≠ x) →
      spanLaw B' strict cur
        (bumpSpanAt ⟨curSpan, ns⟩ (countLt x ns) 1).headSpan
        (bumpSpanAt ⟨curSpan, ns⟩ (countLt x ns) 1).nodes := by
  intro ns
  induction ns with
  | nil =>
    intro cur curSpan hlaw _ _
    show spanLaw B' strict cur (curSpan + 1) []
    cases strict with
    | true =>
      have h1 : curSpan = (B.length : Int) - cur := by simpa [spanLaw] using hlaw
      simp only [spanLaw, if_pos]
      omega
    | false =>
      have h1 : (B.length : Int) - cur ≤ curSpan := by simpa [spanLaw] using hlaw
      simp only [spanLaw, Bool.false_eq_true, if_false]
      omega
  | cons n tl ih =>
    intro cur curSpan hlaw hsort hnx
    rcases hlaw with ⟨hspan, hlaw2⟩
    rcases List.pairwise_cons.mp hsort with ⟨hn, htl⟩
    have hnex : n.key ≠ x := hnx n (by simp)
    by_cases hx : n.key < x
    · have hcnt : countLt x (n :: tl) = countLt x tl + 1 := by
        simp [countLt, List.countP_cons, hx]
      rw [hcnt, bumpSpanAt_cons]
      have hBn : posIn B' n.key = posIn B n.key := by
        have := hB' n.key
        simp only [if_neg (by omega : ¬ x < n.key)] at this
        omega
      refine ⟨by rw [hBn]; exact hspan, ?_⟩
      rw [hBn]
      exact ih (posIn B n.key) n.span hlaw2 htl (fun m hm => hnx m (by simp [hm]))
    · have hgt : x < n.key := by omega
      have hc0 : countLt x (n :: tl) = 0 := by
        refine List.countP_eq_zero.mpr ?_
        intro m hm
        simp only [decide_eq_true_eq]
        rcases List.mem_cons.mp hm with rfl | hm2
        · omega
        · have := hn m hm2; omega
      rw [hc0]
      show spanLaw B' strict cur (curSpan + 1) (n :: tl)
      have hBn : posIn B' n.key = posIn B n.key + 1 := by
        have := hB' n.key
        simp only [if_pos hgt] at this
        omega
      refine ⟨by rw [hBn]; omega, ?_⟩
      rw [hBn]
      exact spanLaw_shift B B' 1 strict (by omega) tl (posIn B n.key) n.span
        (fun m hm => by
          have := hB' m.key
          have hxm : x < m.key := lt_trans hgt (hn m hm)
          simp only [if_pos hxm] at this
          omega) hlaw2

/-- Helper: `spliceAt` one step in. -/
theorem spliceAt_cons (hs0 : Int) (n : SLNode) (tl : List SLNode) (c : Nat) (rs : Int) :
    spliceAt ⟨hs0, n :: tl⟩ (c + 1) rs =
      ⟨hs0, { n with span := (spliceAt ⟨n.span, tl⟩ c rs).headSpan } ::
              (spliceAt ⟨n.span, tl⟩ c rs).nodes⟩ := by
  cases c with
  | zero => simp [spliceAt, modIdx, remIdx]
  | succ c => simp [spliceAt, modIdx, remIdx]


/-- Helper: `deleteLevel` one step in. -/
theorem deleteLevel_cons (x : Int) (hs0 : Int) (n : SLNode) (tl : List SLNode) (c : Nat) :
    deleteLevel x ⟨hs0, n :: tl⟩ (c + 1) =
      ⟨hs0, { n with span := (deleteLevel x ⟨n.span, tl⟩ c).headSpan } ::
              (deleteLevel x ⟨n.span, tl⟩ c).nodes⟩ := by
  unfold deleteLevel
  simp only [List.getElem?_cons_succ]
  cases h : tl[c]? with
  | none => exact bumpSpanAt_cons hs0 n tl c (-1)
  | some right =>
    by_cases hk : right.key = x
    · simp only [if_pos hk]
      exact spliceAt_cons hs0 n tl c right.span
    · simp only [if_neg hk]
      exact bumpSpanAt_cons hs0 n tl c (-1)

/-- Helper: the span law survives the per-level pass of `delete` for a
present key, relative to the shrunk bottom contents: the key's node is
spliced out where the level holds it, and the approach span is
decremented where it does not. -/
theorem deleteLevel_spanLaw (B B' : List Int) (x : Int)
    (hB' : ∀ y, posIn B' y = posIn B y - (if x < y then 1 else 0))
    (hlen : (B'.length : Int) = (B.length : Int) - 1)
    (strict : Bool) :
    ∀ (ns : List SLNode) (cur curSpan : Int),
      spanLaw B strict cur curSpan ns →
      nodesSorted ns →
      spanLaw B' strict cur
        (deleteLevel x ⟨curSpan, ns⟩ (countLt x ns)).headSpan
        (deleteLevel x ⟨curSpan, ns⟩ (countLt x ns)).nodes := by
  intro ns
  induction ns with
  | nil =>
    intro cur curSpan hlaw _
    show spanLaw B' strict cur (curSpan + (-1)) []
    cases strict with
    | true =>
      have h1 : curSpan = (B.length : Int) - cur := by simpa [spanLaw] using hlaw
      simp only [spanLaw, if_pos]
      omega
    | false =>
      have h1 : (B.length : Int) - cur ≤ curSpan := by simpa [spanLaw] using hlaw
      simp only [spanLaw, Bool.false_eq_true, if_false]
      omega
  | cons n tl ih =>
    intro cur curSpan hlaw hsort
    rcases hlaw with ⟨hspan, hlaw2⟩
    rcases List.pairwise_cons.mp hsort with ⟨hn, htl⟩
    by_cases hx : n.key < x
    · have hcnt : countLt x (n :: tl) = countLt x tl + 1 := by
        simp [countLt, List.countP_cons, hx]
      rw [hcnt, deleteLevel_cons]
      have hBn : posIn B' n.key = posIn B n.key := by
        have := hB' n.key
        simp only [if_neg (by omega : ¬ x < n.key)] at this
        omega
      refine ⟨by rw [hBn]; exact hspan, ?_⟩
      rw [hBn]
      exact ih (posIn B n.key) n.span hlaw2 htl
    · have hc0 : countLt x (n :: tl) = 0 := by
        refine List.countP_eq_zero.mpr ?_
        intro m hm
        simp only [decide_eq_true_eq]
        rcases List.mem_cons.mp hm with rfl | hm2
        · omega
        · have := hn m hm2; omega
      rw [hc0]
      by_cases hk : n.key = x
      · rw [show deleteLevel x ⟨curSpan, n :: tl⟩ 0 = ⟨curSpan + n.span - 1, tl⟩ by
          simp [deleteLevel, hk, spliceAt, remIdx]]
        cases tl with
        | nil =>
          show spanLaw B' strict cur (curSpan + n.span - 1) []
          cases strict with
          | true =>
            have h1 : n.span = (B.length : Int) - posIn B n.key := by
              simpa [spanLaw] using hlaw2
            simp only [spanLaw, if_pos]
            omega
          | false =>
            have h1 : (B.length : Int) - posIn B n.key ≤ n.span := by
              simpa [spanLaw] using hlaw2
            simp only [spanLaw, Bool.false_eq_true, if_false]
            omega
        | cons t tl2 =>
          rcases hlaw2 with ⟨hspan2, hlaw3⟩
          have htgt : x < t.key := by
            have := hn t (by simp)
            omega
          have hBt : posIn B' t.key = posIn B t.key - 1 := by
            have := hB' t.key
            simp only [if_pos htgt] at this
            omega
          refine ⟨by rw [hBt, hspan2, hspan, hk]; ring, ?_⟩
          rw [hBt]
          rw [show posIn B t.key - 1 = posIn B t.key + (-1) by ring]
          refine spanLaw_shift B B' (-1) strict (by omega) tl2 (posIn B t.key) t.span
            (fun m hm => ?_) hlaw3
          have hxm : x < m.key := lt_trans htgt ((List.pairwise_cons.mp htl).1 m hm)
          have := hB' m.key
          simp only [if_pos hxm] at this
          omega
      · have hgt : x < n.key := by omega
        rw [show deleteLevel x ⟨curSpan, n :: tl⟩ 0 = ⟨curSpan + (-1), n :: tl⟩ by
          simp [deleteLevel, hk, bumpSpanAt]]
        have hBn : posIn B' n.key = posIn B n.key - 1 := by
          have := hB' n.key
          simp only [if_pos hgt] at this
          omega
        refine ⟨by show curSpan + (-1) = posIn B' n.key - cur
                   rw [hBn]; omega, ?_⟩
        rw [hBn]
        rw [show posIn B n.key - 1 = posIn B n.key + (-1) by ring]
        refine spanLaw_shift B B' (-1) strict (by omega) tl (posIn B n.key) n.span
          (fun m hm => ?_) hlaw2
        have hxm : x < m.key := lt_trans hgt (hn m hm)
        have := hB' m.key
        simp only [if_pos hxm] at this
        omega

/-- Helper: a span bump keeps keys and payloads. -/
theorem bumpSpanAt_KD (lvl : SLevel) (pos : Nat) (d : Int) :
    levelKD (bumpSpanAt lvl pos d).nodes = levelKD lvl.nodes := by
  rw [bumpSpanAt]
  by_cases h : pos = 0
  · simp [h]
  · simp only [if_neg h]
    exact levelKD_modIdx (fun s => s + d) lvl.nodes (pos - 1)

/-- Helper: linking a node in at an in-range position inserts its key and
payload there. -/
theorem insertAt_KD (lvl : SLevel) (pos : Nat) (nn : SLNode)
    (hpos : pos ≤ lvl.nodes.length) :
    levelKD (insertAt lvl pos nn).nodes =
      (levelKD lvl.nodes).take pos ++ (nn.key, nn.data) :: (levelKD lvl.nodes).drop pos := by
  rw [insertAt]
  by_cases h : pos = 0
  · subst h
    simp [levelKD]
  · simp only [if_neg h]
    have hlen : pos ≤ (modIdx (fun n => { n with span := n.span + 1 - nn.span }) lvl.nodes
        (pos - 1)).length := by
      have := levelKD_modIdx (fun s => s + 1 - nn.span) lvl.nodes (pos - 1)
      have hl := congrArg List.length this
      simp only [levelKD, List.length_map] at hl
      omega
    rw [insIdx_eq_take_drop nn _ pos hlen]
    rw [levelKD, List.map_append, List.map_cons, List.map_take, List.map_drop]
    have hkd := levelKD_modIdx (fun s => s + 1 - nn.span) lvl.nodes (pos - 1)
    rw [show (List.map (fun n => (n.key, n.data))
        (modIdx (fun n => { n with span := n.span + 1 - nn.span }) lvl.nodes (pos - 1))) =
      levelKD lvl.nodes from hkd]

/-- Helper: splicing out the node at an in-range position removes its key
and payload. -/
theorem spliceAt_KD (lvl : SLevel) (pos : Nat) (rs : Int) :
    levelKD (spliceAt lvl pos rs).nodes =
      (levelKD lvl.nodes).take pos ++ (levelKD lvl.nodes).drop (pos + 1) := by
  rw [spliceAt]
  by_cases h : pos = 0
  · subst h
    simp only [if_pos rfl]
    rw [remIdx_eq_take_drop]
    simp [levelKD]
  · simp only [if_neg h]
    rw [remIdx_eq_take_drop]
    rw [levelKD, List.map_append, List.map_take, List.map_drop]
    have hkd := levelKD_modIdx (fun s => s + rs - 1) lvl.nodes (pos - 1)
    rw [show (List.map (fun n => (n.key, n.data))
        (modIdx (fun n => { n with span := n.span + rs - 1 }) lvl.nodes (pos - 1))) =
      levelKD lvl.nodes from hkd]

/-- Helper: the nodes of a sorted level taken before the approach position
are exactly those below the target. -/
theorem take_countLt_lt (x : Int) :
    ∀ ns : List SLNode, nodesSorted ns → ∀ m ∈ ns.take (countLt x ns), m.key < x := by
  intro ns
  induction ns with
  | nil => intro _ m hm; simp at hm
  | cons n tl ih =>
    intro hs m hm
    rcases List.pairwise_cons.mp hs with ⟨hn, htl⟩
    by_cases hx : n.key < x
    · have hcnt : countLt x (n :: tl) = countLt x tl + 1 := by
        simp [countLt, List.countP_cons, hx]
      rw [hcnt, List.take_succ_cons] at hm
      rcases List.mem_cons.mp hm with rfl | hm2
      · exact hx
      · exact ih htl m hm2
    · have hc0 : countLt x (n :: tl) = 0 := by
        refine List.countP_eq_zero.mpr ?_
        intro q hq
        simp only [decide_eq_true_eq]
        rcases List.mem_cons.mp hq with rfl | hq2
        · omega
        · have := hn q hq2; omega
      rw [hc0] at hm
      simp at hm

/-- Helper: the nodes of a sorted level from the approach position on are
at or above the target. -/
theorem drop_countLt_ge (x : Int) :
    ∀ ns : List SLNode, nodesSorted ns → ∀ m ∈ ns.drop (countLt x ns), x ≤ m.key := by
  intro ns
  induction ns with
  | nil => intro _ m hm; simp at hm
  | cons n tl ih =>
    intro hs m hm
    rcases List.pairwise_cons.mp hs with ⟨hn, htl⟩
    by_cases hx : n.key < x
    · have hcnt : countLt x (n :: tl) = countLt x tl + 1 := by
        simp [countLt, List.countP_cons, hx]
      rw [hcnt, List.drop_succ_cons] at hm
      exact ih htl m hm
    · have hc0 : countLt x (n :: tl) = 0 := by
        refine List.countP_eq_zero.mpr ?_
        intro q hq
        simp only [decide_eq_true_eq]
        rcases List.mem_cons.mp hq with rfl | hq2
        · omega
        · have := hn q hq2; omega
      rw [hc0, List.drop_zero] at hm
      rcases List.mem_cons.mp hm with rfl | hm2
      · omega
      · have := hn m hm2; omega

/-- Helper: sortedness of nodes is sortedness of their keys. -/
theorem nodesSorted_iff_keys (ns : List SLNode) :
    nodesSorted ns ↔ (keysOf ns).Pairwise (· < ·) := by
  rw [keysOf, List.pairwise_map]
  rfl

/-- Helper: keys after a span bump. -/
theorem keysOf_bumpSpanAt (lvl : SLevel) (pos : Nat) (d : Int) :
    keysOf (bumpSpanAt lvl pos d).nodes = keysOf lvl.nodes := by
  have := bumpSpanAt_KD lvl pos d
  have h1 := congrArg (List.map Prod.fst) this
  simpa [levelKD, keysOf, List.map_map, Function.comp] using h1

/-- Helper: payloads after a span bump. -/
theorem data_bumpSpanAt (lvl : SLevel) (pos : Nat) (d : Int)
    (hd : ∀ n ∈ lvl.nodes, n.data = none) :
    ∀ n ∈ (bumpSpanAt lvl pos d).nodes, n.data = none := by
  intro n hn
  have hmem : (n.key, n.data) ∈ levelKD (bumpSpanAt lvl pos d).nodes :=
    List.mem_map.mpr ⟨n, hn, rfl⟩
  rw [bumpSpanAt_KD] at hmem
  rcases List.mem_map.mp hmem with ⟨m, hm, hmk⟩
  have h1 := hd m hm
  have h2 : n.data = m.data := congrArg Prod.snd hmk.symm
  rw [h2, h1]

/-- Helper: keys after linking a node in at the approach position. -/
theorem keysOf_insertAt (lvl : SLevel) (pos : Nat) (nn : SLNode)
    (hpos : pos ≤ lvl.nodes.length) :
    keysOf (insertAt lvl pos nn).nodes =
      (keysOf lvl.nodes).take pos ++ nn.key :: (keysOf lvl.nodes).drop pos := by
  have := insertAt_KD lvl pos nn hpos
  have h1 := congrArg (List.map Prod.fst) this
  simpa [levelKD, keysOf, List.map_map, Function.comp, List.map_take, List.map_drop,
    List.map_append] using h1

/-- Helper: membership in the keys after linking a node in. -/
theorem mem_keysOf_insertAt (lvl : SLevel) (pos : Nat) (nn : SLNode)
    (hpos : pos ≤ lvl.nodes.length) (y : Int) :
    y ∈ keysOf (insertAt lvl pos nn).nodes ↔ y = nn.key ∨ y ∈ keysOf lvl.nodes := by
  rw [keysOf_insertAt lvl pos nn hpos]
  constructor
  · intro hy
    rcases List.mem_append.mp hy with h | h
    · exact Or.inr (by
        have := List.take_sublist pos (keysOf lvl.nodes)
        exact this.mem h)
    · rcases List.mem_cons.mp h with rfl | h2
      · exact Or.inl rfl
      · exact Or.inr ((List.drop_sublist pos (keysOf lvl.nodes)).mem h2)
  · intro hy
    rcases hy with rfl | hy
    · exact List.mem_append.mpr (Or.inr (by simp))
    · conv at hy => rw [← List.take_append_drop pos (keysOf lvl.nodes)]
      rcases List.mem_append.mp hy with h | h
      · exact List.mem_append.mpr (Or.inl h)
      · exact List.mem_append.mpr (Or.inr (by simp [h]))

/-- Helper: sortedness after linking a fresh key's node in at the approach
position. -/
theorem insertAt_sorted (x : Int) (lvl : SLevel) (nn : SLNode)
    (hs : nodesSorted lvl.nodes) (hk : nn.key = x) (hnx : x ∉ keysOf lvl.nodes) :
    nodesSorted (insertAt lvl (countLt x lvl.nodes) nn).nodes := by
  have hpos : countLt x lvl.nodes ≤ lvl.nodes.length := List.countP_le_length _
  rw [nodesSorted_iff_keys, keysOf_insertAt lvl _ nn hpos, hk]
  have hks : (keysOf lvl.nodes).Pairwise (· < ·) := (nodesSorted_iff_keys _).mp hs
  refine List.pairwise_append.mpr ⟨hks.sublist (List.take_sublist _ _), ?_, ?_⟩
  · refine List.pairwise_cons.mpr ⟨?_, hks.sublist (List.drop_sublist _ _)⟩
    intro b hb
    rcases List.mem_map.mp (by
      rw [keysOf, ← List.map_drop] at hb
      exact hb : b ∈ List.map (fun n => n.key) (lvl.nodes.drop (countLt x lvl.nodes)))
      with ⟨m, hm, hmk⟩
    have hge := drop_countLt_ge x lvl.nodes hs m hm
    have hne : m.key ≠ x := fun he => hnx (he ▸ List.mem_map.mpr ⟨m,
      (List.drop_sublist _ _).mem hm, rfl⟩)
    omega
  · intro a ha b hb
    rcases List.mem_map.mp (by
      rw [keysOf, ← List.map_take] at ha
      exact ha : a ∈ List.map (fun n => n.key) (lvl.nodes.take (countLt x lvl.nodes)))
      with ⟨m, hm, hmk⟩
    have hlt : a < x := hmk ▸ take_countLt_lt x lvl.nodes hs m hm
    rcases List.mem_cons.mp hb with rfl | hb2
    · exact hlt
    · rcases List.mem_map.mp (by
        rw [keysOf, ← List.map_drop] at hb2
        exact hb2 : b ∈ List.map (fun n => n.key) (lvl.nodes.drop (countLt x lvl.nodes)))
        with ⟨q, hq, hqk⟩
      have hge := drop_countLt_ge x lvl.nodes hs q hq
      omega

/-- Helper: payloads after linking a routing node in. -/
theorem insertAt_data_none (lvl : SLevel) (pos : Nat) (nn : SLNode)
    (hpos : pos ≤ lvl.nodes.length)
    (hd : ∀ n ∈ lvl.nodes, n.data = none) (hnd : nn.data = none) :
    ∀ n ∈ (insertAt lvl pos nn).nodes, n.data = none := by
  intro n hn
  have hmem : (n.key, n.data) ∈ levelKD (insertAt lvl pos nn).nodes :=
    List.mem_map.mpr ⟨n, hn, rfl⟩
  rw [insertAt_KD lvl pos nn hpos] at hmem
  rcases List.mem_append.mp hmem with h | h
  · rcases List.mem_map.mp ((List.take_sublist _ _).mem h) with ⟨m, hm, hmk⟩
    have := hd m hm
    have h2 : n.data = m.data := congrArg Prod.snd hmk.symm
    rw [h2, this]
  · rcases List.mem_cons.mp h with he | h2
    · have : n.data = nn.data := congrArg Prod.snd he
      rw [this, hnd]
    · rcases List.mem_map.mp ((List.drop_sublist _ _).mem h2) with ⟨m, hm, hmk⟩
      have := hd m hm
      have h3 : n.data = m.data := congrArg Prod.snd hmk.symm
      rw [h3, this]

/-- Helper: the approach-position count of a level carrying the abstract
contents. -/
theorem countLt_eq_countP (x : Int) (ns : List SLNode) (M : List (Int × Int))
    (hkd : levelKD ns = M.map (fun p => (p.1, some p.2))) :
    countLt x ns = M.countP (fun p => decide (p.1 < x)) := by
  have hk := keysOf_of_levelKD ns M hkd
  have h1 : countLt x ns = (keysOf ns).countP (fun b => decide (b < x)) := by
    rw [countLt, keysOf, List.countP_map]
    rfl
  rw [h1, hk, keysKV, List.countP_map]
  rfl

/-- Helper: the bottom level after linking the fresh key's payload node in
carries exactly the inserted contents. -/
theorem insertAt_bottom_KD (x d : Int) (M : List (Int × Int))
    (hM : M.Pairwise (fun a b => a.1 < b.1)) (hx : x ∉ keysKV M)
    (lvl : SLevel) (hkd : levelKD lvl.nodes = M.map (fun p => (p.1, some p.2)))
    (s : Int) :
    levelKD (insertAt lvl (countLt x lvl.nodes) ⟨x, some d, s⟩).nodes =
      (insKV x d M).map (fun p => (p.1, some p.2)) := by
  have hpos : countLt x lvl.nodes ≤ lvl.nodes.length := List.countP_le_length _
  rw [insertAt_KD lvl _ _ hpos, hkd, insKV_take_drop x d M hM hx,
    countLt_eq_countP x lvl.nodes M hkd, List.map_append, List.map_cons,
    List.map_take, List.map_drop]

/-- Helper: every key anywhere in a structurally well-formed stack is a
stored key. -/
theorem SWFlevels_keys_sub (M : List (Int × Int)) :
    ∀ lvls, SWFlevels M lvls → ∀ lvl ∈ lvls, ∀ n ∈ lvl.nodes, n.key ∈ keysKV M := by
  intro lvls
  induction lvls with
  | nil => intro h; cases h
  | cons lvl lower ih =>
    intro hsw l hl n hn
    cases lower with
    | nil =>
      have hkd : levelKD lvl.nodes = M.map (fun p => (p.1, some p.2)) := by
        simpa [SWFlevels] using hsw
      rcases List.mem_cons.mp hl with rfl | hl2
      · rw [← keysOf_of_levelKD l.nodes M hkd]
        exact List.mem_map.mpr ⟨n, hn, rfl⟩
      · simp at hl2
    | cons lvl2 rest =>
      rcases (by simpa [SWFlevels] using hsw :
          upperWF (keysOf lvl2.nodes) lvl ∧ SWFlevels M (lvl2 :: rest)) with ⟨hu, h2⟩
      rcases List.mem_cons.mp hl with rfl | hl2
      · have := hu.2.2 n hn
        rcases List.mem_map.mp this with ⟨m, hm, hmk⟩
        exact hmk ▸ ih h2 lvl2 (by simp) m hm
      · exact ih h2 l hl2 n hn

/-- Helper: one-step unfolding of the per-level pass of `insert`. -/
theorem insertStep_cons (x d iar : Int) (h : Nat) (lvl : SLevel) (lower : List SLevel)
    (pr : Nat × Int) (ps : List (Nat × Int)) (lvlIdx : Nat) :
    insertStep x d iar h (lvl :: lower) (pr :: ps) lvlIdx =
      (if lvlIdx < h then
        insertAt lvl pr.1
          ⟨x, if lvlIdx = 0 then some d else none, spanAt lvl pr.1 + 1 - (iar - pr.2)⟩
       else bumpSpanAt lvl pr.1 1) :: insertStep x d iar h lower ps (lvlIdx - 1) := rfl

/-- Helper: one-step unfolding of the per-level pass of `delete`. -/
theorem deleteStep_cons (x : Int) (lvl : SLevel) (lower : List SLevel)
    (pr : Nat × Int) (ps : List (Nat × Int)) :
    deleteStep x (lvl :: lower) (pr :: ps) =
      deleteLevel x lvl pr.1 :: deleteStep x lower ps := rfl

/-- Helper: the per-level pass of `insert` keeps the level count. -/
theorem insertStep_length (x d iar : Int) (h : Nat) :
    ∀ (lvls : List SLevel) (ps : List (Nat × Int)) (lvlIdx : Nat),
      ps.length = lvls.length →
      (insertStep x d iar h lvls ps lvlIdx).length = lvls.length := by
  intro lvls
  induction lvls with
  | nil => intro ps lvlIdx _; cases ps <;> rfl
  | cons lvl lower ih =>
    intro ps lvlIdx hlen
    cases ps with
    | nil => simp at hlen
    | cons pr ps' =>
      rw [insertStep_cons]
      simp only [List.length_cons]
      rw [ih ps' (lvlIdx - 1) (by simpa using hlen)]

/-- Helper: the per-level pass of `insert` on an empty stack. -/
theorem insertStep_nil (x d iar : Int) (h : Nat) (ps : List (Nat × Int)) (lvlIdx : Nat) :
    insertStep x d iar h [] ps lvlIdx = [] := by cases ps <;> rfl

/-- Helper: the per-level pass of `delete` on an empty stack. -/
theorem deleteStep_nil (x : Int) (ps : List (Nat × Int)) :
    deleteStep x [] ps = [] := by cases ps <;> rfl

/-- Helper: linking a fresh key's tower in at the approach positions
preserves structural well-formedness, updating the abstract contents. -/
theorem insertStep_SWFlevels (x d iar : Int) (h : Nat) (hh : 1 ≤ h)
    (M : List (Int × Int)) (hM : M.Pairwise (fun a b => a.1 < b.1)) (hx : x ∉ keysKV M) :
    ∀ (lvls : List SLevel) (ps : List (Nat × Int)),
      SWFlevels M lvls →
      ps.map Prod.fst = lvls.map (fun lvl => countLt x lvl.nodes) →
      SWFlevels (insKV x d M) (insertStep x d iar h lvls ps (lvls.length - 1)) := by
  intro lvls
  induction lvls with
  | nil => intro ps hsw _; cases hsw
  | cons lvl lower ih =>
    intro ps hsw hps
    cases ps with
    | nil => simp at hps
    | cons pr ps' =>
      simp only [List.map_cons, List.cons.injEq] at hps
      obtain ⟨hpr1, hps'⟩ := hps
      have hpos1 : countLt x lvl.nodes ≤ lvl.nodes.length := List.countP_le_length _
      have hpos1' : pr.1 ≤ lvl.nodes.length := by rw [hpr1]; exact hpos1
      cases lower with
      | nil =>
        have hlt : 0 < h := hh
        have hkd : levelKD lvl.nodes = M.map (fun p => (p.1, some p.2)) := by
          simpa [SWFlevels] using hsw
        rw [show ([lvl] : List SLevel).length - 1 = 0 from rfl, insertStep_cons,
          insertStep_nil]
        rw [if_pos hlt, if_pos rfl]
        show levelKD (insertAt lvl pr.1 ⟨x, some d, spanAt lvl pr.1 + 1 - (iar - pr.2)⟩).nodes =
          (insKV x d M).map (fun p => (p.1, some p.2))
        rw [hpr1]
        exact insertAt_bottom_KD x d M hM hx lvl hkd _
      | cons lvl2 rest =>
        rcases (by simpa [SWFlevels] using hsw :
            upperWF (keysOf lvl2.nodes) lvl ∧ SWFlevels M (lvl2 :: rest)) with ⟨hu, hsw2⟩
        cases ps' with
        | nil => simp at hps'
        | cons pr2 ps'' =>
          simp only [List.map_cons, List.cons.injEq] at hps'
          obtain ⟨hpr2, hps''⟩ := hps'
          have hpos2 : countLt x lvl2.nodes ≤ lvl2.nodes.length := List.countP_le_length _
          have hpos2' : pr2.1 ≤ lvl2.nodes.length := by rw [hpr2]; exact hpos2
          have hxl : x ∉ keysOf lvl.nodes := by
            intro hmem
            rcases List.mem_map.mp hmem with ⟨n, hn, hnk⟩
            have := SWFlevels_keys_sub M _ hsw lvl (by simp) n hn
            rw [hnk] at this
            exact hx this
          have hBmem : ∀ y ∈ keysOf lvl2.nodes,
              y ∈ keysOf (if rest.length < h then
                  insertAt lvl2 pr2.1 ⟨x, if rest.length = 0 then some d else none,
                    spanAt lvl2 pr2.1 + 1 - (iar - pr2.2)⟩
                else bumpSpanAt lvl2 pr2.1 1).nodes := by
            intro y hy
            by_cases hBh : rest.length < h
            · rw [if_pos hBh]
              exact (mem_keysOf_insertAt lvl2 pr2.1 _ hpos2' y).mpr (Or.inr hy)
            · rw [if_neg hBh, keysOf_bumpSpanAt]
              exact hy
          have hBx : rest.length < h →
              x ∈ keysOf (if rest.length < h then
                  insertAt lvl2 pr2.1 ⟨x, if rest.length = 0 then some d else none,
                    spanAt lvl2 pr2.1 + 1 - (iar - pr2.2)⟩
                else bumpSpanAt lvl2 pr2.1 1).nodes := by
            intro hBh
            rw [if_pos hBh]
            exact (mem_keysOf_insertAt lvl2 pr2.1 _ hpos2' x).mpr (Or.inl rfl)
          have hrest : SWFlevels (insKV x d M)
              (insertStep x d iar h (lvl2 :: rest) (pr2 :: ps'')
                ((lvl2 :: rest).length - 1)) :=
            ih (pr2 :: ps'') hsw2 (by simp only [List.map_cons]; rw [hpr2, hps''])
          rw [show ((lvl2 :: rest : List SLevel)).length - 1 = rest.length by simp,
            insertStep_cons] at hrest
          rw [show ((lvl :: lvl2 :: rest : List SLevel)).length - 1 = rest.length + 1 by simp,
            insertStep_cons, Nat.add_sub_cancel, insertStep_cons]
          refine ⟨?_, hrest⟩
          by_cases hAh : rest.length + 1 < h
          · have hBh : rest.length < h := by omega
            rw [if_pos hAh]
            refine ⟨?_, ?_, ?_⟩
            · rw [hpr1]
              exact insertAt_sorted x lvl _ hu.1 rfl hxl
            · exact insertAt_data_none lvl pr.1 _ hpos1' hu.2.1 (by simp)
            · intro n hn
              have hk : n.key ∈ keysOf (insertAt lvl pr.1
                  ⟨x, if rest.length + 1 = 0 then some d else none,
                    spanAt lvl pr.1 + 1 - (iar - pr.2)⟩).nodes :=
                List.mem_map.mpr ⟨n, hn, rfl⟩
              rcases (mem_keysOf_insertAt lvl pr.1 _ hpos1' n.key).mp hk with he | hold
              · rw [he]
                exact hBx hBh
              · rcases List.mem_map.mp hold with ⟨m, hm, hmk⟩
                have := hu.2.2 m hm
                rw [hmk] at this
                exact hBmem n.key this
          · rw [if_neg hAh]
            refine ⟨?_, ?_, ?_⟩
            · rw [nodesSorted_iff_keys, keysOf_bumpSpanAt]
              exact (nodesSorted_iff_keys _).mp hu.1
            · exact data_bumpSpanAt lvl pr.1 1 hu.2.1
            · intro n hn
              have hk : n.key ∈ keysOf (bumpSpanAt lvl pr.1 1).nodes :=
                List.mem_map.mpr ⟨n, hn, rfl⟩
              rw [keysOf_bumpSpanAt] at hk
              rcases List.mem_map.mp hk with ⟨m, hm, hmk⟩
              have := hu.2.2 m hm
              rw [hmk] at this
              exact hBmem n.key this

/-- Helper: prepending a slack-law level to a nonempty stack satisfying
the span law. -/
theorem spanOK_cons (B' : List Int) (lvl : SLevel) (L : List SLevel) (hL : L ≠ [])
    (h1 : spanLaw B' false (-1) lvl.headSpan lvl.nodes) (h2 : spanOK B' L) :
    spanOK B' (lvl :: L) := by
  cases L with
  | nil => exact absurd rfl hL
  | cons a t => exact ⟨h1, h2⟩

/-- Helper: linking a fresh key's tower in at the intended approach points
re-establishes the span law against the extended bottom key list. -/
theorem insertStep_spanOK (x d iar : Int) (h : Nat) (B B' : List Int)
    (hB' : ∀ y, posIn B' y = posIn B y + (if x < y then 1 else 0))
    (hlen : (B'.length : Int) = (B.length : Int) + 1)
    (hiar : iar = posIn B' x) :
    ∀ (lvls : List SLevel) (lvlIdx : Nat),
      spanOK B lvls →
      (∀ lvl ∈ lvls, nodesSorted lvl.nodes ∧ ∀ m ∈ lvl.nodes, m.key ≠ x) →
      spanOK B' (insertStep x d iar h lvls (lvls.map (specPE B x)) lvlIdx) := by
  intro lvls
  induction lvls with
  | nil => intro lvlIdx _ _; rw [List.map_nil, insertStep_nil]; trivial
  | cons lvl lower ih =>
    intro lvlIdx hsp hwf
    rcases hwf lvl (by simp) with ⟨hsort, hnx⟩
    rw [List.map_cons, insertStep_cons]
    cases lower with
    | nil =>
      have hlaw : spanLaw B true (-1) lvl.headSpan lvl.nodes := by
        simpa [spanOK] using hsp
      rw [List.map_nil, insertStep_nil]
      show spanLaw B' true (-1) _ _
      by_cases hlt : lvlIdx < h
      · rw [if_pos hlt]
        exact insertAt_spanLaw B B' x _ iar hB' hlen hiar true lvl.nodes (-1)
          lvl.headSpan none hlaw hsort hnx rfl
      · rw [if_neg hlt]
        exact bumpSpanAt_spanLaw B B' x hB' hlen true lvl.nodes (-1) lvl.headSpan
          hlaw hsort hnx
    | cons lvl2 rest =>
      rcases (by simpa [spanOK] using hsp :
          spanLaw B false (-1) lvl.headSpan lvl.nodes ∧ spanOK B (lvl2 :: rest))
        with ⟨hlaw, hsp2⟩
      have hrest := ih (lvlIdx - 1) hsp2 (fun l hl => hwf l (by simp [hl]))
      have hne : insertStep x d iar h (lvl2 :: rest)
          ((lvl2 :: rest).map (specPE B x)) (lvlIdx - 1) ≠ [] := by
        have hl := insertStep_length x d iar h (lvl2 :: rest)
          ((lvl2 :: rest).map (specPE B x)) (lvlIdx - 1) (by simp)
        intro hcon
        rw [hcon] at hl
        simp at hl
      refine spanOK_cons B' _ _ hne ?_ hrest
      by_cases hlt : lvlIdx < h
      · rw [if_pos hlt]
        exact insertAt_spanLaw B B' x _ iar hB' hlen hiar false lvl.nodes (-1)
          lvl.headSpan none hlaw hsort hnx rfl
      · rw [if_neg hlt]
        exact bumpSpanAt_spanLaw B B' x hB' hlen false lvl.nodes (-1) lvl.headSpan
          hlaw hsort hnx

/-- Helper: the per-level pass of `delete` keeps the level count. -/
theorem deleteStep_length (x : Int) :
    ∀ (lvls : List SLevel) (ps : List (Nat × Int)),
      ps.length = lvls.length →
      (deleteStep x lvls ps).length = lvls.length := by
  intro lvls
  induction lvls with
  | nil => intro ps _; cases ps <;> rfl
  | cons lvl lower ih =>
    intro ps hlen
    cases ps with
    | nil => simp at hlen
    | cons pr ps' =>
      rw [deleteStep_cons]
      simp only [List.length_cons]
      rw [ih ps' (by simpa using hlen)]

/-- Helper: at the approach position of a level containing the target
key, `delete`'s per-level action splices that key's node out. -/
theorem deleteLevel_eq_splice (x : Int) (lvl : SLevel)
    (hs : nodesSorted lvl.nodes) (hx : x ∈ keysOf lvl.nodes) :
    ∃ right, lvl.nodes[countLt x lvl.nodes]? = some right ∧ right.key = x ∧
      deleteLevel x lvl (countLt x lvl.nodes) =
        spliceAt lvl (countLt x lvl.nodes) right.span := by
  rcases countLt_found x lvl.nodes hs hx with ⟨n, hget, hkey⟩
  refine ⟨n, hget, hkey, ?_⟩
  simp only [deleteLevel, hget]
  rw [if_pos hkey]

/-- Helper: at the approach position of a level not containing the target
key, `delete`'s per-level action only decrements the approach span. -/
theorem deleteLevel_eq_bump (x : Int) (lvl : SLevel) (hx : x ∉ keysOf lvl.nodes) :
    deleteLevel x lvl (countLt x lvl.nodes) =
      bumpSpanAt lvl (countLt x lvl.nodes) (-1) := by
  cases hget : lvl.nodes[countLt x lvl.nodes]? with
  | none => simp only [deleteLevel, hget]
  | some right =>
    have hne := countLt_notfound x lvl.nodes hx right hget
    simp only [deleteLevel, hget]
    rw [if_neg hne]

/-- Helper: keys after splicing a node out. -/
theorem keysOf_spliceAt (lvl : SLevel) (pos : Nat) (rs : Int) :
    keysOf (spliceAt lvl pos rs).nodes =
      (keysOf lvl.nodes).take pos ++ (keysOf lvl.nodes).drop (pos + 1) := by
  have := spliceAt_KD lvl pos rs
  have h1 := congrArg (List.map Prod.fst) this
  simpa [levelKD, keysOf, List.map_map, Function.comp, List.map_take, List.map_drop,
    List.map_append] using h1

/-- Helper: dropping one element of a list leaves a sublist. -/
theorem take_drop_succ_sublist {α : Type} (l : List α) (n : Nat) :
    List.Sublist (l.take n ++ l.drop (n + 1)) l := by
  conv_rhs => rw [← List.take_append_drop n l]
  refine List.Sublist.append (List.Sublist.refl _) ?_
  have h1 : (l.drop n).drop 1 = l.drop (n + 1) := by
    rw [List.drop_drop, Nat.add_comm]
  rw [← h1]
  exact List.drop_sublist _ _

/-- Helper: `delete`'s per-level action leaves a sublist of the key-data
image. -/
theorem deleteLevel_KD_sublist (x : Int) (lvl : SLevel) (pos : Nat) :
    List.Sublist (levelKD (deleteLevel x lvl pos).nodes) (levelKD lvl.nodes) := by
  cases hget : lvl.nodes[pos]? with
  | none =>
    have hb : deleteLevel x lvl pos = bumpSpanAt lvl pos (-1) := by
      simp only [deleteLevel, hget]
    rw [hb, bumpSpanAt_KD]
  | some right =>
    simp only [deleteLevel, hget]
    by_cases hkx : right.key = x
    · rw [if_pos hkx, spliceAt_KD]
      exact take_drop_succ_sublist _ _
    · rw [if_neg hkx, bumpSpanAt_KD]

/-- Helper: `delete`'s per-level action preserves sortedness and `null`
payloads. -/
theorem deleteLevel_sorted_data (x : Int) (lvl : SLevel) (pos : Nat)
    (hs : nodesSorted lvl.nodes) (hd : ∀ n ∈ lvl.nodes, n.data = none) :
    nodesSorted (deleteLevel x lvl pos).nodes ∧
      ∀ n ∈ (deleteLevel x lvl pos).nodes, n.data = none := by
  have hsub := deleteLevel_KD_sublist x lvl pos
  constructor
  · have hksub : List.Sublist (keysOf (deleteLevel x lvl pos).nodes) (keysOf lvl.nodes) := by
      have h1 := hsub.map Prod.fst
      simpa [levelKD, keysOf, List.map_map, Function.comp] using h1
    exact (nodesSorted_iff_keys _).mpr (((nodesSorted_iff_keys _).mp hs).sublist hksub)
  · intro n hn
    have hmem : (n.key, n.data) ∈ levelKD (deleteLevel x lvl pos).nodes :=
      List.mem_map.mpr ⟨n, hn, rfl⟩
    have h2 := hsub.mem hmem
    rcases List.mem_map.mp h2 with ⟨m, hm, hmk⟩
    have h1 := hd m hm
    have h3 : n.data = m.data := congrArg Prod.snd hmk.symm
    rw [h3, h1]

/-- Helper: membership in the keys after `delete`'s per-level action at
the approach position of a sorted level. -/
theorem mem_keysOf_deleteLevel (x : Int) (lvl : SLevel) (hs : nodesSorted lvl.nodes)
    (y : Int) :
    y ∈ keysOf (deleteLevel x lvl (countLt x lvl.nodes)).nodes ↔
      y ∈ keysOf lvl.nodes ∧ y ≠ x := by
  by_cases hx : x ∈ keysOf lvl.nodes
  · rcases deleteLevel_eq_splice x lvl hs hx with ⟨right, hget, hkey, heq⟩
    rcases List.getElem?_eq_some_iff.mp hget with ⟨hlt, hval⟩
    have hdropc : lvl.nodes.drop (countLt x lvl.nodes) =
        right :: lvl.nodes.drop (countLt x lvl.nodes + 1) := by
      rw [List.drop_eq_getElem_cons hlt, hval]
    have hgt : ∀ m ∈ lvl.nodes.drop (countLt x lvl.nodes + 1), x < m.key := by
      intro m hm
      have hp : nodesSorted (lvl.nodes.drop (countLt x lvl.nodes)) := hs.drop
      rw [hdropc] at hp
      rcases List.pairwise_cons.mp hp with ⟨hr, _⟩
      have h1 := hr m hm
      omega
    rw [heq, keysOf_spliceAt]
    constructor
    · intro hy
      rcases List.mem_append.mp hy with h | h
      · refine ⟨(List.take_sublist _ _).mem h, ?_⟩
        rw [keysOf, ← List.map_take] at h
        rcases List.mem_map.mp h with ⟨m, hm, hmk⟩
        have := take_countLt_lt x lvl.nodes hs m hm
        omega
      · refine ⟨(List.drop_sublist _ _).mem h, ?_⟩
        rw [keysOf, ← List.map_drop] at h
        rcases List.mem_map.mp h with ⟨m, hm, hmk⟩
        have := hgt m hm
        omega
    · rintro ⟨hy, hne⟩
      have hksplit : keysOf lvl.nodes =
          (keysOf lvl.nodes).take (countLt x lvl.nodes) ++
            x :: (keysOf lvl.nodes).drop (countLt x lvl.nodes + 1) := by
        conv_lhs => rw [← List.take_append_drop (countLt x lvl.nodes) (keysOf lvl.nodes)]
        congr 1
        rw [keysOf, ← List.map_drop, hdropc, List.map_cons,
          show (right.key : Int) = x from hkey, List.map_drop]
      rw [hksplit] at hy
      rcases List.mem_append.mp hy with h | h
      · exact List.mem_append.mpr (Or.inl h)
      · rcases List.mem_cons.mp h with rfl | h2
        · exact absurd rfl hne
        · exact List.mem_append.mpr (Or.inr h2)
  · rw [deleteLevel_eq_bump x lvl hx, keysOf_bumpSpanAt]
    constructor
    · intro hy
      exact ⟨hy, fun he => hx (he ▸ hy)⟩
    · exact fun hy => hy.1

/-- Helper: the bottom level after splicing the target key's node out
carries exactly the remaining contents. -/
theorem deleteLevel_bottom_KD (x : Int) (M : List (Int × Int))
    (hM : M.Pairwise (fun a b => a.1 < b.1)) (hx : x ∈ keysKV M)
    (lvl : SLevel) (hkd : levelKD lvl.nodes = M.map (fun p => (p.1, some p.2))) :
    levelKD (deleteLevel x lvl (countLt x lvl.nodes)).nodes =
      (delKV x M).map (fun p => (p.1, some p.2)) := by
  have hkeys := keysOf_of_levelKD lvl.nodes M hkd
  have hsort := nodesSorted_of_levelKD lvl.nodes M hM hkd
  have hxk : x ∈ keysOf lvl.nodes := by rw [hkeys]; exact hx
  rcases deleteLevel_eq_splice x lvl hsort hxk with ⟨right, hget, hkey, heq⟩
  rw [heq, spliceAt_KD, hkd, delKV_take_drop x M hM hx,
    countLt_eq_countP x lvl.nodes M hkd, List.map_append, List.map_take, List.map_drop]

/-- Helper: splicing a present key's tower out at the approach positions
preserves structural well-formedness, updating the abstract contents. -/
theorem deleteStep_SWFlevels (x : Int) (M : List (Int × Int))
    (hM : M.Pairwise (fun a b => a.1 < b.1)) (hx : x ∈ keysKV M) :
    ∀ (lvls : List SLevel) (ps : List (Nat × Int)),
      SWFlevels M lvls →
      ps.map Prod.fst = lvls.map (fun lvl => countLt x lvl.nodes) →
      SWFlevels (delKV x M) (deleteStep x lvls ps) := by
  intro lvls
  induction lvls with
  | nil => intro ps hsw _; cases hsw
  | cons lvl lower ih =>
    intro ps hsw hps
    cases ps with
    | nil => simp at hps
    | cons pr ps' =>
      simp only [List.map_cons, List.cons.injEq] at hps
      obtain ⟨hpr1, hps'⟩ := hps
      cases lower with
      | nil =>
        have hkd : levelKD lvl.nodes = M.map (fun p => (p.1, some p.2)) := by
          simpa [SWFlevels] using hsw
        rw [deleteStep_cons, deleteStep_nil]
        show levelKD (deleteLevel x lvl pr.1).nodes =
          (delKV x M).map (fun p => (p.1, some p.2))
        rw [hpr1]
        exact deleteLevel_bottom_KD x M hM hx lvl hkd
      | cons lvl2 rest =>
        rcases (by simpa [SWFlevels] using hsw :
            upperWF (keysOf lvl2.nodes) lvl ∧ SWFlevels M (lvl2 :: rest)) with ⟨hu, hsw2⟩
        cases ps' with
        | nil => simp at hps'
        | cons pr2 ps'' =>
          simp only [List.map_cons, List.cons.injEq] at hps'
          obtain ⟨hpr2, hps''⟩ := hps'
          have hsort2 : nodesSorted lvl2.nodes := by
            cases rest with
            | nil =>
              have hkd2 : levelKD lvl2.nodes = M.map (fun p => (p.1, some p.2)) := by
                simpa [SWFlevels] using hsw2
              exact nodesSorted_of_levelKD lvl2.nodes M hM hkd2
            | cons r rs =>
              exact ((by simpa [SWFlevels] using hsw2 :
                upperWF (keysOf r.nodes) lvl2 ∧ SWFlevels M (r :: rs))).1.1
          have hrest : SWFlevels (delKV x M) (deleteStep x (lvl2 :: rest) (pr2 :: ps'')) :=
            ih (pr2 :: ps'') hsw2 (by simp only [List.map_cons]; rw [hpr2, hps''])
          rw [deleteStep_cons] at hrest
          rw [deleteStep_cons, deleteStep_cons]
          refine ⟨?_, hrest⟩
          rcases deleteLevel_sorted_data x lvl pr.1 hu.1 hu.2.1 with ⟨hso, hda⟩
          refine ⟨hso, hda, ?_⟩
          intro n hn
          have hk : n.key ∈ keysOf (deleteLevel x lvl pr.1).nodes :=
            List.mem_map.mpr ⟨n, hn, rfl⟩
          rw [hpr1] at hk
          rcases (mem_keysOf_deleteLevel x lvl hu.1 n.key).mp hk with ⟨hmem, hne⟩
          rcases List.mem_map.mp hmem with ⟨m, hm, hmk⟩
          have hc := hu.2.2 m hm
          rw [hmk] at hc
          rw [hpr2]
          exact (mem_keysOf_deleteLevel x lvl2 hsort2 n.key).mpr ⟨hc, hne⟩

/-- Helper: splicing a present key's tower out at the intended approach
points re-establishes the span law against the shrunken bottom key list. -/
theorem deleteStep_spanOK (x : Int) (B B' : List Int)
    (hB' : ∀ y, posIn B' y = posIn B y - (if x < y then 1 else 0))
    (hlen : (B'.length : Int) = (B.length : Int) - 1) :
    ∀ (lvls : List SLevel),
      spanOK B lvls →
      (∀ lvl ∈ lvls, nodesSorted lvl.nodes) →
      spanOK B' (deleteStep x lvls (lvls.map (specPE B x))) := by
  intro lvls
  induction lvls with
  | nil => intro _ _; rw [List.map_nil, deleteStep_nil]; trivial
  | cons lvl lower ih =>
    intro hsp hwf
    have hsort := hwf lvl (by simp)
    rw [List.map_cons, deleteStep_cons]
    cases lower with
    | nil =>
      have hlaw : spanLaw B true (-1) lvl.headSpan lvl.nodes := by
        simpa [spanOK] using hsp
      rw [List.map_nil, deleteStep_nil]
      show spanLaw B' true (-1) _ _
      exact deleteLevel_spanLaw B B' x hB' hlen true lvl.nodes (-1) lvl.headSpan
        hlaw hsort
    | cons lvl2 rest =>
      rcases (by simpa [spanOK] using hsp :
          spanLaw B false (-1) lvl.headSpan lvl.nodes ∧ spanOK B (lvl2 :: rest))
        with ⟨hlaw, hsp2⟩
      have hrest := ih hsp2 (fun l hl => hwf l (by simp [hl]))
      have hne : deleteStep x (lvl2 :: rest) ((lvl2 :: rest).map (specPE B x)) ≠ [] := by
        have hl := deleteStep_length x (lvl2 :: rest)
          ((lvl2 :: rest).map (specPE B x)) (by simp)
        intro hcon
        rw [hcon] at hl
        simp at hl
      refine spanOK_cons B' _ _ hne ?_ hrest
      exact deleteLevel_spanLaw B B' x hB' hlen false lvl.nodes (-1) lvl.headSpan
        hlaw hsort

/-- Helper: deleting a key absent from every level only decrements the
approach spans (the drift of §9). -/
theorem deleteStep_absent (x : Int) :
    ∀ (lvls : List SLevel) (ps : List (Nat × Int)),
      (∀ lvl ∈ lvls, x ∉ keysOf lvl.nodes) →
      ps.map Prod.fst = lvls.map (fun lvl => countLt x lvl.nodes) →
      deleteStep x lvls ps =
        lvls.map (fun lvl => bumpSpanAt lvl (countLt x lvl.nodes) (-1)) := by
  intro lvls
  induction lvls with
  | nil => intro ps _ _; rw [deleteStep_nil, List.map_nil]
  | cons lvl lower ih =>
    intro ps habs hps
    cases ps with
    | nil => simp at hps
    | cons pr ps' =>
      simp only [List.map_cons, List.cons.injEq] at hps
      obtain ⟨hpr1, hps'⟩ := hps
      rw [deleteStep_cons, List.map_cons, hpr1,
        deleteLevel_eq_bump x lvl (habs lvl (by simp)),
        ih ps' (fun l hl => habs l (by simp [hl])) hps']

/-- Helper: uniformly bumping approach spans preserves structural
well-formedness (keys and payloads are untouched). -/
theorem bump_map_SWFlevels (x : Int) (M : List (Int × Int)) :
    ∀ lvls, SWFlevels M lvls →
      SWFlevels M (lvls.map (fun lvl => bumpSpanAt lvl (countLt x lvl.nodes) (-1))) := by
  intro lvls
  induction lvls with
  | nil => intro h; cases h
  | cons lvl lower ih =>
    intro hsw
    cases lower with
    | nil =>
      have hkd : levelKD lvl.nodes = M.map (fun p => (p.1, some p.2)) := by
        simpa [SWFlevels] using hsw
      rw [List.map_cons, List.map_nil]
      show levelKD (bumpSpanAt lvl (countLt x lvl.nodes) (-1)).nodes =
        M.map (fun p => (p.1, some p.2))
      rw [bumpSpanAt_KD]
      exact hkd
    | cons lvl2 rest =>
      rcases (by simpa [SWFlevels] using hsw :
          upperWF (keysOf lvl2.nodes) lvl ∧ SWFlevels M (lvl2 :: rest)) with ⟨hu, hsw2⟩
      have hrest := ih hsw2
      rw [List.map_cons] at hrest ⊢
      rw [List.map_cons]
      refine ⟨?_, hrest⟩
      refine ⟨?_, data_bumpSpanAt lvl _ _ hu.2.1, ?_⟩
      · rw [nodesSorted_iff_keys, keysOf_bumpSpanAt]
        exact (nodesSorted_iff_keys _).mp hu.1
      · intro n hn
        have hk : n.key ∈ keysOf (bumpSpanAt lvl (countLt x lvl.nodes) (-1)).nodes :=
          List.mem_map.mpr ⟨n, hn, rfl⟩
        rw [keysOf_bumpSpanAt] at hk
        rcases List.mem_map.mp hk with ⟨m, hm, hmk⟩
        have hc := hu.2.2 m hm
        rw [hmk] at hc
        rw [keysOf_bumpSpanAt]
        exact hc

/-- Helper: sortedness of every level of a sorted-contiguous stack. -/
theorem sortedContig_sorted :
    ∀ lvls, sortedContig lvls → ∀ lvl ∈ lvls, nodesSorted lvl.nodes := by
  intro lvls
  induction lvls with
  | nil => intro _ lvl hl; simp at hl
  | cons lvl lower ih =>
    intro hsc l hl
    cases lower with
    | nil =>
      rcases List.mem_cons.mp hl with rfl | h2
      · simpa [sortedContig] using hsc
      · simp at h2
    | cons lvl2 rest =>
      rcases (by simpa [sortedContig] using hsc :
          nodesSorted lvl.nodes ∧ (∀ n ∈ lvl.nodes, n.key ∈ keysOf lvl2.nodes) ∧
            sortedContig (lvl2 :: rest)) with ⟨hs, _, hsc2⟩
      rcases List.mem_cons.mp hl with rfl | h2
      · exact hs
      · exact ih hsc2 l h2

/-- Helper: the replace test of `insert` fires exactly on stored keys when
the descent returned the intended approach positions. -/
theorem bottomRightKey_spec (M : List (Int × Int))
    (hM : M.Pairwise (fun a b => a.1 < b.1))
    (lvls : List SLevel) (hsw : SWFlevels M lvls) (x : Int)
    (path : List (Nat × Int)) (hpath : path = lvls.map (specPE (keysKV M) x)) :
    bottomRightKey lvls path = some x ↔ x ∈ keysKV M := by
  rcases SWFlevels_getLast M lvls hsw with ⟨bl, hlast, hkd⟩
  have hkeys := keysOf_of_levelKD bl.nodes M hkd
  have hsort := nodesSorted_of_levelKD bl.nodes M hM hkd
  have hplast : path.getLast? = some (specPE (keysKV M) x bl) := by
    rw [hpath, List.getLast?_map, hlast]
    rfl
  have hbrk : bottomRightKey lvls path =
      (bl.nodes[countLt x bl.nodes]?).map (fun n => n.key) := by
    simp only [bottomRightKey, hlast, hplast, specPE]
  by_cases hx : x ∈ keysKV M
  · rcases countLt_found x bl.nodes hsort (by rw [hkeys]; exact hx) with ⟨n, hget, hkey⟩
    rw [hbrk, hget]
    simp [hkey, hx]
  · have hxk : x ∉ keysOf bl.nodes := by rw [hkeys]; exact hx
    rw [hbrk]
    cases hget : bl.nodes[countLt x bl.nodes]? with
    | none => simp [hx]
    | some right =>
      have hne := countLt_notfound x bl.nodes hxk right hget
      simp [hx, hne]

/-- Helper: a fresh empty level on top preserves structural
well-formedness. -/
theorem empty_level_SWFlevels (M : List (Int × Int)) (c : Int) (L : List SLevel)
    (hL : SWFlevels M L) : SWFlevels M (SLevel.mk c [] :: L) := by
  cases L with
  | nil => cases hL
  | cons l2 rest =>
    exact ⟨⟨List.Pairwise.nil, by simp, by simp⟩, hL⟩

/-- Helper: a block of fresh empty levels on top preserves structural
well-formedness. -/
theorem replicate_SWFlevels (M : List (Int × Int)) (c : Int) :
    ∀ (k : Nat) (L : List SLevel), SWFlevels M L →
      SWFlevels M (List.replicate k (SLevel.mk c []) ++ L) := by
  intro k
  induction k with
  | zero => intro L h; simpa using h
  | succ m ih =>
    intro L h
    rw [List.replicate_succ, List.cons_append]
    exact empty_level_SWFlevels M c _ (ih L h)

/-- Helper: a fresh empty level on top with a large enough head span
preserves the span law. -/
theorem empty_level_spanOK (B : List Int) (c : Int) (L : List SLevel) (hL : L ≠ [])
    (hc : (B.length : Int) + 1 ≤ c) (h : spanOK B L) :
    spanOK B (SLevel.mk c [] :: L) := by
  refine spanOK_cons B _ L hL ?_ h
  show (B.length : Int) - (-1) ≤ c
  omega

/-- Helper: a block of fresh empty levels on top with large enough head
spans preserves the span law. -/
theorem replicate_spanOK (B : List Int) (c : Int) (hc : (B.length : Int) + 1 ≤ c) :
    ∀ (k : Nat) (L : List SLevel), L ≠ [] → spanOK B L →
      spanOK B (List.replicate k (SLevel.mk c []) ++ L) := by
  intro k
  induction k with
  | zero => intro L _ h; simpa using h
  | succ m ih =>
    intro L hL h
    rw [List.replicate_succ, List.cons_append]
    refine empty_level_spanOK B c _ ?_ hc (ih L hL h)
    intro hcon
    rcases List.append_eq_nil.mp hcon with ⟨_, h2⟩
    exact hL h2

/-- Helper: `_addLevelsAccordingToNewLevelsCount` preserves full
well-formedness (new heads get span `itemsCount + 1`, which dominates the
stored count plus one) and never changes `itemsCount`. -/
theorem addLevels_WFm (sl : SkipList) (M : List (Int × Int)) (h : WFm sl M) (k : Nat) :
    WFm (sl.addLevels k) M ∧ (sl.addLevels k).itemsCount = sl.itemsCount := by
  rcases h with ⟨⟨hM, hsw⟩, hsp, hcnt⟩
  rw [SkipList.addLevels]
  by_cases hk : k ≤ sl.levels.length
  · rw [if_pos hk]
    exact ⟨⟨⟨hM, hsw⟩, hsp, hcnt⟩, rfl⟩
  · rw [if_neg hk]
    have hlen : ((keysKV M).length : Int) = (M.length : Int) := by simp [keysKV]
    have hne : sl.levels ≠ [] := by
      intro hcon
      rw [hcon] at hsw
      cases hsw
    refine ⟨⟨⟨hM, replicate_SWFlevels M _ _ sl.levels hsw⟩, ?_, hcnt⟩, rfl⟩
    exact replicate_spanOK (keysKV M) _ (by omega) _ sl.levels hne hsp

/-- Helper: unfolding `insert` in the tower-building branch. -/
theorem insert_eq_new (sl : SkipList) (x d : Int) (hgt : Nat) (bpr : Nat × Int)
    (hlast : (findInsertPath x (sl.addLevels hgt).levels none (-1)).getLast? = some bpr)
    (hbrk : bottomRightKey (sl.addLevels hgt).levels
        (findInsertPath x (sl.addLevels hgt).levels none (-1)) ≠ some x) :
    sl.insert x d hgt =
      { levels := insertStep x d (bpr.2 + 1) hgt (sl.addLevels hgt).levels
          (findInsertPath x (sl.addLevels hgt).levels none (-1))
          ((sl.addLevels hgt).levels.length - 1)
        itemsCount := (sl.addLevels hgt).itemsCount + 1 } := by
  simp only [SkipList.insert, hlast]
  rw [if_neg hbrk]

/-- Helper: unfolding `insert` in the replace branch. -/
theorem insert_eq_replace (sl : SkipList) (x d : Int) (hgt : Nat) (bpr : Nat × Int)
    (hlast : (findInsertPath x (sl.addLevels hgt).levels none (-1)).getLast? = some bpr)
    (hbrk : bottomRightKey (sl.addLevels hgt).levels
        (findInsertPath x (sl.addLevels hgt).levels none (-1)) = some x) :
    sl.insert x d hgt =
      { sl.addLevels hgt with
        levels :=
          mapLast (fun lvl =>
              { lvl with nodes := modIdx (fun n => { n with data := some d }) lvl.nodes bpr.1 })
            (sl.addLevels hgt).levels } := by
  simp only [SkipList.insert, hlast]
  rw [if_pos hbrk]

/-- Helper: the descent precondition holds trivially for a head-sentinel
entry. -/
theorem skOK_none (x : Int) (lvls : List SLevel) : skOK x lvls none := by
  cases lvls <;> trivial

/-- Helper: inserting a fresh key preserves full well-formedness and adds
the pair to the abstract contents. -/
theorem insert_WFm_new (sl : SkipList) (M : List (Int × Int)) (h : WFm sl M)
    (x d : Int) (hgt : Nat) (hh : 1 ≤ hgt) (hx : x ∉ keysKV M) :
    WFm (sl.insert x d hgt) (insKV x d M) := by
  rcases addLevels_WFm sl M h hgt with ⟨⟨⟨hM, hsw⟩, hsp, hcnt⟩, hic⟩
  have hdw := SWFlevels_descentWF M hM (sl.addLevels hgt).levels hsw
  have hpath : findInsertPath x (sl.addLevels hgt).levels none (-1) =
      (sl.addLevels hgt).levels.map (specPE (keysKV M) x) := by
    have h1 := findInsertPath_eq x (keysKV M) (sl.addLevels hgt).levels none hdw hsp
      (skOK_none x _)
    simpa [pkey] using h1
  rcases SWFlevels_getLast M (sl.addLevels hgt).levels hsw with ⟨bl, hlast, hkd⟩
  have hkeys := keysOf_of_levelKD bl.nodes M hkd
  have hsort := nodesSorted_of_levelKD bl.nodes M hM hkd
  have hplast : (findInsertPath x (sl.addLevels hgt).levels none (-1)).getLast? =
      some (specPE (keysKV M) x bl) := by
    rw [hpath, List.getLast?_map, hlast]
    rfl
  have hbrk : bottomRightKey (sl.addLevels hgt).levels
      (findInsertPath x (sl.addLevels hgt).levels none (-1)) ≠ some x := by
    intro hcon
    exact hx ((bottomRightKey_spec M hM (sl.addLevels hgt).levels hsw x _ hpath).mp hcon)
  rw [insert_eq_new sl x d hgt (specPE (keysKV M) x bl) hplast hbrk]
  have hxx : posIn (keysKV (insKV x d M)) x = posIn (keysKV M) x := by
    have h2 := posIn_insKV x d M hM hx x
    simpa using h2
  have hiar : (specPE (keysKV M) x bl).2 + 1 = posIn (keysKV (insKV x d M)) x := by
    show pkey (keysKV M) (lastKeyLt x bl.nodes none) + 1 = _
    rw [hxx, ← hkeys, pkey_lastKeyLt bl.nodes hsort x, posIn_keysOf]
    omega
  refine ⟨⟨insKV_sorted x d M hM, ?_⟩, ?_, ?_⟩
  · rw [hpath]
    exact insertStep_SWFlevels x d _ hgt hh M hM hx (sl.addLevels hgt).levels _ hsw
      (by rw [List.map_map]; rfl)
  · rw [hpath]
    have hlen : ((keysKV (insKV x d M)).length : Int) = ((keysKV M).length : Int) + 1 := by
      simp [keysKV, length_insKV_new x d M hM hx]
    have hsc := SWFlevels_sortedContig M hM (sl.addLevels hgt).levels hsw
    exact insertStep_spanOK x d _ hgt (keysKV M) (keysKV (insKV x d M))
      (posIn_insKV x d M hM hx) hlen hiar (sl.addLevels hgt).levels
      ((sl.addLevels hgt).levels.length - 1) hsp
      (fun lvl hl => ⟨sortedContig_sorted _ hsc lvl hl,
        fun m hm he => hx (he ▸ SWFlevels_keys_sub M _ hsw lvl hl m hm)⟩)
  · have hln := length_insKV_new x d M hM hx
    show ((insKV x d M).length : Int) ≤ (sl.addLevels hgt).itemsCount + 1
    omega

/-- Helper: in-range index update decomposes as take/item/drop. -/
theorem modIdx_eq_take_drop (f : SLNode → SLNode) :
    ∀ (ns : List SLNode) (i : Nat) (n : SLNode), ns[i]? = some n →
      modIdx f ns i = ns.take i ++ f n :: ns.drop (i + 1) := by
  intro ns
  induction ns with
  | nil => intro i n hget; simp at hget
  | cons m tl ih =>
    intro i n hget
    cases i with
    | zero =>
      simp only [List.getElem?_cons_zero, Option.some.injEq] at hget
      subst hget
      simp [modIdx]
    | succ j =>
      simp only [List.getElem?_cons_succ] at hget
      show m :: modIdx f tl j = m :: (tl.take j ++ f n :: tl.drop (j + 1))
      rw [ih j n hget]

/-- Helper: payload updates do not change keys. -/
theorem keysOf_modIdx_data (d : Int) :
    ∀ (ns : List SLNode) (i : Nat),
      keysOf (modIdx (fun n => { n with data := some d }) ns i) = keysOf ns := by
  intro ns
  induction ns with
  | nil => intro i; rfl
  | cons n tl ih =>
    intro i
    cases i with
    | zero => rfl
    | succ j =>
      show n.key :: keysOf (modIdx _ tl j) = n.key :: keysOf tl
      rw [ih j]

/-- Helper: payload updates do not change keys or spans. -/
theorem kspan_modIdx_data (d : Int) :
    ∀ (ns : List SLNode) (i : Nat),
      (modIdx (fun n => { n with data := some d }) ns i).map (fun n => (n.key, n.span)) =
        ns.map (fun n => (n.key, n.span)) := by
  intro ns
  induction ns with
  | nil => intro i; rfl
  | cons n tl ih =>
    intro i
    cases i with
    | zero => rfl
    | succ j =>
      show (n.key, n.span) :: (modIdx _ tl j).map (fun n => (n.key, n.span)) =
        (n.key, n.span) :: tl.map (fun n => (n.key, n.span))
      rw [ih j]

/-- Helper: the span law depends only on keys and spans. -/
theorem spanLaw_congr (B : List Int) (strict : Bool) :
    ∀ (ns ns' : List SLNode),
      ns.map (fun n => (n.key, n.span)) = ns'.map (fun n => (n.key, n.span)) →
      ∀ cur curSpan, spanLaw B strict cur curSpan ns → spanLaw B strict cur curSpan ns' := by
  intro ns
  induction ns with
  | nil =>
    intro ns' hmap cur curSpan hlaw
    cases ns' with
    | nil => exact hlaw
    | cons a t => simp at hmap
  | cons n tl ih =>
    intro ns' hmap cur curSpan hlaw
    cases ns' with
    | nil => simp at hmap
    | cons n' tl' =>
      simp only [List.map_cons, List.cons.injEq, Prod.mk.injEq] at hmap
      obtain ⟨⟨hk, hsn⟩, htl⟩ := hmap
      rcases hlaw with ⟨h1, h2⟩
      refine ⟨by rw [← hk]; exact h1, ?_⟩
      rw [← hk, ← hsn]
      exact ih tl' htl (posIn B n.key) n.span h2

/-- Helper: replacing a present key keeps the key list unchanged. -/
theorem keysKV_insKV_replace (x d : Int) (M : List (Int × Int))
    (hM : M.Pairwise (fun a b => a.1 < b.1)) (hx : x ∈ keysKV M) :
    keysKV (insKV x d M) = keysKV M := by
  rcases lookup_found_KV x M hM hx with ⟨e, hget, _⟩
  have hclen : M.countP (fun p => decide (p.1 < x)) < M.length :=
    (List.getElem?_eq_some_iff.mp hget).1
  have hdropc : M.drop (M.countP (fun p => decide (p.1 < x))) =
      (x, e) :: M.drop (M.countP (fun p => decide (p.1 < x)) + 1) := by
    rw [List.drop_eq_getElem_cons hclen, (List.getElem?_eq_some_iff.mp hget).2]
  rw [insKV_replace_take_drop x d M hM hx]
  conv_rhs => rw [← List.take_append_drop (M.countP (fun p => decide (p.1 < x))) M, hdropc]
  rw [keysKV, keysKV, List.map_append, List.map_cons, List.map_append, List.map_cons]

/-- Helper: deleting an absent key leaves the contents unchanged. -/
theorem delKV_not_mem (x : Int) :
    ∀ M : List (Int × Int), x ∉ keysKV M → delKV x M = M := by
  intro M
  induction M with
  | nil => intro _; rfl
  | cons p tl ih =>
    intro hx
    rcases p with ⟨a, b⟩
    have hxa : x ≠ a := by
      intro he
      exact hx (by rw [he]; exact List.mem_cons.mpr (Or.inl rfl))
    have hx2 : x ∉ keysKV tl := by
      intro hm
      exact hx (List.mem_cons.mpr (Or.inr hm))
    rw [show delKV x ((a, b) :: tl) = (a, b) :: delKV x tl by simp [delKV, hxa]]
    rw [ih hx2]

/-- Helper: overwriting the payload at the approach position of a bottom
level carrying the contents replaces that key's stored payload. -/
theorem modIdx_data_bottom_KD (x d : Int) (M : List (Int × Int))
    (hM : M.Pairwise (fun a b => a.1 < b.1)) (hx : x ∈ keysKV M) (lvl : SLevel)
    (hkd : levelKD lvl.nodes = M.map (fun p => (p.1, some p.2))) :
    levelKD (modIdx (fun n => { n with data := some d }) lvl.nodes (countLt x lvl.nodes)) =
      (insKV x d M).map (fun p => (p.1, some p.2)) := by
  have hsort := nodesSorted_of_levelKD lvl.nodes M hM hkd
  have hkeys := keysOf_of_levelKD lvl.nodes M hkd
  have hxk : x ∈ keysOf lvl.nodes := by rw [hkeys]; exact hx
  rcases countLt_found x lvl.nodes hsort hxk with ⟨n, hget, hkey⟩
  rw [modIdx_eq_take_drop _ lvl.nodes _ n hget]
  rw [levelKD, List.map_append, List.map_cons, List.map_take, List.map_drop]
  rw [insKV_replace_take_drop x d M hM hx, List.map_append, List.map_cons,
    List.map_take, List.map_drop, ← countLt_eq_countP x lvl.nodes M hkd]
  show (levelKD lvl.nodes).take _ ++ (n.key, some d) :: (levelKD lvl.nodes).drop _ = _
  rw [hkd, hkey]

/-- Helper: `mapLast` of a nonempty stack is nonempty. -/
theorem mapLast_ne_nil (f : SLevel → SLevel) (lvls : List SLevel) (h : lvls ≠ []) :
    mapLast f lvls ≠ [] := by
  cases lvls with
  | nil => exact absurd rfl h
  | cons l t =>
    cases t with
    | nil => simp [mapLast]
    | cons l2 t2 => simp [mapLast]

/-- Helper: rewriting only the bottom level preserves structural
well-formedness when keys are preserved and the bottom carries the new
contents. -/
theorem mapLast_SWFlevels (M M' : List (Int × Int)) (f : SLevel → SLevel)
    (hkeys : ∀ lvl, keysOf (f lvl).nodes = keysOf lvl.nodes)
    (hbot : ∀ lvl, levelKD lvl.nodes = M.map (fun p => (p.1, some p.2)) →
        levelKD (f lvl).nodes = M'.map (fun p => (p.1, some p.2))) :
    ∀ lvls, SWFlevels M lvls → SWFlevels M' (mapLast f lvls) := by
  intro lvls
  induction lvls with
  | nil => intro h; cases h
  | cons lvl lower ih =>
    intro hsw
    cases lower with
    | nil =>
      have hkd : levelKD lvl.nodes = M.map (fun p => (p.1, some p.2)) := by
        simpa [SWFlevels] using hsw
      show SWFlevels M' [f lvl]
      show levelKD (f lvl).nodes = M'.map (fun p => (p.1, some p.2))
      exact hbot lvl hkd
    | cons lvl2 rest =>
      rcases (by simpa [SWFlevels] using hsw :
          upperWF (keysOf lvl2.nodes) lvl ∧ SWFlevels M (lvl2 :: rest)) with ⟨hu, hsw2⟩
      have hrest := ih hsw2
      cases rest with
      | nil =>
        show SWFlevels M' (lvl :: [f lvl2])
        refine ⟨?_, hrest⟩
        rw [show keysOf (f lvl2).nodes = keysOf lvl2.nodes from hkeys lvl2]
        exact hu
      | cons r rs =>
        show SWFlevels M' (lvl :: lvl2 :: mapLast f (r :: rs))
        exact ⟨hu, hrest⟩

/-- Helper: rewriting only the bottom level preserves the span law when
head spans, keys and spans are untouched. -/
theorem mapLast_spanOK (B : List Int) (f : SLevel → SLevel)
    (hf : ∀ lvl, (f lvl).headSpan = lvl.headSpan ∧
        (f lvl).nodes.map (fun n => (n.key, n.span)) = lvl.nodes.map (fun n => (n.key, n.span))) :
    ∀ lvls, spanOK B lvls → spanOK B (mapLast f lvls) := by
  intro lvls
  induction lvls with
  | nil => intro _; trivial
  | cons lvl lower ih =>
    intro hsp
    cases lower with
    | nil =>
      have hlaw : spanLaw B true (-1) lvl.headSpan lvl.nodes := by
        simpa [spanOK] using hsp
      show spanLaw B true (-1) (f lvl).headSpan (f lvl).nodes
      rw [(hf lvl).1]
      exact spanLaw_congr B true lvl.nodes (f lvl).nodes (hf lvl).2.symm (-1) lvl.headSpan hlaw
    | cons lvl2 rest =>
      rcases (by simpa [spanOK] using hsp :
          spanLaw B false (-1) lvl.headSpan lvl.nodes ∧ spanOK B (lvl2 :: rest))
        with ⟨hlaw, hsp2⟩
      have hrest := ih hsp2
      cases rest with
      | nil =>
        show spanOK B (lvl :: [f lvl2])
        exact ⟨hlaw, hrest⟩
      | cons r rs =>
        show spanOK B (lvl :: lvl2 :: mapLast f (r :: rs))
        exact ⟨hlaw, hrest⟩

/-- Helper: inserting a present key overwrites its payload in the bottom
level and preserves full well-formedness. -/
theorem insert_WFm_replace (sl : SkipList) (M : List (Int × Int)) (h : WFm sl M)
    (x d : Int) (hgt : Nat) (hx : x ∈ keysKV M) :
    WFm (sl.insert x d hgt) (insKV x d M) := by
  rcases addLevels_WFm sl M h hgt with ⟨⟨⟨hM, hsw⟩, hsp, hcnt⟩, hic⟩
  have hdw := SWFlevels_descentWF M hM (sl.addLevels hgt).levels hsw
  have hpath : findInsertPath x (sl.addLevels hgt).levels none (-1) =
      (sl.addLevels hgt).levels.map (specPE (keysKV M) x) := by
    have h1 := findInsertPath_eq x (keysKV M) (sl.addLevels hgt).levels none hdw hsp
      (skOK_none x _)
    simpa [pkey] using h1
  rcases SWFlevels_getLast M (sl.addLevels hgt).levels hsw with ⟨bl, hlast, hkd⟩
  have hplast : (findInsertPath x (sl.addLevels hgt).levels none (-1)).getLast? =
      some (specPE (keysKV M) x bl) := by
    rw [hpath, List.getLast?_map, hlast]
    rfl
  have hbrk : bottomRightKey (sl.addLevels hgt).levels
      (findInsertPath x (sl.addLevels hgt).levels none (-1)) = some x :=
    (bottomRightKey_spec M hM (sl.addLevels hgt).levels hsw x _ hpath).mpr hx
  rw [insert_eq_replace sl x d hgt (specPE (keysKV M) x bl) hplast hbrk]
  have hp1 : (specPE (keysKV M) x bl).1 = countLt x bl.nodes := rfl
  have hcP : countLt x bl.nodes = M.countP (fun p => decide (p.1 < x)) :=
    countLt_eq_countP x bl.nodes M hkd
  refine ⟨⟨insKV_sorted x d M hM, ?_⟩, ?_, ?_⟩
  · refine mapLast_SWFlevels M (insKV x d M) _ ?_ ?_ (sl.addLevels hgt).levels hsw
    · intro lvl
      exact keysOf_modIdx_data d lvl.nodes _
    · intro lvl hkd2
      show levelKD (modIdx (fun n => { n with data := some d }) lvl.nodes
          (specPE (keysKV M) x bl).1) = (insKV x d M).map (fun p => (p.1, some p.2))
      rw [hp1, hcP, ← countLt_eq_countP x lvl.nodes M hkd2]
      exact modIdx_data_bottom_KD x d M hM hx lvl hkd2
  · rw [keysKV_insKV_replace x d M hM hx]
    refine mapLast_spanOK (keysKV M) _ ?_ (sl.addLevels hgt).levels hsp
    intro lvl
    exact ⟨rfl, kspan_modIdx_data d lvl.nodes _⟩
  · have hln := length_insKV_replace x d M hM hx
    show ((insKV x d M).length : Int) ≤ (sl.addLevels hgt).itemsCount
    omega

/-- Helper: deleting a present key preserves full well-formedness and
removes the pair from the abstract contents. -/
theorem delete_WFm_present (sl : SkipList) (M : List (Int × Int)) (h : WFm sl M)
    (x : Int) (hx : x ∈ keysKV M) :
    WFm (sl.delete x) (delKV x M) := by
  rcases h with ⟨⟨hM, hsw⟩, hsp, hcnt⟩
  have hdw := SWFlevels_descentWF M hM sl.levels hsw
  have hpath : findInsertPath x sl.levels none (-1) =
      sl.levels.map (specPE (keysKV M) x) := by
    have h1 := findInsertPath_eq x (keysKV M) sl.levels none hdw hsp (skOK_none x _)
    simpa [pkey] using h1
  have hln := length_delKV x M hM hx
  rw [SkipList.delete]
  refine ⟨⟨delKV_sorted x M hM, ?_⟩, ?_, ?_⟩
  · show SWFlevels (delKV x M) (deleteStep x sl.levels (findInsertPath x sl.levels none (-1)))
    rw [hpath]
    exact deleteStep_SWFlevels x M hM hx sl.levels _ hsw (by rw [List.map_map]; rfl)
  · show spanOK (keysKV (delKV x M))
      (deleteStep x sl.levels (findInsertPath x sl.levels none (-1)))
    rw [hpath]
    have hlen : ((keysKV (delKV x M)).length : Int) = ((keysKV M).length : Int) - 1 := by
      simp only [keysKV, List.length_map]
      omega
    have hsc := SWFlevels_sortedContig M hM sl.levels hsw
    exact deleteStep_spanOK x (keysKV M) (keysKV (delKV x M)) (posIn_delKV x M hM hx) hlen
      sl.levels hsp (fun lvl hl => sortedContig_sorted _ hsc lvl hl)
  · show ((delKV x M).length : Int) ≤ sl.itemsCount
    omega

/-- Helper: deleting an absent key only decrements approach spans and
leaves `itemsCount` untouched. -/
theorem delete_absent_levels (sl : SkipList) (M : List (Int × Int))
    (hM : M.Pairwise (fun a b => a.1 < b.1)) (hsw : SWFlevels M sl.levels)
    (x : Int) (hx : x ∉ keysKV M) :
    (sl.delete x).levels =
      sl.levels.map (fun lvl => bumpSpanAt lvl (countLt x lvl.nodes) (-1)) ∧
    (sl.delete x).itemsCount = sl.itemsCount := by
  have hsc := SWFlevels_sortedContig M hM sl.levels hsw
  have hfst := findInsertPath_fst x sl.levels none (-1) hsc (skOK_none x _)
  have habs : ∀ lvl ∈ sl.levels, x ∉ keysOf lvl.nodes := by
    intro lvl hl hmem
    rcases List.mem_map.mp hmem with ⟨n, hn, hnk⟩
    have hz := SWFlevels_keys_sub M sl.levels hsw lvl hl n hn
    rw [hnk] at hz
    exact hx hz
  rw [SkipList.delete]
  exact ⟨deleteStep_absent x sl.levels _ habs hfst, rfl⟩

/-- Helper: `_addLevelsAccordingToNewLevelsCount` preserves structural
well-formedness on its own. -/
theorem addLevels_SWFlevels (sl : SkipList) (M : List (Int × Int))
    (hsw : SWFlevels M sl.levels) (k : Nat) :
    SWFlevels M (sl.addLevels k).levels := by
  rw [SkipList.addLevels]
  by_cases hk : k ≤ sl.levels.length
  · rw [if_pos hk]
    exact hsw
  · rw [if_neg hk]
    exact replicate_SWFlevels M _ _ sl.levels hsw

/-- Helper: the replace test of `insert` fires exactly on stored keys when
the descent returned the intended approach positions (position-only
variant that survives span drift). -/
theorem bottomRightKey_spec_fst (M : List (Int × Int))
    (hM : M.Pairwise (fun a b => a.1 < b.1))
    (lvls : List SLevel) (hsw : SWFlevels M lvls) (x : Int)
    (path : List (Nat × Int))
    (hfst : path.map Prod.fst = lvls.map (fun lvl => countLt x lvl.nodes)) :
    bottomRightKey lvls path = some x ↔ x ∈ keysKV M := by
  rcases SWFlevels_getLast M lvls hsw with ⟨bl, hlast, hkd⟩
  have hkeys := keysOf_of_levelKD bl.nodes M hkd
  have hsort := nodesSorted_of_levelKD bl.nodes M hM hkd
  have h1 : (path.map Prod.fst).getLast? = some (countLt x bl.nodes) := by
    rw [hfst, List.getLast?_map, hlast]
    rfl
  rw [List.getLast?_map] at h1
  cases hpl : path.getLast? with
  | none =>
    rw [hpl] at h1
    simp at h1
  | some bpr =>
    rw [hpl] at h1
    simp only [Option.map_some', Option.some.injEq] at h1
    have hbrk : bottomRightKey lvls path =
        (bl.nodes[countLt x bl.nodes]?).map (fun n => n.key) := by
      simp only [bottomRightKey, hlast, hpl, h1]
    by_cases hx : x ∈ keysKV M
    · rcases countLt_found x bl.nodes hsort (by rw [hkeys]; exact hx) with ⟨n, hget, hkey⟩
      rw [hbrk, hget]
      simp [hkey, hx]
    · have hxk : x ∉ keysOf bl.nodes := by rw [hkeys]; exact hx
      rw [hbrk]
      cases hget : bl.nodes[countLt x bl.nodes]? with
      | none => simp [hx]
      | some right =>
        have hne := countLt_notfound x bl.nodes hxk right hget
        simp [hx, hne]

/-- Helper: `insert` preserves structural well-formedness on its own,
even from span-drifted states. -/
theorem insert_SWF (sl : SkipList) (M : List (Int × Int))
    (hM : M.Pairwise (fun a b => a.1 < b.1)) (hsw : SWFlevels M sl.levels)
    (x d : Int) (hgt : Nat) (hh : 1 ≤ hgt) :
    SWFlevels (insKV x d M) (sl.insert x d hgt).levels := by
  have hsw1 : SWFlevels M (sl.addLevels hgt).levels := addLevels_SWFlevels sl M hsw hgt
  have hsc := SWFlevels_sortedContig M hM _ hsw1
  have hfst := findInsertPath_fst x (sl.addLevels hgt).levels none (-1) hsc (skOK_none x _)
  rcases SWFlevels_getLast M _ hsw1 with ⟨bl, hlast, hkd⟩
  have h1 : ((findInsertPath x (sl.addLevels hgt).levels none (-1)).map Prod.fst).getLast? =
      some (countLt x bl.nodes) := by
    rw [hfst, List.getLast?_map, hlast]
    rfl
  rw [List.getLast?_map] at h1
  cases hpl : (findInsertPath x (sl.addLevels hgt).levels none (-1)).getLast? with
  | none =>
    rw [hpl] at h1
    simp at h1
  | some bpr =>
    rw [hpl] at h1
    simp only [Option.map_some', Option.some.injEq] at h1
    by_cases hx : x ∈ keysKV M
    · rw [insert_eq_replace sl x d hgt bpr hpl
        ((bottomRightKey_spec_fst M hM _ hsw1 x _ hfst).mpr hx)]
      refine mapLast_SWFlevels M (insKV x d M) _
        (fun lvl => keysOf_modIdx_data d lvl.nodes _) ?_ _ hsw1
      intro lvl hkd2
      show levelKD (modIdx (fun n => { n with data := some d }) lvl.nodes bpr.1) =
        (insKV x d M).map (fun p => (p.1, some p.2))
      rw [h1, countLt_eq_countP x bl.nodes M hkd, ← countLt_eq_countP x lvl.nodes M hkd2]
      exact modIdx_data_bottom_KD x d M hM hx lvl hkd2
    · rw [insert_eq_new sl x d hgt bpr hpl
        (fun hcon => hx ((bottomRightKey_spec_fst M hM _ hsw1 x _ hfst).mp hcon))]
      exact insertStep_SWFlevels x d _ hgt hh M hM hx _ _ hsw1 hfst

/-- Helper: `delete` preserves structural well-formedness on its own,
even from span-drifted states. -/
theorem delete_SWF (sl : SkipList) (M : List (Int × Int))
    (hM : M.Pairwise (fun a b => a.1 < b.1)) (hsw : SWFlevels M sl.levels)
    (x : Int) :
    SWFlevels (delKV x M) (sl.delete x).levels := by
  by_cases hx : x ∈ keysKV M
  · have hsc := SWFlevels_sortedContig M hM sl.levels hsw
    have hfst := findInsertPath_fst x sl.levels none (-1) hsc (skOK_none x _)
    rw [SkipList.delete]
    exact deleteStep_SWFlevels x M hM hx sl.levels _ hsw hfst
  · rcases delete_absent_levels sl M hM hsw x hx with ⟨hlv, _⟩
    rw [hlv, delKV_not_mem x M hx]
    exact bump_map_SWFlevels x M sl.levels hsw

/-- Helper: any operation sequence with positive drawn heights keeps the
level stack structurally well-formed over the abstract contents. -/
theorem foldl_SWF (ops : List Op) :
    ∀ (sl : SkipList) (M : List (Int × Int)),
      HValid ops → M.Pairwise (fun a b => a.1 < b.1) → SWFlevels M sl.levels →
      (ops.foldl applyKV M).Pairwise (fun a b => a.1 < b.1) ∧
        SWFlevels (ops.foldl applyKV M) (ops.foldl applyOp sl).levels := by
  induction ops with
  | nil => intro sl M _ hM hsw; exact ⟨hM, hsw⟩
  | cons op rest ih =>
    intro sl M hv hM hsw
    cases op with
    | ins k d h =>
      rcases hv with ⟨hh, hv2⟩
      exact ih (sl.insert k d h) (insKV k d M) hv2 (insKV_sorted k d M hM)
        (insert_SWF sl M hM hsw k d h hh)
    | del k =>
      exact ih (sl.delete k) (delKV k M) hv (delKV_sorted k M hM)
        (delete_SWF sl M hM hsw k)

/-- Helper: structural well-formedness of every reachable state. -/
theorem runOps_SWF (ops : List Op) (hv : HValid ops) :
    (modelOf ops).Pairwise (fun a b => a.1 < b.1) ∧
      SWFlevels (modelOf ops) (runOps ops).levels := by
  have hsw0 : SWFlevels ([] : List (Int × Int)) SkipList.empty.levels := rfl
  exact foldl_SWF ops SkipList.empty [] hv List.Pairwise.nil hsw0

/-- Helper: any drift-free operation sequence keeps the state fully
well-formed over the abstract contents. -/
theorem foldl_WFm (ops : List Op) :
    ∀ (sl : SkipList) (M : List (Int × Int)),
      ValidFrom M ops → M.Pairwise (fun a b => a.1 < b.1) → WFm sl M →
      (ops.foldl applyKV M).Pairwise (fun a b => a.1 < b.1) ∧
        WFm (ops.foldl applyOp sl) (ops.foldl applyKV M) := by
  induction ops with
  | nil => intro sl M _ hM h; exact ⟨hM, h⟩
  | cons op rest ih =>
    intro sl M hv hM h
    cases op with
    | ins k d hg =>
      rcases hv with ⟨hh, hv2⟩
      by_cases hk : k ∈ keysKV M
      · exact ih _ _ hv2 (insKV_sorted k d M hM) (insert_WFm_replace sl M h k d hg hk)
      · exact ih _ _ hv2 (insKV_sorted k d M hM) (insert_WFm_new sl M h k d hg hh hk)
    | del k =>
      rcases hv with ⟨hk, hv2⟩
      exact ih _ _ hv2 (delKV_sorted k M hM) (delete_WFm_present sl M h k hk)

/-- Helper: the freshly constructed list is fully well-formed over empty
contents. -/
theorem empty_WFm : WFm SkipList.empty [] := by
  refine ⟨⟨List.Pairwise.nil, rfl⟩, ?_, ?_⟩
  · show (1 : Int) = ((keysKV []).length : Int) - (-1)
    norm_num
    rfl
  · show (0 : Int) ≤ 0
    norm_num

/-- Helper: full well-formedness of every drift-free reachable state. -/
theorem runOps_WFm (ops : List Op) (hv : ValidFrom [] ops) :
    (modelOf ops).Pairwise (fun a b => a.1 < b.1) ∧
      WFm (runOps ops) (modelOf ops) := by
  exact foldl_WFm ops SkipList.empty [] hv List.Pairwise.nil empty_WFm

/-- Helper: tower contiguity, read off by level index. -/
theorem sortedContig_contig :
    ∀ (lvls : List SLevel), sortedContig lvls → ∀ (i : Nat) (lvl lvl2 : SLevel),
      lvls[i]? = some lvl → lvls[i + 1]? = some lvl2 →
      ∀ n ∈ lvl.nodes, n.key ∈ keysOf lvl2.nodes := by
  intro lvls
  induction lvls with
  | nil => intro _ i lvl lvl2 h; simp at h
  | cons a rest ih =>
    intro hsc i lvl lvl2 h1 h2 n hn
    cases i with
    | zero =>
      simp only [List.getElem?_cons_zero, Option.some.injEq] at h1
      simp only [List.getElem?_cons_succ] at h2
      cases rest with
      | nil => simp at h2
      | cons b rest2 =>
        simp only [List.getElem?_cons_zero, Option.some.injEq] at h2
        rcases (by simpa [sortedContig] using hsc :
            nodesSorted a.nodes ∧ (∀ m ∈ a.nodes, m.key ∈ keysOf b.nodes) ∧
              sortedContig (b :: rest2)) with ⟨_, hcont, _⟩
        rw [← h1] at hn
        rw [← h2]
        exact hcont n hn
    | succ j =>
      simp only [List.getElem?_cons_succ] at h1 h2
      cases rest with
      | nil => simp at h1
      | cons b rest2 =>
        rcases (by simpa [sortedContig] using hsc :
            nodesSorted a.nodes ∧ (∀ m ∈ a.nodes, m.key ∈ keysOf b.nodes) ∧
              sortedContig (b :: rest2)) with ⟨_, _, hsc2⟩
        exact ih hsc2 j lvl lvl2 h1 h2 n hn

/-- Helper: the head sentinel's heap cell. -/
theorem reprMem_head (sl : SkipList) (i : Nat) (lvl : SLevel)
    (h : sl.levels[i]? = some lvl) :
    reprMem sl (i, 0) =
      some { down := if i + 1 = sl.levels.length then none else some (i + 1, 0)
             right := some (i, 1), key := none, data := none, span := lvl.headSpan } := by
  simp only [reprMem, h]
  rw [if_pos trivial]

/-- Helper: a real node's heap cell. -/
theorem reprMem_node (sl : SkipList) (i : Nat) (lvl : SLevel) (p : Nat) (n : SLNode)
    (h : sl.levels[i]? = some lvl) (hp : lvl.nodes[p]? = some n) :
    reprMem sl (i, p + 1) =
      some { down :=
               if i + 1 = sl.levels.length then none
               else some (i + 1, idxOfKey n.key (match sl.levels[i + 1]? with
                                                  | some l2 => l2.nodes
                                                  | none => []) + 1)
             right := some (i, p + 1 + 1), key := some n.key, data := n.data
             span := n.span } := by
  have hplen : p < lvl.nodes.length := (List.getElem?_eq_some_iff.mp hp).1
  simp only [reprMem, h]
  rw [if_neg (by omega : ¬ (p + 1 = 0)),
    if_neg (by omega : ¬ (p + 1 = lvl.nodes.length + 1))]
  simp only [Nat.add_sub_cancel, hp]

/-- Helper: the tail sentinel's heap cell. -/
theorem reprMem_tail_addr (sl : SkipList) (i : Nat) (lvl : SLevel)
    (h : sl.levels[i]? = some lvl) :
    reprMem sl (i, lvl.nodes.length + 1) =
      some { down := if i + 1 = sl.levels.length then none
                     else some (i + 1, tailPos sl (i + 1))
             right := none, key := none, data := none, span := 0 } := by
  simp only [reprMem, h]
  rw [if_neg (by omega : ¬ (lvl.nodes.length + 1 = 0)), if_pos trivial]

/-- Helper: the walk measure split at an existing level. -/
theorem walkMeasure_eq (sl : SkipList) (i : Nat) (lvl : SLevel)
    (h : sl.levels[i]? = some lvl) (p : Nat) :
    walkMeasure sl i p =
      lvl.nodes.length + 2 +
        ((sl.levels.drop (i + 1)).map (fun l => l.nodes.length + 2)).sum - p := by
  rw [walkMeasure, List.drop_eq_getElem_cons (List.getElem?_eq_some_iff.mp h).1,
    (List.getElem?_eq_some_iff.mp h).2]
  simp

/-- Helper: a real node's `down` pointer lands on a real node one level
below on a sorted-contiguous stack. -/
theorem down_target_le (sl : SkipList) (hsc : sortedContig sl.levels) (i : Nat)
    (lvl lvl2 : SLevel) (h : sl.levels[i]? = some lvl) (h2 : sl.levels[i + 1]? = some lvl2)
    (nq : SLNode) (hnq : nq ∈ lvl.nodes) :
    idxOfKey nq.key (match sl.levels[i + 1]? with | some l2 => l2.nodes | none => []) + 1 ≤
      lvl2.nodes.length := by
  have hred : (match sl.levels[i + 1]? with | some l2 => l2.nodes | none => []) =
      lvl2.nodes := by
    rw [h2]
  rw [hred]
  have hmem := sortedContig_contig sl.levels hsc i lvl lvl2 h h2 nq hnq
  rcases idxOfKey_mem nq.key lvl2.nodes hmem with ⟨m, hget, _⟩
  have hlt := (List.getElem?_eq_some_iff.mp hget).1
  omega

/-- Helper: on a sorted-contiguous state, the pointer-level descent from a
head-or-real address never dereferences null: it either lands on a valid
bottom approach point or runs out of fuel. -/
theorem findPathBottomH_ok (x : Int) (sl : SkipList) (hsc : sortedContig sl.levels) :
    ∀ (fuel : Nat) (i p : Nat) (lvl : SLevel) (rank : Int),
      sl.levels[i]? = some lvl →
      p ≤ lvl.nodes.length →
      (∃ i' p' lvl' rank',
          findPathBottomH x (reprH sl) fuel (i, p) rank =
            (.ok ((i', p'), rank'), reprH sl) ∧
          sl.levels[i']? = some lvl' ∧ p' ≤ lvl'.nodes.length ∧
          i' + 1 = sl.levels.length) ∨
        (findPathBottomH x (reprH sl) fuel (i, p) rank = (.noFuel, reprH sl) ∧
          fuel ≤ walkMeasure sl i p) := by
  have hmem : (reprH sl).mem = reprMem sl := rfl
  intro fuel
  induction fuel with
  | zero =>
    intro i p lvl rank h hp
    exact Or.inr ⟨rfl, Nat.zero_le _⟩
  | succ fuel ih =>
    intro i p lvl rank h hp
    have hilen : i < sl.levels.length := (List.getElem?_eq_some_iff.mp h).1
    cases p with
    | zero =>
      have hcur := reprMem_head sl i lvl h
      cases hns : lvl.nodes with
      | nil =>
        have hlen0 : lvl.nodes.length = 0 := by rw [hns]; rfl
        have hra : reprMem sl (i, 1) =
            some { down := if i + 1 = sl.levels.length then none
                           else some (i + 1, tailPos sl (i + 1))
                   right := none, key := none, data := none, span := 0 } := by
          have ht := reprMem_tail_addr sl i lvl h
          rw [hlen0] at ht
          exact ht
        by_cases hbot : i + 1 = sl.levels.length
        · refine Or.inl ⟨i, 0, lvl, rank, ?_, h, Nat.zero_le _, hbot⟩
          simp only [findPathBottomH, hmem, hcur, hra]
          simp [hbot]
        · cases h2 : sl.levels[i + 1]? with
          | none =>
            exfalso
            rw [List.getElem?_eq_none_iff] at h2
            omega
          | some lvl2 =>
            have hstep : findPathBottomH x (reprH sl) (fuel + 1) (i, 0) rank =
                findPathBottomH x (reprH sl) fuel (i + 1, 0) rank := by
              simp only [findPathBottomH, hmem, hcur, hra]
              simp [hbot]
            rw [hstep]
            rcases ih (i + 1) 0 lvl2 rank h2 (Nat.zero_le _) with hok | ⟨heq, hm⟩
            · exact Or.inl hok
            · refine Or.inr ⟨heq, ?_⟩
              have hm1 := walkMeasure_eq sl i lvl h 0
              have hm2 : walkMeasure sl (i + 1) 0 =
                  ((sl.levels.drop (i + 1)).map (fun l => l.nodes.length + 2)).sum := by
                simp [walkMeasure]
              omega
      | cons n0 tl =>
        have hn0 : lvl.nodes[0]? = some n0 := by rw [hns]; simp
        have hra := reprMem_node sl i lvl 0 n0 h hn0
        have hlen1 : 1 ≤ lvl.nodes.length := by rw [hns]; simp
        by_cases hlt : n0.key < x
        · have hstep : findPathBottomH x (reprH sl) (fuel + 1) (i, 0) rank =
              findPathBottomH x (reprH sl) fuel (i, 1) (rank + lvl.headSpan) := by
            simp only [findPathBottomH, hmem, hcur, hra]
            simp [hlt]
          rw [hstep]
          rcases ih i 1 lvl (rank + lvl.headSpan) h hlen1 with hok | ⟨heq, hm⟩
          · exact Or.inl hok
          · refine Or.inr ⟨heq, ?_⟩
            have hm1 := walkMeasure_eq sl i lvl h 0
            have hm2 := walkMeasure_eq sl i lvl h 1
            omega
        · by_cases hbot : i + 1 = sl.levels.length
          · refine Or.inl ⟨i, 0, lvl, rank, ?_, h, Nat.zero_le _, hbot⟩
            simp only [findPathBottomH, hmem, hcur, hra]
            simp [hbot, hlt]
          · cases h2 : sl.levels[i + 1]? with
            | none =>
              exfalso
              rw [List.getElem?_eq_none_iff] at h2
              omega
            | some lvl2 =>
              have hstep : findPathBottomH x (reprH sl) (fuel + 1) (i, 0) rank =
                  findPathBottomH x (reprH sl) fuel (i + 1, 0) rank := by
                simp only [findPathBottomH, hmem, hcur, hra]
                simp [hbot, hlt]
              rw [hstep]
              rcases ih (i + 1) 0 lvl2 rank h2 (Nat.zero_le _) with hok | ⟨heq, hm⟩
              · exact Or.inl hok
              · refine Or.inr ⟨heq, ?_⟩
                have hm1 := walkMeasure_eq sl i lvl h 0
                have hm2 : walkMeasure sl (i + 1) 0 =
                    ((sl.levels.drop (i + 1)).map (fun l => l.nodes.length + 2)).sum := by
                  simp [walkMeasure]
                omega
    | succ q =>
      cases hnq : lvl.nodes[q]? with
      | none =>
        exfalso
        rw [List.getElem?_eq_none_iff] at hnq
        omega
      | some nq =>
        have hcur := reprMem_node sl i lvl q nq h hnq
        have hnqmem : nq ∈ lvl.nodes := by
          rcases List.getElem?_eq_some_iff.mp hnq with ⟨hlt2, hval⟩
          exact hval ▸ List.getElem_mem hlt2
        by_cases htail : q + 1 = lvl.nodes.length
        · have hra : reprMem sl (i, q + 1 + 1) =
              some { down := if i + 1 = sl.levels.length then none
                             else some (i + 1, tailPos sl (i + 1))
                     right := none, key := none, data := none, span := 0 } := by
            have ht := reprMem_tail_addr sl i lvl h
            rw [show lvl.nodes.length + 1 = q + 1 + 1 by omega] at ht
            exact ht
          by_cases hbot : i + 1 = sl.levels.length
          · refine Or.inl ⟨i, q + 1, lvl, rank, ?_, h, hp, hbot⟩
            simp only [findPathBottomH, hmem, hcur, hra]
            simp [hbot]
          · cases h2 : sl.levels[i + 1]? with
            | none =>
              exfalso
              rw [List.getElem?_eq_none_iff] at h2
              omega
            | some lvl2 =>
              have hdt := down_target_le sl hsc i lvl lvl2 h h2 nq hnqmem
              have hstep : findPathBottomH x (reprH sl) (fuel + 1) (i, q + 1) rank =
                  findPathBottomH x (reprH sl) fuel
                    (i + 1, idxOfKey nq.key (match sl.levels[i + 1]? with
                                              | some l2 => l2.nodes
                                              | none => []) + 1) rank := by
                simp only [findPathBottomH, hmem, hcur, hra]
                simp [hbot]
              rw [hstep]
              rcases ih (i + 1) _ lvl2 rank h2 hdt with hok | ⟨heq, hm⟩
              · exact Or.inl hok
              · refine Or.inr ⟨heq, ?_⟩
                have hm1 := walkMeasure_eq sl i lvl h (q + 1)
                have hm2 := walkMeasure_eq sl (i + 1) lvl2 h2
                  (idxOfKey nq.key (match sl.levels[i + 1]? with
                                     | some l2 => l2.nodes
                                     | none => []) + 1)
                have hm3 : walkMeasure sl (i + 1) 0 =
                    ((sl.levels.drop (i + 1)).map (fun l => l.nodes.length + 2)).sum := by
                  simp [walkMeasure]
                have hm4 := walkMeasure_eq sl (i + 1) lvl2 h2 0
                omega
        · cases hnq1 : lvl.nodes[q + 1]? with
          | none =>
            exfalso
            rw [List.getElem?_eq_none_iff] at hnq1
            omega
          | some nq1 =>
            have hra := reprMem_node sl i lvl (q + 1) nq1 h hnq1
            have hq2 : q + 1 + 1 ≤ lvl.nodes.length := by
              have := (List.getElem?_eq_some_iff.mp hnq1).1
              omega
            by_cases hlt : nq1.key < x
            · have hstep : findPathBottomH x (reprH sl) (fuel + 1) (i, q + 1) rank =
                  findPathBottomH x (reprH sl) fuel (i, q + 1 + 1) (rank + nq.span) := by
                simp only [findPathBottomH, hmem, hcur, hra]
                simp [hlt]
              rw [hstep]
              rcases ih i (q + 1 + 1) lvl (rank + nq.span) h hq2 with hok | ⟨heq, hm⟩
              · exact Or.inl hok
              · refine Or.inr ⟨heq, ?_⟩
                have hm1 := walkMeasure_eq sl i lvl h (q + 1)
                have hm2 := walkMeasure_eq sl i lvl h (q + 1 + 1)
                omega
            · by_cases hbot : i + 1 = sl.levels.length
              · refine Or.inl ⟨i, q + 1, lvl, rank, ?_, h, hp, hbot⟩
                simp only [findPathBottomH, hmem, hcur, hra]
                simp [hbot, hlt]
              · cases h2 : sl.levels[i + 1]? with
                | none =>
                  exfalso
                  rw [List.getElem?_eq_none_iff] at h2
                  omega
                | some lvl2 =>
                  have hdt := down_target_le sl hsc i lvl lvl2 h h2 nq hnqmem
                  have hstep : findPathBottomH x (reprH sl) (fuel + 1) (i, q + 1) rank =
                      findPathBottomH x (reprH sl) fuel
                        (i + 1, idxOfKey nq.key (match sl.levels[i + 1]? with
                                                  | some l2 => l2.nodes
                                                  | none => []) + 1) rank := by
                    simp only [findPathBottomH, hmem, hcur, hra]
                    simp [hbot, hlt]
                  rw [hstep]
                  rcases ih (i + 1) _ lvl2 rank h2 hdt with hok | ⟨heq, hm⟩
                  · exact Or.inl hok
                  · refine Or.inr ⟨heq, ?_⟩
                    have hm1 := walkMeasure_eq sl i lvl h (q + 1)
                    have hm2 := walkMeasure_eq sl (i + 1) lvl2 h2
                      (idxOfKey nq.key (match sl.levels[i + 1]? with
                                         | some l2 => l2.nodes
                                         | none => []) + 1)
                    have hm4 := walkMeasure_eq sl (i + 1) lvl2 h2 0
                    have hm3 : walkMeasure sl (i + 1) 0 =
                        ((sl.levels.drop (i + 1)).map (fun l => l.nodes.length + 2)).sum := by
                      simp [walkMeasure]
                    omega

/-- Helper: on a sorted-contiguous state, the pointer-level `findByRank`
loop from a head-or-real address never dereferences null: it either stops
at a valid address or runs out of fuel.  The loop's control flow reads
spans, but its safety does not depend on their values. -/
theorem byRankLoopH_ok (rank : Int) (sl : SkipList) (hsc : sortedContig sl.levels) :
    ∀ (fuel : Nat) (i p : Nat) (lvl : SLevel) (rc : Int),
      sl.levels[i]? = some lvl →
      p ≤ lvl.nodes.length →
      (∃ i' p' lvl' rc',
          byRankLoopH rank (reprH sl) fuel (i, p) rc =
            (.ok ((i', p'), rc'), reprH sl) ∧
          sl.levels[i']? = some lvl' ∧ p' ≤ lvl'.nodes.length) ∨
        (byRankLoopH rank (reprH sl) fuel (i, p) rc = (.noFuel, reprH sl) ∧
          fuel ≤ walkMeasure sl i p) := by
  have hmem : (reprH sl).mem = reprMem sl := rfl
  intro fuel
  induction fuel with
  | zero =>
    intro i p lvl rc h hp
    exact Or.inr ⟨rfl, Nat.zero_le _⟩
  | succ fuel ih =>
    intro i p lvl rc h hp
    have hilen : i < sl.levels.length := (List.getElem?_eq_some_iff.mp h).1
    by_cases hstop : rc < rank
    · cases p with
      | zero =>
        have hcur := reprMem_head sl i lvl h
        by_cases hspan : rc + lvl.headSpan < rank
        · cases hns : lvl.nodes with
          | nil =>
            have hlen0 : lvl.nodes.length = 0 := by rw [hns]; rfl
            have hra : reprMem sl (i, 1) =
                some { down := if i + 1 = sl.levels.length then none
                               else some (i + 1, tailPos sl (i + 1))
                       right := none, key := none, data := none, span := 0 } := by
              have ht := reprMem_tail_addr sl i lvl h
              rw [hlen0] at ht
              exact ht
            by_cases hbot : i + 1 = sl.levels.length
            · refine Or.inl ⟨i, 0, lvl, rc, ?_, h, Nat.zero_le _⟩
              simp only [byRankLoopH, hmem, hcur, hra]
              simp [hstop, hspan, hbot]
            · cases h2 : sl.levels[i + 1]? with
              | none =>
                exfalso
                rw [List.getElem?_eq_none_iff] at h2
                omega
              | some lvl2 =>
                have hstep : byRankLoopH rank (reprH sl) (fuel + 1) (i, 0) rc =
                    byRankLoopH rank (reprH sl) fuel (i + 1, 0) rc := by
                  simp only [byRankLoopH, hmem, hcur, hra]
                  simp [hstop, hspan, hbot]
                rw [hstep]
                rcases ih (i + 1) 0 lvl2 rc h2 (Nat.zero_le _) with hok | ⟨heq, hm⟩
                · exact Or.inl hok
                · refine Or.inr ⟨heq, ?_⟩
                  have hm1 := walkMeasure_eq sl i lvl h 0
                  have hm2 : walkMeasure sl (i + 1) 0 =
                      ((sl.levels.drop (i + 1)).map (fun l => l.nodes.length + 2)).sum := by
                    simp [walkMeasure]
                  omega
          | cons n0 tl =>
            have hn0 : lvl.nodes[0]? = some n0 := by rw [hns]; simp
            have hra := reprMem_node sl i lvl 0 n0 h hn0
            have hlen1 : 1 ≤ lvl.nodes.length := by rw [hns]; simp
            have hstep : byRankLoopH rank (reprH sl) (fuel + 1) (i, 0) rc =
                byRankLoopH rank (reprH sl) fuel (i, 1) (rc + lvl.headSpan) := by
              simp only [byRankLoopH, hmem, hcur, hra]
              simp [hstop, hspan]
            rw [hstep]
            rcases ih i 1 lvl (rc + lvl.headSpan) h hlen1 with hok | ⟨heq, hm⟩
            · exact Or.inl hok
            · refine Or.inr ⟨heq, ?_⟩
              have hm1 := walkMeasure_eq sl i lvl h 0
              have hm2 := walkMeasure_eq sl i lvl h 1
              omega
        · by_cases hbot : i + 1 = sl.levels.length
          · refine Or.inl ⟨i, 0, lvl, rc, ?_, h, Nat.zero_le _⟩
            simp only [byRankLoopH, hmem, hcur]
            simp [hstop, hspan, hbot]
          · cases h2 : sl.levels[i + 1]? with
            | none =>
              exfalso
              rw [List.getElem?_eq_none_iff] at h2
              omega
            | some lvl2 =>
              have hstep : byRankLoopH rank (reprH sl) (fuel + 1) (i, 0) rc =
                  byRankLoopH rank (reprH sl) fuel (i + 1, 0) rc := by
                simp only [byRankLoopH, hmem, hcur]
                simp [hstop, hspan, hbot]
              rw [hstep]
              rcases ih (i + 1) 0 lvl2 rc h2 (Nat.zero_le _) with hok | ⟨heq, hm⟩
              · exact Or.inl hok
              · refine Or.inr ⟨heq, ?_⟩
                have hm1 := walkMeasure_eq sl i lvl h 0
                have hm2 : walkMeasure sl (i + 1) 0 =
                    ((sl.levels.drop (i + 1)).map (fun l => l.nodes.length + 2)).sum := by
                  simp [walkMeasure]
                omega
      | succ q =>
        cases hnq : lvl.nodes[q]? with
        | none =>
          exfalso
          rw [List.getElem?_eq_none_iff] at hnq
          omega
        | some nq =>
          have hcur := reprMem_node sl i lvl q nq h hnq
          have hnqmem : nq ∈ lvl.nodes := by
            rcases List.getElem?_eq_some_iff.mp hnq with ⟨hlt2, hval⟩
            exact hval ▸ List.getElem_mem hlt2
          by_cases hspan : rc + nq.span < rank
          · by_cases htail : q + 1 = lvl.nodes.length
            · have hra : reprMem sl (i, q + 1 + 1) =
                  some { down := if i + 1 = sl.levels.length then none
                                 else some (i + 1, tailPos sl (i + 1))
                         right := none, key := none, data := none, span := 0 } := by
                have ht := reprMem_tail_addr sl i lvl h
                rw [show lvl.nodes.length + 1 = q + 1 + 1 by omega] at ht
                exact ht
              by_cases hbot : i + 1 = sl.levels.length
              · refine Or.inl ⟨i, q + 1, lvl, rc, ?_, h, hp⟩
                simp only [byRankLoopH, hmem, hcur, hra]
                simp [hstop, hspan, hbot]
              · cases h2 : sl.levels[i + 1]? with
                | none =>
                  exfalso
                  rw [List.getElem?_eq_none_iff] at h2
                  omega
                | some lvl2 =>
                  have hdt := down_target_le sl hsc i lvl lvl2 h h2 nq hnqmem
                  have hstep : byRankLoopH rank (reprH sl) (fuel + 1) (i, q + 1) rc =
                      byRankLoopH rank (reprH sl) fuel
                        (i + 1, idxOfKey nq.key (match sl.levels[i + 1]? with
                                                  | some l2 => l2.nodes
                                                  | none => []) + 1) rc := by
                    simp only [byRankLoopH, hmem, hcur, hra]
                    simp [hstop, hspan, hbot]
                  rw [hstep]
                  rcases ih (i + 1) _ lvl2 rc h2 hdt with hok | ⟨heq, hm⟩
                  · exact Or.inl hok
                  · refine Or.inr ⟨heq, ?_⟩
                    have hm1 := walkMeasure_eq sl i lvl h (q + 1)
                    have hm2 := walkMeasure_eq sl (i + 1) lvl2 h2
                      (idxOfKey nq.key (match sl.levels[i + 1]? with
                                         | some l2 => l2.nodes
                                         | none => []) + 1)
                    have hm4 := walkMeasure_eq sl (i + 1) lvl2 h2 0
                    have hm3 : walkMeasure sl (i + 1) 0 =
                        ((sl.levels.drop (i + 1)).map (fun l => l.nodes.length + 2)).sum := by
                      simp [walkMeasure]
                    omega
            · cases hnq1 : lvl.nodes[q + 1]? with
              | none =>
                exfalso
                rw [List.getElem?_eq_none_iff] at hnq1
                omega
              | some nq1 =>
                have hra := reprMem_node sl i lvl (q + 1) nq1 h hnq1
                have hq2 : q + 1 + 1 ≤ lvl.nodes.length := by
                  have := (List.getElem?_eq_some_iff.mp hnq1).1
                  omega
                have hstep : byRankLoopH rank (reprH sl) (fuel + 1) (i, q + 1) rc =
                    byRankLoopH rank (reprH sl) fuel (i, q + 1 + 1) (rc + nq.span) := by
                  simp only [byRankLoopH, hmem, hcur, hra]
                  simp [hstop, hspan]
                rw [hstep]
                rcases ih i (q + 1 + 1) lvl (rc + nq.span) h hq2 with hok | ⟨heq, hm⟩
                · exact Or.inl hok
                · refine Or.inr ⟨heq, ?_⟩
                  have hm1 := walkMeasure_eq sl i lvl h (q + 1)
                  have hm2 := walkMeasure_eq sl i lvl h (q + 1 + 1)
                  omega
          · by_cases hbot : i + 1 = sl.levels.length
            · refine Or.inl ⟨i, q + 1, lvl, rc, ?_, h, hp⟩
              simp only [byRankLoopH, hmem, hcur]
              simp [hstop, hspan, hbot]
            · cases h2 : sl.levels[i + 1]? with
              | none =>
                exfalso
                rw [List.getElem?_eq_none_iff] at h2
                omega
              | some lvl2 =>
                have hdt := down_target_le sl hsc i lvl lvl2 h h2 nq hnqmem
                have hstep : byRankLoopH rank (reprH sl) (fuel + 1) (i, q + 1) rc =
                    byRankLoopH rank (reprH sl) fuel
                      (i + 1, idxOfKey nq.key (match sl.levels[i + 1]? with
                                                | some l2 => l2.nodes
                                                | none => []) + 1) rc := by
                  simp only [byRankLoopH, hmem, hcur]
                  simp [hstop, hspan, hbot]
                rw [hstep]
                rcases ih (i + 1) _ lvl2 rc h2 hdt with hok | ⟨heq, hm⟩
                · exact Or.inl hok
                · refine Or.inr ⟨heq, ?_⟩
                  have hm1 := walkMeasure_eq sl i lvl h (q + 1)
                  have hm2 := walkMeasure_eq sl (i + 1) lvl2 h2
                    (idxOfKey nq.key (match sl.levels[i + 1]? with
                                       | some l2 => l2.nodes
                                       | none => []) + 1)
                  have hm4 := walkMeasure_eq sl (i + 1) lvl2 h2 0
                  have hm3 : walkMeasure sl (i + 1) 0 =
                      ((sl.levels.drop (i + 1)).map (fun l => l.nodes.length + 2)).sum := by
                    simp [walkMeasure]
                  omega
    · refine Or.inl ⟨i, p, lvl, rc, ?_, h, hp⟩
      simp only [byRankLoopH]
      simp [hstop]

/-- Helper: every head-or-real heap cell exists, has a `right` pointer to
the next position, and that neighbour's cell exists (the tail terminator
is the only cell with a `null` right pointer). -/
theorem deref2_ok (sl : SkipList) (i p : Nat) (lvl : SLevel)
    (h : sl.levels[i]? = some lvl) (hp : p ≤ lvl.nodes.length) :
    ∃ n rn, reprMem sl (i, p) = some n ∧ n.right = some (i, p + 1) ∧
      reprMem sl (i, p + 1) = some rn := by
  cases p with
  | zero =>
    cases hns : lvl.nodes with
    | nil =>
      have hlen0 : lvl.nodes.length = 0 := by rw [hns]; rfl
      have hra : reprMem sl (i, 1) =
          some { down := if i + 1 = sl.levels.length then none
                         else some (i + 1, tailPos sl (i + 1))
                 right := none, key := none, data := none, span := 0 } := by
        have ht := reprMem_tail_addr sl i lvl h
        rw [hlen0] at ht
        exact ht
      exact ⟨_, _, reprMem_head sl i lvl h, rfl, hra⟩
    | cons n0 tl =>
      have hn0 : lvl.nodes[0]? = some n0 := by rw [hns]; simp
      exact ⟨_, _, reprMem_head sl i lvl h, rfl, reprMem_node sl i lvl 0 n0 h hn0⟩
  | succ q =>
    cases hnq : lvl.nodes[q]? with
    | none =>
      exfalso
      rw [List.getElem?_eq_none_iff] at hnq
      omega
    | some nq =>
      by_cases htail : q + 1 = lvl.nodes.length
      · have hra : reprMem sl (i, q + 1 + 1) =
            some { down := if i + 1 = sl.levels.length then none
                           else some (i + 1, tailPos sl (i + 1))
                   right := none, key := none, data := none, span := 0 } := by
          have ht := reprMem_tail_addr sl i lvl h
          rw [show lvl.nodes.length + 1 = q + 1 + 1 by omega] at ht
          exact ht
        exact ⟨_, _, reprMem_node sl i lvl q nq h hnq, rfl, hra⟩
      · cases hnq1 : lvl.nodes[q + 1]? with
        | none =>
          exfalso
          rw [List.getElem?_eq_none_iff] at hnq1
          omega
        | some nq1 =>
          exact ⟨_, _, reprMem_node sl i lvl q nq h hnq, rfl,
            reprMem_node sl i lvl (q + 1) nq1 h hnq1⟩

/-- Helper: the pointer-level `find` never dereferences null on a
sorted-contiguous state, and succeeds outright with enough fuel. -/
theorem findH_ok (sl : SkipList) (hsc : sortedContig sl.levels) (hne : sl.levels ≠ [])
    (x : Int) (fuel : Nat) :
    (findH (reprH sl) x fuel).1 ≠ HRes.nullDeref ∧
    (walkMeasure sl 0 0 < fuel →
      ∃ v, findH (reprH sl) x fuel = (.ok v, reprH sl)) := by
  obtain ⟨lvl0, h0⟩ : ∃ lvl0, sl.levels[0]? = some lvl0 := by
    cases hlv : sl.levels with
    | nil => exact absurd hlv hne
    | cons a r => exact ⟨a, by simp⟩
  have hmem : (reprH sl).mem = reprMem sl := rfl
  have hhead : (reprH sl).headAddr = (0, 0) := rfl
  rcases findPathBottomH_ok x sl hsc fuel 0 0 lvl0 (-1) h0 (Nat.zero_le _) with
    ⟨i', p', lvl', rank', heq, hg, hple, _⟩ | ⟨heq, hm⟩
  · rcases deref2_ok sl i' p' lvl' hg hple with ⟨n, rn, hn, hnr, hrn⟩
    have hred : findH (reprH sl) x fuel =
        (.ok (if rn.key = some x then rn.data else none), reprH sl) := by
      simp only [findH, hhead, heq, hmem, hn, hnr, hrn]
    rw [hred]
    exact ⟨by simp, fun _ => ⟨_, rfl⟩⟩
  · have hred : findH (reprH sl) x fuel = (.noFuel, reprH sl) := by
      simp only [findH, hhead, heq]
    rw [hred]
    refine ⟨by simp, fun hlt => ?_⟩
    omega

/-- Helper: the pointer-level `findRankOfKey` never dereferences null on a
sorted-contiguous state, and succeeds outright with enough fuel. -/
theorem rankOfH_ok (sl : SkipList) (hsc : sortedContig sl.levels) (hne : sl.levels ≠ [])
    (x : Int) (fuel : Nat) :
    (rankOfH (reprH sl) x fuel).1 ≠ HRes.nullDeref ∧
    (walkMeasure sl 0 0 < fuel →
      ∃ v, rankOfH (reprH sl) x fuel = (.ok v, reprH sl)) := by
  obtain ⟨lvl0, h0⟩ : ∃ lvl0, sl.levels[0]? = some lvl0 := by
    cases hlv : sl.levels with
    | nil => exact absurd hlv hne
    | cons a r => exact ⟨a, by simp⟩
  have hmem : (reprH sl).mem = reprMem sl := rfl
  have hhead : (reprH sl).headAddr = (0, 0) := rfl
  rcases findPathBottomH_ok x sl hsc fuel 0 0 lvl0 (-1) h0 (Nat.zero_le _) with
    ⟨i', p', lvl', rank', heq, hg, hple, _⟩ | ⟨heq, hm⟩
  · rcases deref2_ok sl i' p' lvl' hg hple with ⟨n, rn, hn, hnr, hrn⟩
    have hred : rankOfH (reprH sl) x fuel =
        (.ok (if rn.key = some x then some (rank' + 1) else none), reprH sl) := by
      simp only [rankOfH, hhead, heq, hmem, hn, hnr, hrn]
    rw [hred]
    exact ⟨by simp, fun _ => ⟨_, rfl⟩⟩
  · have hred : rankOfH (reprH sl) x fuel = (.noFuel, reprH sl) := by
      simp only [rankOfH, hhead, heq]
    rw [hred]
    refine ⟨by simp, fun hlt => ?_⟩
    omega

/-- Helper: the pointer-level `findByRank` never dereferences null on a
sorted-contiguous state, and succeeds outright with enough fuel. -/
theorem byRankH_ok (sl : SkipList) (hsc : sortedContig sl.levels) (hne : sl.levels ≠ [])
    (r : Int) (fuel : Nat) :
    (byRankH (reprH sl) r fuel).1 ≠ HRes.nullDeref ∧
    (walkMeasure sl 0 0 < fuel →
      ∃ v, byRankH (reprH sl) r fuel = (.ok v, reprH sl)) := by
  obtain ⟨lvl0, h0⟩ : ∃ lvl0, sl.levels[0]? = some lvl0 := by
    cases hlv : sl.levels with
    | nil => exact absurd hlv hne
    | cons a r2 => exact ⟨a, by simp⟩
  have hmem : (reprH sl).mem = reprMem sl := rfl
  have hhead : (reprH sl).headAddr = (0, 0) := rfl
  rcases byRankLoopH_ok r sl hsc fuel 0 0 lvl0 (-1) h0 (Nat.zero_le _) with
    ⟨i', p', lvl', rc', heq, hg, hple⟩ | ⟨heq, hm⟩
  · rcases deref2_ok sl i' p' lvl' hg hple with ⟨n, rn, hn, hnr, hrn⟩
    have hred : byRankH (reprH sl) r fuel =
        (.ok (if rn.key ≠ none then rn.data else none), reprH sl) := by
      simp only [byRankH, hhead, heq, hmem, hn, hnr, hrn]
    rw [hred]
    exact ⟨by simp, fun _ => ⟨_, rfl⟩⟩
  · have hred : byRankH (reprH sl) r fuel = (.noFuel, reprH sl) := by
      simp only [byRankH, hhead, heq]
    rw [hred]
    refine ⟨by simp, fun hlt => ?_⟩
    omega

/-- Helper: a successful lookup means the key is stored. -/
theorem lookupKV_mem (x : Int) (M : List (Int × Int)) (d : Int)
    (h : lookupKV x M = some d) : x ∈ keysKV M := by
  by_contra hx
  have hne : ∀ p ∈ M, p.1 ≠ x := by
    intro p hp he
    exact hx (he ▸ List.mem_map.mpr ⟨p, hp, rfl⟩)
  rw [lookupKV_none x M hne] at h
  cases h

/-- Helper: looking up the key just inserted yields the new payload. -/
theorem lookupKV_insKV_self (x d : Int) :
    ∀ M : List (Int × Int), lookupKV x (insKV x d M) = some d := by
  intro M
  induction M with
  | nil => simp [insKV, lookupKV]
  | cons p tl ih =>
    rcases p with ⟨a, b⟩
    by_cases h1 : x < a
    · simp [insKV, h1, lookupKV]
    · by_cases h2 : x = a
      · simp [insKV, h1, h2, lookupKV]
      · simpa [insKV, h1, h2, lookupKV] using ih

/-- Helper: membership in the keys after a deletion of a present key. -/
theorem mem_keys_delKV (x : Int) :
    ∀ M : List (Int × Int), M.Pairwise (fun a b => a.1 < b.1) → x ∈ keysKV M →
      ∀ y : Int, (y ∈ keysKV (delKV x M) ↔ y ∈ keysKV M ∧ y ≠ x) := by
  intro M
  induction M with
  | nil => intro _ h; simp [keysKV] at h
  | cons p tl ih =>
    intro hM hx y
    rcases p with ⟨a, b⟩
    rcases List.pairwise_cons.mp hM with ⟨ha, htl⟩
    by_cases hxa : x = a
    · subst hxa
      rw [show delKV x ((x, b) :: tl) = tl by simp [delKV]]
      constructor
      · intro hy
        have hyx : y ≠ x := by
          rcases List.mem_map.mp hy with ⟨q, hq, hqk⟩
          have := ha q hq
          intro he
          rw [he] at hqk
          omega
        exact ⟨List.mem_cons.mpr (Or.inr hy), hyx⟩
      · rintro ⟨hy, hne⟩
        rcases List.mem_cons.mp hy with he | hy2
        · exact absurd he hne
        · exact hy2
    · have hx2 : x ∈ keysKV tl := by
        rcases List.mem_cons.mp hx with he | h2
        · exact absurd (by simpa using he) hxa
        · exact h2
      rw [show delKV x ((a, b) :: tl) = (a, b) :: delKV x tl by simp [delKV, hxa]]
      have hih := ih htl hx2 y
      constructor
      · intro hy
        rcases List.mem_cons.mp hy with he | hy2
        · refine ⟨List.mem_cons.mpr (Or.inl he), ?_⟩
          intro hc
          rw [hc] at he
          exact hxa (by simpa using he)
        · rcases hih.mp hy2 with ⟨hm, hne⟩
          exact ⟨List.mem_cons.mpr (Or.inr hm), hne⟩
      · rintro ⟨hy, hne⟩
        rcases List.mem_cons.mp hy with he | hy2
        · exact List.mem_cons.mpr (Or.inl he)
        · exact List.mem_cons.mpr (Or.inr (hih.mpr ⟨hy2, hne⟩))

/-- Helper: the strict span law sums to the full length. -/
theorem spanLaw_sum_true (B : List Int) :
    ∀ (ns : List SLNode) (cur curSpan : Int),
      spanLaw B true cur curSpan ns →
      curSpan + (ns.map (·.span)).sum = (B.length : Int) - cur := by
  intro ns
  induction ns with
  | nil =>
    intro cur curSpan h
    have h1 : curSpan = (B.length : Int) - cur := by simpa [spanLaw] using h
    simpa using h1
  | cons n tl ih =>
    intro cur curSpan h
    rcases h with ⟨h1, h2⟩
    have h3 := ih (posIn B n.key) n.span h2
    simp only [List.map_cons, List.sum_cons]
    omega

/-- Helper: the slack span law sums to at least the full length. -/
theorem spanLaw_sum_false (B : List Int) :
    ∀ (ns : List SLNode) (cur curSpan : Int),
      spanLaw B false cur curSpan ns →
      (B.length : Int) - cur ≤ curSpan + (ns.map (·.span)).sum := by
  intro ns
  induction ns with
  | nil =>
    intro cur curSpan h
    have h1 : (B.length : Int) - cur ≤ curSpan := by simpa [spanLaw] using h
    simpa using h1
  | cons n tl ih =>
    intro cur curSpan h
    rcases h with ⟨h1, h2⟩
    have h3 := ih (posIn B n.key) n.span h2
    simp only [List.map_cons, List.sum_cons]
    omega

/-- Helper: the strict span law implies the slack one. -/
theorem spanLaw_weaken (B : List Int) :
    ∀ (ns : List SLNode) (cur curSpan : Int),
      spanLaw B true cur curSpan ns → spanLaw B false cur curSpan ns := by
  intro ns
  induction ns with
  | nil =>
    intro cur curSpan h
    have h1 : curSpan = (B.length : Int) - cur := by simpa [spanLaw] using h
    show (B.length : Int) - cur ≤ curSpan
    omega
  | cons n tl ih =>
    intro cur curSpan h
    rcases h with ⟨h1, h2⟩
    exact ⟨h1, ih (posIn B n.key) n.span h2⟩

/-- Helper: every level of a law-abiding stack satisfies the slack law. -/
theorem spanOK_mem (B : List Int) :
    ∀ lvls, spanOK B lvls →
      ∀ lvl ∈ lvls, spanLaw B false (-1) lvl.headSpan lvl.nodes := by
  intro lvls
  induction lvls with
  | nil => intro _ lvl hl; simp at hl
  | cons lvl lower ih =>
    intro hsp l hl
    cases lower with
    | nil =>
      rcases List.mem_cons.mp hl with rfl | h2
      · exact spanLaw_weaken B l.nodes (-1) l.headSpan (by simpa [spanOK] using hsp)
      · simp at h2
    | cons lvl2 rest =>
      rcases (by simpa [spanOK] using hsp :
          spanLaw B false (-1) lvl.headSpan lvl.nodes ∧ spanOK B (lvl2 :: rest))
        with ⟨h1, h2⟩
      rcases List.mem_cons.mp hl with rfl | hmem
      · exact h1
      · exact ih h2 l hmem

/-- Helper: the bottom level of a law-abiding stack satisfies the strict
law. -/
theorem spanOK_getLast (B : List Int) :
    ∀ lvls, lvls ≠ [] → spanOK B lvls →
      ∃ bl, lvls.getLast? = some bl ∧ spanLaw B true (-1) bl.headSpan bl.nodes := by
  intro lvls
  induction lvls with
  | nil => intro h; exact absurd rfl h
  | cons lvl lower ih =>
    intro _ hsp
    cases lower with
    | nil =>
      exact ⟨lvl, rfl, by simpa [spanOK] using hsp⟩
    | cons lvl2 rest =>
      rcases (by simpa [spanOK] using hsp :
          spanLaw B false (-1) lvl.headSpan lvl.nodes ∧ spanOK B (lvl2 :: rest))
        with ⟨_, h2⟩
      rcases ih (by simp) h2 with ⟨bl, hlast, hlaw⟩
      exact ⟨bl, by rw [List.getLast?_cons_cons]; exact hlast, hlaw⟩

/-- Helper: unfolding `_addLevelsAccordingToNewLevelsCount` as a block of
fresh empty levels. -/
theorem addLevels_shape (sl : SkipList) (k : Nat) :
    (sl.addLevels k).itemsCount = sl.itemsCount ∧
    ∃ m, (sl.addLevels k).levels =
      List.replicate m (SLevel.mk (sl.itemsCount + 1) []) ++ sl.levels := by
  rw [SkipList.addLevels]
  by_cases hk : k ≤ sl.levels.length
  · rw [if_pos hk]
    exact ⟨rfl, 0, by simp⟩
  · rw [if_neg hk]
    exact ⟨rfl, k - sl.levels.length, rfl⟩

/-- Helper: `mapLast` is invisible to any per-level view the rewrite
preserves. -/
theorem mapLast_map_eq {β : Type} (f : SLevel → SLevel) (g : SLevel → β)
    (hg : ∀ lvl, g (f lvl) = g lvl) :
    ∀ lvls, (mapLast f lvls).map g = lvls.map g := by
  intro lvls
  induction lvls with
  | nil => rfl
  | cons lvl lower ih =>
    cases lower with
    | nil =>
      show [g (f lvl)] = [g lvl]
      rw [hg lvl]
    | cons lvl2 rest =>
      show g lvl :: (mapLast f (lvl2 :: rest)).map g = g lvl :: (lvl2 :: rest).map g
      rw [ih]

/-- C1 (amended): on every state reached by insertions of positive drawn
height and deletions of then-present keys, `find` returns every currently
stored key's payload, and `findByRank` applied to `findRankOfKey`'s
answer returns the same payload as `find`.  (The original claim over all
operation sequences fails: deleting an absent key drifts the spans.) -/
theorem c1_roundtrip (ops : List Op) (hv : ValidFrom [] ops) (k p : Int)
    (hkp : lookupKV k (modelOf ops) = some p) :
    (runOps ops).find k = some p ∧
    ∃ r, (runOps ops).findRankOfKey k = some r ∧
      (runOps ops).findByRank r = (runOps ops).find k := by
  rcases runOps_WFm ops hv with ⟨hM, hW⟩
  have hfind : (runOps ops).find k = some p := by
    rw [find_eq_lookup (runOps ops) (modelOf ops) hW.1 k]
    exact hkp
  have hmem : k ∈ keysKV (modelOf ops) := lookupKV_mem k (modelOf ops) p hkp
  refine ⟨hfind, posIn (keysKV (modelOf ops)) k, ?_, ?_⟩
  · rw [rankOf_eq (runOps ops) (modelOf ops) hW k, if_pos hmem]
  · have h0 : (0 : Int) ≤ posIn (keysKV (modelOf ops)) k := by
      rw [posIn]
      exact Int.natCast_nonneg _
    rw [byRank_eq (runOps ops) (modelOf ops) hW _ h0, hfind]
    rcases lookup_found_KV k (modelOf ops) hM hmem with ⟨d, hget, hlk⟩
    have hdp : d = p := by
      rw [hlk] at hkp
      exact Option.some.inj hkp
    have hpos : posIn (keysKV (modelOf ops)) k =
        (((modelOf ops).countP (fun q => decide (q.1 < k)) : Nat) : Int) := by
      rw [posIn, keysKV, List.countP_map]
      rfl
    rw [hpos]
    have htn : (((((modelOf ops).countP (fun q => decide (q.1 < k)) : Nat)) : Int)).toNat =
        (modelOf ops).countP (fun q => decide (q.1 < k)) := by omega
    rw [htn, hget, hdp]
    rfl

theorem c1_roundtrip_witness :
    (runOps [Op.ins 1 10 1]).find 1 = some 10 ∧
    ∃ r, (runOps [Op.ins 1 10 1]).findRankOfKey 1 = some r ∧
      (runOps [Op.ins 1 10 1]).findByRank r = (runOps [Op.ins 1 10 1]).find 1 :=
  c1_roundtrip [Op.ins 1 10 1] ⟨by decide, trivial⟩ 1 10 (by decide)

/-- C2: on every state reached by insertions of positive drawn height and
deletions of then-present keys, `findRankOfKey` of the `i`-th smallest
surviving key reports exactly `i`, counting from `0`. -/
theorem c2_order (ops : List Op) (hv : ValidFrom [] ops) (i : Nat) (k : Int)
    (hk : (keysKV (modelOf ops))[i]? = some k) :
    (runOps ops).findRankOfKey k = some (i : Int) := by
  rcases runOps_WFm ops hv with ⟨hM, hW⟩
  have hmem : k ∈ keysKV (modelOf ops) := by
    rcases List.getElem?_eq_some_iff.mp hk with ⟨hlt, hval⟩
    exact hval ▸ List.getElem_mem hlt
  rw [rankOf_eq (runOps ops) (modelOf ops) hW k, if_pos hmem]
  rcases SWFlevels_getLast (modelOf ops) (runOps ops).levels hW.1.2 with ⟨bl, hlast, hkd⟩
  have hkeys := keysOf_of_levelKD bl.nodes (modelOf ops) hkd
  have hsort := nodesSorted_of_levelKD bl.nodes (modelOf ops) hM hkd
  rw [← hkeys] at hk
  rw [keysOf, List.getElem?_map] at hk
  cases hget : bl.nodes[i]? with
  | none =>
    rw [hget] at hk
    cases hk
  | some n =>
    rw [hget] at hk
    simp only [Option.map_some', Option.some.injEq] at hk
    have hpi := posIn_getElem bl.nodes hsort i n hget
    rw [hk] at hpi
    rw [← hkeys, hpi]

theorem c2_order_witness :
    (runOps [Op.ins 2 20 1, Op.ins 1 10 1]).findRankOfKey 2 = some ((1 : Nat) : Int) :=
  c2_order [Op.ins 2 20 1, Op.ins 1 10 1] ⟨by decide, by decide, trivial⟩ 1 2 (by decide)

/-- C4 (amended): on every drift-free reachable state, deleting a stored
key `x` decreases by exactly `1` the reported rank of every stored key
greater than `x`, leaves the reported rank of every stored key smaller
than `x` unchanged, and afterwards `find x` reports not-found.  (The
original claim over every index state fails on span-drifted states.) -/
theorem c4_delete_ranks (ops : List Op) (hv : ValidFrom [] ops) (x : Int)
    (hx : x ∈ keysKV (modelOf ops)) :
    (∀ y ∈ keysKV (modelOf ops), x < y →
        ∃ r, (runOps ops).findRankOfKey y = some r ∧
          ((runOps ops).delete x).findRankOfKey y = some (r - 1)) ∧
    (∀ y ∈ keysKV (modelOf ops), y < x →
        ((runOps ops).delete x).findRankOfKey y = (runOps ops).findRankOfKey y) ∧
    ((runOps ops).delete x).find x = none := by
  rcases runOps_WFm ops hv with ⟨hM, hW⟩
  have hW' : WFm ((runOps ops).delete x) (delKV x (modelOf ops)) :=
    delete_WFm_present (runOps ops) (modelOf ops) hW x hx
  refine ⟨?_, ?_, ?_⟩
  · intro y hy hxy
    have hyne : y ≠ x := by omega
    have hymem' : y ∈ keysKV (delKV x (modelOf ops)) :=
      (mem_keys_delKV x (modelOf ops) hM hx y).mpr ⟨hy, hyne⟩
    refine ⟨posIn (keysKV (modelOf ops)) y, ?_, ?_⟩
    · rw [rankOf_eq _ _ hW y, if_pos hy]
    · rw [rankOf_eq _ _ hW' y, if_pos hymem',
        posIn_delKV x (modelOf ops) hM hx y, if_pos hxy]
  · intro y hy hyx
    have hyne : y ≠ x := by omega
    have hymem' : y ∈ keysKV (delKV x (modelOf ops)) :=
      (mem_keys_delKV x (modelOf ops) hM hx y).mpr ⟨hy, hyne⟩
    rw [rankOf_eq _ _ hW' y, rankOf_eq _ _ hW y, if_pos hymem', if_pos hy,
      posIn_delKV x (modelOf ops) hM hx y, if_neg (by omega : ¬ x < y)]
    rw [sub_zero]
  · rw [find_eq_lookup _ _ hW'.1 x]
    refine lookupKV_none x _ ?_
    intro p hp he
    have hpm : p.1 ∈ keysKV (delKV x (modelOf ops)) := List.mem_map.mpr ⟨p, hp, rfl⟩
    rw [he] at hpm
    exact ((mem_keys_delKV x (modelOf ops) hM hx x).mp hpm).2 rfl

theorem c4_delete_ranks_witness :
    (∀ y ∈ keysKV (modelOf [Op.ins 1 10 1, Op.ins 2 20 1]), 1 < y →
        ∃ r, (runOps [Op.ins 1 10 1, Op.ins 2 20 1]).findRankOfKey y = some r ∧
          ((runOps [Op.ins 1 10 1, Op.ins 2 20 1]).delete 1).findRankOfKey y =
            some (r - 1)) ∧
    (∀ y ∈ keysKV (modelOf [Op.ins 1 10 1, Op.ins 2 20 1]), y < 1 →
        ((runOps [Op.ins 1 10 1, Op.ins 2 20 1]).delete 1).findRankOfKey y =
          (runOps [Op.ins 1 10 1, Op.ins 2 20 1]).findRankOfKey y) ∧
    ((runOps [Op.ins 1 10 1, Op.ins 2 20 1]).delete 1).find 1 = none :=
  c4_delete_ranks [Op.ins 1 10 1, Op.ins 2 20 1] ⟨by decide, by decide, trivial⟩ 1
    (by decide)

/-- C7: on every reachable state (insertions of positive drawn height,
deletions unrestricted), deleting a key that is not present leaves the
element count unchanged and decrements by `1` the span of the
approach-point node at every level, unlinking nothing. -/
theorem c7_absent_delete (ops : List Op) (hv : HValid ops) (x : Int)
    (hx : x ∉ keysKV (modelOf ops)) :
    ((runOps ops).delete x).itemsCount = (runOps ops).itemsCount ∧
    ((runOps ops).delete x).levels =
      (runOps ops).levels.map (fun lvl => bumpSpanAt lvl (countLt x lvl.nodes) (-1)) := by
  rcases runOps_SWF ops hv with ⟨hM, hsw⟩
  rcases delete_absent_levels (runOps ops) (modelOf ops) hM hsw x hx with ⟨h1, h2⟩
  exact ⟨h2, h1⟩

theorem c7_absent_delete_witness :
    ((runOps [Op.ins 1 10 1]).delete 0).itemsCount = (runOps [Op.ins 1 10 1]).itemsCount ∧
    ((runOps [Op.ins 1 10 1]).delete 0).levels =
      (runOps [Op.ins 1 10 1]).levels.map
        (fun lvl => bumpSpanAt lvl (countLt 0 lvl.nodes) (-1)) :=
  c7_absent_delete [Op.ins 1 10 1] ⟨by decide, trivial⟩ 0 (by decide)

/-- C8 (amended): on every drift-free reachable state, every level
satisfies the span law against the stored keys — each edge's span counts
exactly the stored keys it skips, so spans at higher levels aggregate
lower levels consistently — and hence every level's full left-to-right
span sum is at least the element count plus one, with exact equality at
the bottom level.  (The original claim — sums equal to the element count
at every level — fails already after one insertion, and upper levels can
carry extra tail slack.) -/
theorem c8_span_invariant (ops : List Op) (hv : ValidFrom [] ops) :
    (∀ lvl ∈ (runOps ops).levels,
        spanLaw (keysKV (modelOf ops)) false (-1) lvl.headSpan lvl.nodes ∧
        ((modelOf ops).length : Int) + 1 ≤ levelTotal lvl) ∧
    ∃ bl, (runOps ops).levels.getLast? = some bl ∧
        spanLaw (keysKV (modelOf ops)) true (-1) bl.headSpan bl.nodes ∧
        levelTotal bl = ((modelOf ops).length : Int) + 1 := by
  rcases runOps_WFm ops hv with ⟨hM, hW⟩
  rcases hW with ⟨⟨hMs, hsw⟩, hsp, _⟩
  have hkl : ((keysKV (modelOf ops)).length : Int) = ((modelOf ops).length : Int) := by
    simp [keysKV]
  have hne : (runOps ops).levels ≠ [] := by
    intro hcon
    rw [hcon] at hsw
    cases hsw
  refine ⟨?_, ?_⟩
  · intro lvl hl
    have h1 := spanOK_mem (keysKV (modelOf ops)) (runOps ops).levels hsp lvl hl
    refine ⟨h1, ?_⟩
    have h2 := spanLaw_sum_false (keysKV (modelOf ops)) lvl.nodes (-1) lvl.headSpan h1
    rw [levelTotal]
    omega
  · rcases spanOK_getLast (keysKV (modelOf ops)) (runOps ops).levels hne hsp with
      ⟨bl, hlast, hlaw⟩
    have h2 := spanLaw_sum_true (keysKV (modelOf ops)) bl.nodes (-1) bl.headSpan hlaw
    refine ⟨bl, hlast, hlaw, ?_⟩
    rw [levelTotal]
    omega

theorem c8_span_invariant_witness :
    (∀ lvl ∈ (runOps [Op.ins 1 10 1]).levels,
        spanLaw (keysKV (modelOf [Op.ins 1 10 1])) false (-1) lvl.headSpan lvl.nodes ∧
        ((modelOf [Op.ins 1 10 1]).length : Int) + 1 ≤ levelTotal lvl) ∧
    ∃ bl, (runOps [Op.ins 1 10 1]).levels.getLast? = some bl ∧
        spanLaw (keysKV (modelOf [Op.ins 1 10 1])) true (-1) bl.headSpan bl.nodes ∧
        levelTotal bl = ((modelOf [Op.ins 1 10 1]).length : Int) + 1 :=
  c8_span_invariant [Op.ins 1 10 1] ⟨by decide, trivial⟩

/-- Helper: the approach index of a key depends only on keys. -/
theorem idxOfKey_congr (k : Int) :
    ∀ (ns ns' : List SLNode),
      ns.map (fun n => (n.key, n.span)) = ns'.map (fun n => (n.key, n.span)) →
      idxOfKey k ns = idxOfKey k ns' := by
  intro ns
  induction ns with
  | nil =>
    intro ns' h
    cases ns' with
    | nil => rfl
    | cons a t => simp at h
  | cons n tl ih =>
    intro ns' h
    cases ns' with
    | nil => simp at h
    | cons n' tl' =>
      simp only [List.map_cons, List.cons.injEq, Prod.mk.injEq] at h
      obtain ⟨⟨hk, _⟩, htl⟩ := h
      show (if n.key = k then 0 else idxOfKey k tl + 1) =
        (if n'.key = k then 0 else idxOfKey k tl' + 1)
      rw [hk, ih tl' htl]

/-- Helper: the rightward walk of the descent depends only on keys and
spans. -/
theorem walkRight_congr (x : Int) :
    ∀ (ns ns' : List SLNode),
      ns.map (fun n => (n.key, n.span)) = ns'.map (fun n => (n.key, n.span)) →
      ∀ (cs : Int) (pos : Nat) (rank : Int),
        walkRight x ns cs pos rank = walkRight x ns' cs pos rank := by
  intro ns
  induction ns with
  | nil =>
    intro ns' h cs pos rank
    cases ns' with
    | nil => rfl
    | cons a t => simp at h
  | cons n tl ih =>
    intro ns' h cs pos rank
    cases ns' with
    | nil => simp at h
    | cons n' tl' =>
      simp only [List.map_cons, List.cons.injEq, Prod.mk.injEq] at h
      obtain ⟨⟨hk, hs⟩, htl⟩ := h
      show (if n.key < x then walkRight x tl n.span (pos + 1) (rank + cs) else (pos, rank)) =
        (if n'.key < x then walkRight x tl' n'.span (pos + 1) (rank + cs) else (pos, rank))
      rw [hk, ← hs]
      by_cases hlt : n'.key < x
      · rw [if_pos hlt, if_pos hlt, ih tl' htl]
      · rw [if_neg hlt, if_neg hlt]

/-- Helper: the key at a position depends only on keys. -/
theorem keyAt_congr (lvl lvl' : SLevel)
    (h : lvl.nodes.map (fun n => (n.key, n.span)) =
      lvl'.nodes.map (fun n => (n.key, n.span))) (p : Nat) :
    keyAt lvl p = keyAt lvl' p := by
  rw [keyAt, keyAt]
  by_cases hp : p = 0
  · simp [hp]
  · simp only [if_neg hp]
    have h1 : (lvl.nodes[p - 1]?).map (fun n => (n.key, n.span)) =
        (lvl'.nodes[p - 1]?).map (fun n => (n.key, n.span)) := by
      rw [← List.getElem?_map, ← List.getElem?_map, h]
    cases ha : lvl.nodes[p - 1]? with
    | none =>
      rw [ha] at h1
      cases hb : lvl'.nodes[p - 1]? with
      | none => rfl
      | some m => rw [hb] at h1; simp at h1
    | some n =>
      rw [ha] at h1
      cases hb : lvl'.nodes[p - 1]? with
      | none => rw [hb] at h1; simp at h1
      | some m =>
        rw [hb] at h1
        simp only [Option.map_some', Option.some.injEq, Prod.mk.injEq] at h1
        simp [h1.1]

/-- Helper: the span at a position depends only on the head span and the
nodes' keys and spans. -/
theorem spanAt_congr (lvl lvl' : SLevel) (hh : lvl.headSpan = lvl'.headSpan)
    (h : lvl.nodes.map (fun n => (n.key, n.span)) =
      lvl'.nodes.map (fun n => (n.key, n.span))) (p : Nat) :
    spanAt lvl p = spanAt lvl' p := by
  rw [spanAt, spanAt]
  by_cases hp : p = 0
  · simp [hp, hh]
  · simp only [if_neg hp]
    have h1 : (lvl.nodes[p - 1]?).map (fun n => (n.key, n.span)) =
        (lvl'.nodes[p - 1]?).map (fun n => (n.key, n.span)) := by
      rw [← List.getElem?_map, ← List.getElem?_map, h]
    cases ha : lvl.nodes[p - 1]? with
    | none =>
      rw [ha] at h1
      cases hb : lvl'.nodes[p - 1]? with
      | none => rfl
      | some m => rw [hb] at h1; simp at h1
    | some n =>
      rw [ha] at h1
      cases hb : lvl'.nodes[p - 1]? with
      | none => rw [hb] at h1; simp at h1
      | some m =>
        rw [hb] at h1
        simp only [Option.map_some', Option.some.injEq, Prod.mk.injEq] at h1
        exact h1.2

/-- Helper: the whole descent depends only on head spans, keys and node
spans, never on payloads. -/
theorem findInsertPath_congr (x : Int) :
    ∀ (L L' : List SLevel),
      L.map (fun lvl => (lvl.headSpan, lvl.nodes.map (fun n => (n.key, n.span)))) =
        L'.map (fun lvl => (lvl.headSpan, lvl.nodes.map (fun n => (n.key, n.span)))) →
      ∀ (sk : Option Int) (r : Int),
        findInsertPath x L sk r = findInsertPath x L' sk r := by
  intro L
  induction L with
  | nil =>
    intro L' h sk r
    cases L' with
    | nil => rfl
    | cons a t => simp at h
  | cons lvl rest ih =>
    intro L' h sk r
    cases L' with
    | nil => simp at h
    | cons lvl' rest' =>
      simp only [List.map_cons, List.cons.injEq, Prod.mk.injEq] at h
      obtain ⟨⟨hh, hk⟩, hrest⟩ := h
      have hp0 : startPos sk lvl.nodes = startPos sk lvl'.nodes := by
        cases sk with
        | none => rfl
        | some a =>
          show idxOfKey a lvl.nodes + 1 = idxOfKey a lvl'.nodes + 1
          rw [idxOfKey_congr a lvl.nodes lvl'.nodes hk]
      have hdrop : (lvl.nodes.drop (startPos sk lvl.nodes)).map (fun n => (n.key, n.span)) =
          (lvl'.nodes.drop (startPos sk lvl'.nodes)).map (fun n => (n.key, n.span)) := by
        rw [List.map_drop, List.map_drop, hk, hp0]
      have hwalk : walkRight x (lvl.nodes.drop (startPos sk lvl.nodes))
            (spanAt lvl (startPos sk lvl.nodes)) (startPos sk lvl.nodes) r =
          walkRight x (lvl'.nodes.drop (startPos sk lvl'.nodes))
            (spanAt lvl' (startPos sk lvl'.nodes)) (startPos sk lvl'.nodes) r := by
        rw [walkRight_congr x _ _ hdrop, hp0, spanAt_congr lvl lvl' hh hk]
      rw [findInsertPath_cons, findInsertPath_cons, hwalk,
        keyAt_congr lvl lvl' hk, ih rest' hrest]

/-- Helper: `findRankOfKey` depends only on head spans, keys and node
spans, never on payloads or counters. -/
theorem rankOf_congr (sl sl' : SkipList)
    (h : sl.levels.map (fun lvl => (lvl.headSpan, lvl.nodes.map (fun n => (n.key, n.span)))) =
      sl'.levels.map (fun lvl => (lvl.headSpan, lvl.nodes.map (fun n => (n.key, n.span)))))
    (y : Int) :
    sl.findRankOfKey y = sl'.findRankOfKey y := by
  have hpath := findInsertPath_congr y sl.levels sl'.levels h none (-1)
  have hlast : (sl.levels.getLast?).map
        (fun lvl => (lvl.headSpan, lvl.nodes.map (fun n => (n.key, n.span)))) =
      (sl'.levels.getLast?).map
        (fun lvl => (lvl.headSpan, lvl.nodes.map (fun n => (n.key, n.span)))) := by
    rw [← List.getLast?_map, ← List.getLast?_map, h]
  rw [SkipList.findRankOfKey, SkipList.findRankOfKey, hpath]
  cases ha : sl.levels.getLast? with
  | none =>
    rw [ha] at hlast
    cases hb : sl'.levels.getLast? with
    | none => rfl
    | some bl' => rw [hb] at hlast; simp at hlast
  | some bl =>
    rw [ha] at hlast
    cases hb : sl'.levels.getLast? with
    | none => rw [hb] at hlast; simp at hlast
    | some bl' =>
      rw [hb] at hlast
      simp only [Option.map_some', Option.some.injEq, Prod.mk.injEq] at hlast
      cases hpr : (findInsertPath y sl'.levels none (-1)).getLast? with
      | none => rfl
      | some pr =>
        show (match bl.nodes[pr.1]? with
              | some n => if n.key = y then some (pr.2 + 1) else none
              | none => none) =
          (match bl'.nodes[pr.1]? with
           | some n => if n.key = y then some (pr.2 + 1) else none
           | none => none)
        have h1 : (bl.nodes[pr.1]?).map (fun n => (n.key, n.span)) =
            (bl'.nodes[pr.1]?).map (fun n => (n.key, n.span)) := by
          rw [← List.getElem?_map, ← List.getElem?_map, hlast.2]
        cases hc : bl.nodes[pr.1]? with
        | none =>
          rw [hc] at h1
          cases hd : bl'.nodes[pr.1]? with
          | none => rfl
          | some m => rw [hd] at h1; simp at h1
        | some n =>
          rw [hc] at h1
          cases hd : bl'.nodes[pr.1]? with
          | none => rw [hd] at h1; simp at h1
          | some m =>
            rw [hd] at h1
            simp only [Option.map_some', Option.some.injEq, Prod.mk.injEq] at h1
            show (if n.key = y then some (pr.2 + 1) else none) =
              (if m.key = y then some (pr.2 + 1) else none)
            rw [h1.1]

/-- Helper: the descent passes straight through a fresh empty level. -/
theorem findInsertPath_empty_cons (x : Int) (c : Int) (L : List SLevel) (r : Int) :
    findInsertPath x (SLevel.mk c [] :: L) none r = (0, r) :: findInsertPath x L none r :=
  rfl

/-- Helper: a fresh empty level on top is invisible to `findRankOfKey`. -/
theorem rankOf_prepend_empty (c ic cnt : Int) (L : List SLevel) (hL : L ≠ []) (y : Int) :
    SkipList.findRankOfKey ⟨SLevel.mk c [] :: L, ic⟩ y =
      SkipList.findRankOfKey ⟨L, cnt⟩ y := by
  cases L with
  | nil => exact absurd rfl hL
  | cons l ls =>
    rw [SkipList.findRankOfKey, SkipList.findRankOfKey]
    show (match (SLevel.mk c [] :: l :: ls).getLast?,
        (findInsertPath y (SLevel.mk c [] :: l :: ls) none (-1)).getLast? with
      | some lvl, some pr =>
        (match lvl.nodes[pr.1]? with
         | some n => if n.key = y then some (pr.2 + 1) else none
         | none => none)
      | _, _ => none) = _
    rw [List.getLast?_cons_cons, findInsertPath_empty_cons, findInsertPath_cons,
      List.getLast?_cons_cons]

/-- Helper: a block of fresh empty levels on top is invisible to
`findRankOfKey`. -/
theorem rankOf_replicate_prepend (m : Nat) (c : Int) (ic cnt : Int) (L : List SLevel)
    (hL : L ≠ []) (y : Int) :
    SkipList.findRankOfKey ⟨List.replicate m (SLevel.mk c []) ++ L, ic⟩ y =
      SkipList.findRankOfKey ⟨L, cnt⟩ y := by
  induction m with
  | zero => rfl
  | succ k ihm =>
    rw [List.replicate_succ, List.cons_append]
    have hne : List.replicate k (SLevel.mk c []) ++ L ≠ [] := by
      intro hcon
      rcases List.append_eq_nil.mp hcon with ⟨_, h2⟩
      exact hL h2
    rw [rankOf_prepend_empty c ic ic _ hne y]
    exact ihm

/-- C3 (amended): on every reachable state (span drift included),
inserting an already-present key overwrites its payload in place, leaves
the element count and every key's reported rank unchanged, and — apart
from possibly prepending fresh empty levels drawn by `_randomLevel`
before the replace test runs, which the original claim's "no structural
change" rules out — every level keeps exactly its head span, keys and
node spans. -/
theorem c3_replace (ops : List Op) (hv : HValid ops) (x d : Int) (hgt : Nat)
    (hx : x ∈ keysKV (modelOf ops)) :
    ((runOps ops).insert x d hgt).find x = some d ∧
    ((runOps ops).insert x d hgt).itemsCount = (runOps ops).itemsCount ∧
    (∀ y, ((runOps ops).insert x d hgt).findRankOfKey y =
        (runOps ops).findRankOfKey y) ∧
    ∃ m, ((runOps ops).insert x d hgt).levels.map
          (fun lvl => (lvl.headSpan, lvl.nodes.map (fun n => (n.key, n.span)))) =
        List.replicate m ((runOps ops).itemsCount + 1, ([] : List (Int × Int))) ++
          (runOps ops).levels.map
            (fun lvl => (lvl.headSpan, lvl.nodes.map (fun n => (n.key, n.span)))) := by
  rcases runOps_SWF ops hv with ⟨hM, hsw⟩
  have hsw1 : SWFlevels (modelOf ops) ((runOps ops).addLevels hgt).levels :=
    addLevels_SWFlevels (runOps ops) (modelOf ops) hsw hgt
  have hsc := SWFlevels_sortedContig (modelOf ops) hM _ hsw1
  have hfst := findInsertPath_fst x ((runOps ops).addLevels hgt).levels none (-1) hsc
    (skOK_none x _)
  rcases SWFlevels_getLast (modelOf ops) _ hsw1 with ⟨bl, hlast, hkd⟩
  have h1 : ((findInsertPath x ((runOps ops).addLevels hgt).levels none (-1)).map
      Prod.fst).getLast? = some (countLt x bl.nodes) := by
    rw [hfst, List.getLast?_map, hlast]
    rfl
  rw [List.getLast?_map] at h1
  cases hpl : (findInsertPath x ((runOps ops).addLevels hgt).levels none (-1)).getLast? with
  | none =>
    rw [hpl] at h1
    simp at h1
  | some bpr =>
    rw [hpl] at h1
    simp only [Option.map_some', Option.some.injEq] at h1
    have hbrk : bottomRightKey ((runOps ops).addLevels hgt).levels
        (findInsertPath x ((runOps ops).addLevels hgt).levels none (-1)) = some x :=
      (bottomRightKey_spec_fst (modelOf ops) hM _ hsw1 x _ hfst).mpr hx
    have heqr := insert_eq_replace (runOps ops) x d hgt bpr hpl hbrk
    have hsw' : SWFlevels (insKV x d (modelOf ops))
        ((runOps ops).insert x d hgt).levels := by
      rw [heqr]
      refine mapLast_SWFlevels (modelOf ops) (insKV x d (modelOf ops)) _
        (fun lvl => keysOf_modIdx_data d lvl.nodes _) ?_ _ hsw1
      intro lvl hkd2
      show levelKD (modIdx (fun n => { n with data := some d }) lvl.nodes bpr.1) =
        (insKV x d (modelOf ops)).map (fun p => (p.1, some p.2))
      rw [h1, countLt_eq_countP x bl.nodes (modelOf ops) hkd,
        ← countLt_eq_countP x lvl.nodes (modelOf ops) hkd2]
      exact modIdx_data_bottom_KD x d (modelOf ops) hM hx lvl hkd2
    have hsig : ((runOps ops).insert x d hgt).levels.map
          (fun lvl => (lvl.headSpan, lvl.nodes.map (fun n => (n.key, n.span)))) =
        ((runOps ops).addLevels hgt).levels.map
          (fun lvl => (lvl.headSpan, lvl.nodes.map (fun n => (n.key, n.span)))) := by
      rw [heqr]
      show (mapLast _ ((runOps ops).addLevels hgt).levels).map _ = _
      rw [mapLast_map_eq _ _ (fun lvl => ?_) ((runOps ops).addLevels hgt).levels]
      show (lvl.headSpan,
          (modIdx (fun n => { n with data := some d }) lvl.nodes bpr.1).map
            (fun n => (n.key, n.span))) =
        (lvl.headSpan, lvl.nodes.map (fun n => (n.key, n.span)))
      rw [kspan_modIdx_data]
    rcases addLevels_shape (runOps ops) hgt with ⟨hic, m, hshape⟩
    have hne : (runOps ops).levels ≠ [] := by
      intro hcon
      rw [hcon] at hsw
      exact hsw
    refine ⟨?_, ?_, ?_, ?_⟩
    · rw [find_eq_lookup _ (insKV x d (modelOf ops))
        ⟨insKV_sorted x d (modelOf ops) hM, hsw'⟩ x]
      exact lookupKV_insKV_self x d (modelOf ops)
    · rw [heqr]
      exact hic
    · intro y
      rw [rankOf_congr ((runOps ops).insert x d hgt) ((runOps ops).addLevels hgt) hsig y]
      have hstep2 : ((runOps ops).addLevels hgt).findRankOfKey y =
          SkipList.findRankOfKey
            ⟨List.replicate m (SLevel.mk ((runOps ops).itemsCount + 1) []) ++
              (runOps ops).levels, (runOps ops).itemsCount⟩ y := by
        apply rankOf_congr
        rw [hshape]
      rw [hstep2, rankOf_replicate_prepend m ((runOps ops).itemsCount + 1)
        ((runOps ops).itemsCount) ((runOps ops).itemsCount) (runOps ops).levels hne y]
    · refine ⟨m, ?_⟩
      rw [hsig, hshape, List.map_append, List.map_replicate]
      rfl

theorem c3_replace_witness :
    ((runOps [Op.ins 5 7 1]).insert 5 9 1).find 5 = some 9 ∧
    ((runOps [Op.ins 5 7 1]).insert 5 9 1).itemsCount =
      (runOps [Op.ins 5 7 1]).itemsCount ∧
    (∀ y, ((runOps [Op.ins 5 7 1]).insert 5 9 1).findRankOfKey y =
        (runOps [Op.ins 5 7 1]).findRankOfKey y) ∧
    ∃ m, ((runOps [Op.ins 5 7 1]).insert 5 9 1).levels.map
          (fun lvl => (lvl.headSpan, lvl.nodes.map (fun n => (n.key, n.span)))) =
        List.replicate m ((runOps [Op.ins 5 7 1]).itemsCount + 1, ([] : List (Int × Int))) ++
          (runOps [Op.ins 5 7 1]).levels.map
            (fun lvl => (lvl.headSpan, lvl.nodes.map (fun n => (n.key, n.span)))) :=
  c3_replace [Op.ins 5 7 1] ⟨by decide, trivial⟩ 5 9 1 (by decide)

/-- C10: on every reachable state, every head-reachable heap cell (head
sentinel or real node of a level) exists and carries a non-null `right`
pointer to an existing cell — only the tail terminator of each level has a
null `right` — and consequently the pointer-level `find`, `findRankOfKey`
and `findByRank` never dereference a null link for any argument and any
fuel, and succeed outright once given fuel exceeding the walk measure;
this includes the freshly constructed empty index. -/
theorem c10_null_safety (ops : List Op) (hv : HValid ops) (x r : Int) (fuel : Nat) :
    (∀ (i p : Nat) (lvl : SLevel), (runOps ops).levels[i]? = some lvl →
        p ≤ lvl.nodes.length →
        ∃ n rn, reprMem (runOps ops) (i, p) = some n ∧
          n.right = some (i, p + 1) ∧ reprMem (runOps ops) (i, p + 1) = some rn) ∧
    (findH (reprH (runOps ops)) x fuel).1 ≠ HRes.nullDeref ∧
    (rankOfH (reprH (runOps ops)) x fuel).1 ≠ HRes.nullDeref ∧
    (byRankH (reprH (runOps ops)) r fuel).1 ≠ HRes.nullDeref ∧
    (walkMeasure (runOps ops) 0 0 < fuel →
      (∃ v, findH (reprH (runOps ops)) x fuel = (.ok v, reprH (runOps ops))) ∧
      (∃ v, rankOfH (reprH (runOps ops)) x fuel = (.ok v, reprH (runOps ops))) ∧
      (∃ v, byRankH (reprH (runOps ops)) r fuel = (.ok v, reprH (runOps ops)))) := by
  rcases runOps_SWF ops hv with ⟨hM, hsw⟩
  have hsc := SWFlevels_sortedContig (modelOf ops) hM (runOps ops).levels hsw
  have hne : (runOps ops).levels ≠ [] := by
    intro hcon
    rw [hcon] at hsw
    cases hsw
  rcases findH_ok (runOps ops) hsc hne x fuel with ⟨hf1, hf2⟩
  rcases rankOfH_ok (runOps ops) hsc hne x fuel with ⟨hr1, hr2⟩
  rcases byRankH_ok (runOps ops) hsc hne r fuel with ⟨hb1, hb2⟩
  exact ⟨fun i p lvl h hp => deref2_ok (runOps ops) i p lvl h hp, hf1, hr1, hb1,
    fun hlt => ⟨hf2 hlt, hr2 hlt, hb2 hlt⟩⟩

theorem c10_null_safety_witness :
    (∀ (i p : Nat) (lvl : SLevel), (runOps []).levels[i]? = some lvl →
        p ≤ lvl.nodes.length →
        ∃ n rn, reprMem (runOps []) (i, p) = some n ∧
          n.right = some (i, p + 1) ∧ reprMem (runOps []) (i, p + 1) = some rn) ∧
    (findH (reprH (runOps [])) 5 3).1 ≠ HRes.nullDeref ∧
    (rankOfH (reprH (runOps [])) 5 3).1 ≠ HRes.nullDeref ∧
    (byRankH (reprH (runOps [])) 0 3).1 ≠ HRes.nullDeref ∧
    (walkMeasure (runOps []) 0 0 < 3 →
      (∃ v, findH (reprH (runOps [])) 5 3 = (.ok v, reprH (runOps []))) ∧
      (∃ v, rankOfH (reprH (runOps [])) 5 3 = (.ok v, reprH (runOps []))) ∧
      (∃ v, byRankH (reprH (runOps [])) 0 3 = (.ok v, reprH (runOps [])))) :=
  c10_null_safety [] trivial 5 0 3

/-- Helper: the drifted span law depends only on keys and spans. -/
theorem spanLawD_congr (F : Int → Int) :
    ∀ (ns ns' : List SLNode),
      ns.map (fun n => (n.key, n.span)) = ns'.map (fun n => (n.key, n.span)) →
      ∀ (cur curSpan : Int), spanLawD F cur curSpan ns → spanLawD F cur curSpan ns' := by
  intro ns
  induction ns with
  | nil =>
    intro ns' h cur curSpan hlaw
    cases ns' with
    | nil => trivial
    | cons a t => simp at h
  | cons n tl ih =>
    intro ns' h cur curSpan hlaw
    cases ns' with
    | nil => simp at h
    | cons n' tl' =>
      simp only [List.map_cons, List.cons.injEq, Prod.mk.injEq] at h
      obtain ⟨⟨hk, hs⟩, htl⟩ := h
      rcases hlaw with ⟨hspan, hlaw2⟩
      refine ⟨by rw [← hk]; exact hspan, ?_⟩
      rw [← hk, ← hs]
      exact ih tl' htl (F n.key) n.span hlaw2

/-- Helper: the drifted span law shifts with the rank function. -/
theorem spanLawD_shift (F F' : Int → Int) (δ : Int) :
    ∀ (ns : List SLNode) (cur curSpan : Int),
      (∀ m ∈ ns, F' m.key = F m.key + δ) →
      spanLawD F cur curSpan ns → spanLawD F' (cur + δ) curSpan ns := by
  intro ns
  induction ns with
  | nil => intro cur curSpan _ _; trivial
  | cons n tl ih =>
    intro cur curSpan hsh hlaw
    rcases hlaw with ⟨hspan, hlaw2⟩
    refine ⟨by rw [hsh n (by simp)]; omega, ?_⟩
    rw [hsh n (by simp)]
    exact ih (F n.key) n.span (fun m hm => hsh m (by simp [hm])) hlaw2

/-- Helper: the drifted span law restricted to the suffix after an
in-range index. -/
theorem spanLawD_suffix (F : Int → Int) :
    ∀ (ns : List SLNode) (cur curSpan : Int) (i : Nat) (n : SLNode),
      spanLawD F cur curSpan ns → ns[i]? = some n →
      spanLawD F (F n.key) n.span (ns.drop (i + 1)) := by
  intro ns
  induction ns with
  | nil => intro cur curSpan i n _ h; simp at h
  | cons m tl ih =>
    intro cur curSpan i n hlaw hget
    rcases hlaw with ⟨hspan, hlaw2⟩
    cases i with
    | zero =>
      simp only [List.getElem?_cons_zero, Option.some.injEq] at hget
      subst hget
      simpa using hlaw2
    | succ i =>
      simpa using ih (F m.key) m.span i n hlaw2 (by simpa using hget)

/-- Helper: under the drifted span law, the rightward walk of the descent
stops at the rightmost node below the target and accumulates the drifted
rank of the key it stops at. -/
theorem walkRightD_eq (x : Int) (F : Int → Int) :
    ∀ (rest : List SLNode) (acc : Option Int) (curSpan : Int) (pos : Nat),
      spanLawD F (pkeyF F acc) curSpan rest →
      rest.Pairwise (fun a b => a.key < b.key) →
      walkRight x rest curSpan pos (pkeyF F acc) =
        (pos + rest.countP (fun n => decide (n.key < x)), pkeyF F (lastKeyLt x rest acc)) := by
  intro rest
  induction rest with
  | nil => intro acc curSpan pos _ _; simp [walkRight, lastKeyLt]
  | cons n tl ih =>
    intro acc curSpan pos hlaw hsort
    rcases hlaw with ⟨hspan, hlaw2⟩
    rcases List.pairwise_cons.mp hsort with ⟨hn, htl⟩
    by_cases hlt : n.key < x
    · have hstep : pkeyF F acc + curSpan = pkeyF F (some n.key) := by
        simp [pkeyF, hspan]
    
      rw [walkRight, if_pos hlt, hstep, ih (some n.key) n.span (pos + 1) hlaw2 htl]
      simp [List.countP_cons, hlt, lastKeyLt]
      omega
    · rw [walkRight, if_neg hlt]
      have h0 : tl.countP (fun n => decide (n.key < x)) = 0 := by
        refine List.countP_eq_zero.mpr ?_
        intro m hm
        have := hn m hm
        simp only [decide_eq_true_eq]
        omega
      simp [List.countP_cons, hlt, lastKeyLt, h0]

/-- Helper: entering a drift-lawful sorted level at the key carried down
from above, the rightward walk stops at the intended approach point. -/
theorem level_walkD_eq (x : Int) (F : Int → Int) (lvl : SLevel)
    (hs : nodesSorted lvl.nodes)
    (hlaw : spanLawD F (-1) lvl.headSpan lvl.nodes) :
    ∀ sk : Option Int,
      (∀ a, sk = some a → a ∈ keysOf lvl.nodes ∧ a < x) →
      walkRight x (lvl.nodes.drop (startPos sk lvl.nodes))
          (spanAt lvl (startPos sk lvl.nodes)) (startPos sk lvl.nodes) (pkeyF F sk) =
        specPED F x lvl := by
  intro sk hsk
  cases sk with
  | none =>
    have h := walkRightD_eq x F lvl.nodes none lvl.headSpan 0
      (by simpa [pkeyF] using hlaw) hs
    simpa [startPos, spanAt, specPED, countLt, pkeyF] using h
  | some a =>
    rcases hsk a rfl with ⟨hmem, hax⟩
    rcases idxOfKey_mem a lvl.nodes hmem with ⟨n, hget, hkey⟩
    have hspanAt : spanAt lvl (idxOfKey a lvl.nodes + 1) = n.span := by
      simp [spanAt, hget]
    have hlawS : spanLawD F (pkeyF F (some a)) n.span
        (lvl.nodes.drop (idxOfKey a lvl.nodes + 1)) := by
      have := spanLawD_suffix F lvl.nodes (-1) lvl.headSpan
        (idxOfKey a lvl.nodes) n hlaw hget
      simpa [pkeyF, hkey] using this
    have hsdrop : (lvl.nodes.drop (idxOfKey a lvl.nodes + 1)).Pairwise
        (fun a b => a.key < b.key) := hs.drop
    have hwalk := walkRightD_eq x F
      (lvl.nodes.drop (idxOfKey a lvl.nodes + 1)) (some a) n.span
      (idxOfKey a lvl.nodes + 1) hlawS hsdrop
    rw [startPos, hspanAt, hwalk]
    have htake_lt : ∀ m ∈ lvl.nodes.take (idxOfKey a lvl.nodes + 1), m.key < x := by
      intro m hm
      have := take_key_le lvl.nodes hs (idxOfKey a lvl.nodes) n hget m hm
      omega
    have htd := List.take_append_drop (idxOfKey a lvl.nodes + 1) lvl.nodes
    have hcount : countLt x lvl.nodes =
        idxOfKey a lvl.nodes + 1 +
          (lvl.nodes.drop (idxOfKey a lvl.nodes + 1)).countP (fun n => decide (n.key < x)) := by
      conv_lhs => rw [countLt, ← htd]
      rw [List.countP_append]
      have hfull : (lvl.nodes.take (idxOfKey a lvl.nodes + 1)).countP
          (fun n => decide (n.key < x)) =
          (lvl.nodes.take (idxOfKey a lvl.nodes + 1)).length := by
        refine List.countP_eq_length.mpr ?_
        intro m hm
        simpa using htake_lt m hm
      rw [hfull, List.length_take]
      have hidx : idxOfKey a lvl.nodes < lvl.nodes.length :=
        (List.getElem?_eq_some_iff.mp hget).1
      omega
    have hkey2 : lastKeyLt x lvl.nodes none =
        lastKeyLt x (lvl.nodes.drop (idxOfKey a lvl.nodes + 1)) (some a) := by
      conv_lhs => rw [← htd]
      rw [lastKeyLt_append_lt x _ _ htake_lt]
      have hgl : (lvl.nodes.take (idxOfKey a lvl.nodes + 1)).getLast? = some n := by
        rw [List.take_succ, hget]
        simp
      rw [lastKeyLt_all_lt x _ htake_lt, hgl]
      simp [hkey]
    rw [specPED, hcount, hkey2]

/-- Helper: on a drifted reachable state the descent still computes, at
every level, the intended approach position, and accumulates the drifted
rank of the approach key. -/
theorem findInsertPathD_eq (x : Int) (F : Int → Int) :
    ∀ (lvls : List SLevel) (sk : Option Int),
      sortedContig lvls → spanOKD F lvls → skOK x lvls sk →
      findInsertPath x lvls sk (pkeyF F sk) = lvls.map (specPED F x) := by
  intro lvls
  induction lvls with
  | nil => intro sk _ _ _; simp [findInsertPath]
  | cons lvl lower ih =>
    intro sk hsc hsp hsk
    have hskfun : ∀ a, sk = some a → a ∈ keysOf lvl.nodes ∧ a < x := by
      intro a ha
      subst ha
      cases lower <;> simpa [skOK] using hsk
    have hlaw : spanLawD F (-1) lvl.headSpan lvl.nodes := hsp lvl (by simp)
    cases lower with
    | nil =>
      have hsort : nodesSorted lvl.nodes := by simpa [sortedContig] using hsc
      have hwalk := level_walkD_eq x F lvl hsort hlaw sk hskfun
      rw [findInsertPath_cons, hwalk]
      simp [findInsertPath]
    | cons lvl2 rest =>
      rcases (by simpa [sortedContig] using hsc :
          nodesSorted lvl.nodes ∧ (∀ n ∈ lvl.nodes, n.key ∈ keysOf lvl2.nodes) ∧
            sortedContig (lvl2 :: rest)) with ⟨hsort, hcontig, hsc2⟩
      have hsp2 : spanOKD F (lvl2 :: rest) := fun l hl => hsp l (by simp [hl])
      have hwalk := level_walkD_eq x F lvl hsort hlaw sk hskfun
      have hkeyAt : keyAt lvl (specPED F x lvl).1 = lastKeyLt x lvl.nodes none := by
        rw [specPED]
        exact keyAt_countLt x lvl hsort
      have hsk2 : skOK x (lvl2 :: rest) (lastKeyLt x lvl.nodes none) := by
        cases hlk : lastKeyLt x lvl.nodes none with
        | none => simp [skOK]
        | some b =>
          have hbmem : b ∈ keysOf lvl.nodes := by
            rcases lastKeyLt_mem x lvl.nodes none b hlk with h | h
            · exact h
            · cases h
          have hblt : b < x :=
            lastKeyLt_lt x lvl.nodes none (by rintro c ⟨⟩) b hlk
          rcases List.mem_map.mp hbmem with ⟨m, hm, hmk⟩
          exact ⟨hmk ▸ hcontig m hm, hblt⟩
      have hrec := ih (lastKeyLt x lvl.nodes none) hsc2 hsp2 hsk2
      rw [findInsertPath_cons, hwalk, hkeyAt,
        show (specPED F x lvl).2 = pkeyF F (lastKeyLt x lvl.nodes none) from rfl, hrec,
        List.map_cons]
      simp

/-- Helper: bottom positions are nonnegative. -/
theorem posIn_nonneg (B : List Int) (k : Int) : 0 ≤ posIn B k := by
  rw [posIn]
  exact Int.natCast_nonneg _

/-- Helper: a stored key sits strictly below the count of stored keys. -/
theorem posIn_mem_lt (B : List Int) (k : Int) (hk : k ∈ B) :
    posIn B k < (B.length : Int) := by
  rw [posIn]
  have hle : B.countP (fun b => decide (b < k)) ≤ B.length := List.countP_le_length _
  have hne : B.countP (fun b => decide (b < k)) ≠ B.length := by
    intro he
    have := List.countP_eq_length.mp he k hk
    simp at this
  omega

/-- Helper: among sorted keys a smaller stored key has a strictly smaller
position. -/
theorem posIn_lt_of_mem_lt :
    ∀ (B : List Int), B.Pairwise (· < ·) → ∀ (a x : Int), a ∈ B → a < x →
      posIn B a + 1 ≤ posIn B x := by
  intro B
  induction B with
  | nil => intro _ a x h; simp at h
  | cons b tl ih =>
    intro hB a x ha hax
    rcases List.pairwise_cons.mp hB with ⟨hb, htl⟩
    rcases List.mem_cons.mp ha with rfl | ha2
    · have h0 : tl.countP (fun c => decide (c < a)) = 0 := by
        refine List.countP_eq_zero.mpr ?_
        intro q hq
        have := hb q hq
        simp only [decide_eq_true_eq]
        omega
      have h1 : posIn (a :: tl) a = 0 := by
        rw [posIn, List.countP_cons, h0, if_neg (by simp)]
        rfl
      have h2 : (1 : Int) ≤ posIn (a :: tl) x := by
        rw [posIn, List.countP_cons, if_pos (by simpa using hax)]
        push_cast
        omega
      omega
    · have hba : b < a := hb a ha2
      have hbx : b < x := by omega
      have hrec := ih htl a x ha2 hax
      have e1 : posIn (b :: tl) a = posIn tl a + 1 := by
        rw [posIn, posIn, List.countP_cons, if_pos (by simpa using hba)]
        push_cast
        ring
      have e2 : posIn (b :: tl) x = posIn tl x + 1 := by
        rw [posIn, posIn, List.countP_cons, if_pos (by simpa using hbx)]
        push_cast
        ring
      omega

/-- Helper: a nonempty list has a last element. -/
theorem getLast_some_of_cons :
    ∀ (n : SLNode) (tl : List SLNode), ∃ q, (n :: tl).getLast? = some q := by
  intro n tl
  induction tl generalizing n with
  | nil => exact ⟨n, by simp⟩
  | cons m tl2 ih =>
    rcases ih m with ⟨q, hq⟩
    exact ⟨q, by rw [List.getLast?_cons_cons]; exact hq⟩

/-- Helper: `lastKeyAll` returns the key of the last node when there is
one. -/
theorem lastKeyAll_getLast :
    ∀ (ns : List SLNode) (acc : Option Int) (q : SLNode), ns.getLast? = some q →
      lastKeyAll ns acc = some q.key := by
  intro ns
  induction ns with
  | nil => intro acc q h; simp at h
  | cons n tl ih =>
    intro acc q h
    cases tl with
    | nil =>
      have h2 : n = q := by simpa using h
      rw [← h2]
      rfl
    | cons m tl2 =>
      rw [List.getLast?_cons_cons] at h
      show lastKeyAll (m :: tl2) (some n.key) = some q.key
      exact ih (some n.key) q h

/-- Helper: a key produced by `lastKeyAll` is a key of the list or the
accumulator. -/
theorem lastKeyAll_mem :
    ∀ (ns : List SLNode) (acc : Option Int) (b : Int),
      lastKeyAll ns acc = some b → b ∈ keysOf ns ∨ acc = some b := by
  intro ns
  induction ns with
  | nil => intro acc b h; right; simpa [lastKeyAll] using h
  | cons n tl ih =>
    intro acc b h
    rcases ih (some n.key) b h with hmem | hacc
    · left
      simp only [keysOf, List.map_cons, List.mem_cons]
      right
      simpa [keysOf] using hmem
    · left
      simp only [keysOf, List.map_cons, List.mem_cons]
      left
      exact (Option.some.injEq _ _ ▸ hacc).symm

/-- Helper: `lastKeyAll` of a nonempty list ignores its accumulator. -/
theorem lastKeyAll_acc_irrel :
    ∀ (ns : List SLNode), ns ≠ [] → ∀ acc acc', lastKeyAll ns acc = lastKeyAll ns acc' := by
  intro ns
  cases ns with
  | nil => intro h; exact absurd rfl h
  | cons n tl => intro _ acc acc'; rfl

/-- Helper: `lastKeyAll` from a dropped suffix after an in-range index
agrees with the whole list. -/
theorem lastKeyAll_drop :
    ∀ (ns : List SLNode) (i : Nat) (n : SLNode), ns[i]? = some n →
      lastKeyAll (ns.drop (i + 1)) (some n.key) = lastKeyAll ns (some n.key) := by
  intro ns
  induction ns with
  | nil => intro i n h; simp at h
  | cons m tl ih =>
    intro i n hget
    cases i with
    | zero =>
      simp only [List.getElem?_cons_zero, Option.some.injEq] at hget
      subst hget
      rfl
    | succ i =>
      have hget2 : tl[i]? = some n := by simpa using hget
      have htlne : tl ≠ [] := by
        intro hcon
        rw [hcon] at hget2
        simp at hget2
      calc lastKeyAll ((m :: tl).drop (i + 1 + 1)) (some n.key)
          = lastKeyAll (tl.drop (i + 1)) (some n.key) := rfl
        _ = lastKeyAll tl (some n.key) := ih i n hget2
        _ = lastKeyAll tl (some m.key) := lastKeyAll_acc_irrel tl htlne _ _
        _ = lastKeyAll (m :: tl) (some n.key) := rfl

/-- Helper: the key at the one-past-the-end position is the last key the
walk entered or passed. -/
theorem keyAt_lastKeyAll (lvl : SLevel) (sk : Option Int)
    (hsk : ∀ a, sk = some a → a ∈ keysOf lvl.nodes) :
    keyAt lvl lvl.nodes.length = lastKeyAll lvl.nodes sk := by
  cases hns : lvl.nodes with
  | nil =>
    cases sk with
    | none =>
      rw [keyAt, if_pos (by rfl)]
      rfl
    | some a =>
      have := hsk a rfl
      rw [hns] at this
      simp [keysOf] at this
  | cons n tl =>
    rcases getLast_some_of_cons n tl with ⟨q, hq⟩
    rw [keyAt, if_neg (by simp), hns, ← List.getLast?_eq_getElem?, hq,
      lastKeyAll_getLast (n :: tl) sk q hq]
    rfl

/-- Helper: the right neighbour at the one-past-the-end position is the
tail, whose data read reports not-found. -/
theorem answerAt_length (lvl : SLevel) : answerAt lvl lvl.nodes.length = none := by
  have h : lvl.nodes[lvl.nodes.length]? = none := List.getElem?_eq_none (Nat.le_refl _)
  simp [answerAt, h]

/-- Helper: when every drifted rank in sight stays below the target, the
`findByRank` run consumes its whole level. -/
theorem byRankRunD_end (r : Int) (F : Int → Int) :
    ∀ (ns : List SLNode) (acc : Option Int) (curSpan : Int) (pos : Nat),
      spanLawD F (pkeyF F acc) curSpan ns →
      pkeyF F acc < r →
      (∀ n ∈ ns, F n.key < r) →
      byRankRun r ns curSpan (pkeyF F acc) pos =
        (pos + ns.length, pkeyF F (lastKeyAll ns acc)) := by
  intro ns
  induction ns with
  | nil => intro acc curSpan pos _ _ _; simp [byRankRun, lastKeyAll]
  | cons n tl ih =>
    intro acc curSpan pos hlaw hacc hFlt
    rcases hlaw with ⟨hspan, hlaw2⟩
    have hnr : F n.key < r := hFlt n (by simp)
    have hcond : pkeyF F acc < r ∧ pkeyF F acc + curSpan < r := by
      refine ⟨hacc, ?_⟩
      rw [hspan]
      omega
    rw [byRankRun, if_pos hcond]
    have hstep : pkeyF F acc + curSpan = pkeyF F (some n.key) := by
      simp [pkeyF, hspan]
    rw [hstep, ih (some n.key) n.span (pos + 1) hlaw2 (by simpa [pkeyF] using hnr)
      (fun m hm => hFlt m (by simp [hm]))]
    simp only [lastKeyAll, List.length_cons, Prod.mk.injEq]
    exact ⟨by omega, trivial⟩

/-- Helper: entering a drift-lawful level below the target rank, the
`findByRank` run stops at the one-past-the-end position carrying the
drifted rank of the level's last key. -/
theorem level_runD_end (r : Int) (F : Int → Int) (lvl : SLevel)
    (hlaw : spanLawD F (-1) lvl.headSpan lvl.nodes)
    (hFlt : ∀ n ∈ lvl.nodes, F n.key < r) :
    ∀ sk : Option Int,
      (∀ a, sk = some a → a ∈ keysOf lvl.nodes) →
      pkeyF F sk < r →
      byRankRun r (lvl.nodes.drop (startPos sk lvl.nodes))
          (spanAt lvl (startPos sk lvl.nodes)) (pkeyF F sk) (startPos sk lvl.nodes) =
        (lvl.nodes.length, pkeyF F (lastKeyAll lvl.nodes sk)) := by
  intro sk hsk hskr
  cases sk with
  | none =>
    have h := byRankRunD_end r F lvl.nodes none lvl.headSpan 0
      (by simpa [pkeyF] using hlaw) (by simpa [pkeyF] using hskr) hFlt
    simpa [startPos, spanAt] using h
  | some a =>
    have hmem := hsk a rfl
    rcases idxOfKey_mem a lvl.nodes hmem with ⟨n, hget, hkey⟩
    have hidx : idxOfKey a lvl.nodes < lvl.nodes.length :=
      (List.getElem?_eq_some_iff.mp hget).1
    have hspanAt : spanAt lvl (idxOfKey a lvl.nodes + 1) = n.span := by
      simp [spanAt, hget]
    have hlawS : spanLawD F (pkeyF F (some a)) n.span
        (lvl.nodes.drop (idxOfKey a lvl.nodes + 1)) := by
      have := spanLawD_suffix F lvl.nodes (-1) lvl.headSpan (idxOfKey a lvl.nodes) n
        hlaw hget
      simpa [pkeyF, hkey] using this
    have hrun := byRankRunD_end r F (lvl.nodes.drop (idxOfKey a lvl.nodes + 1)) (some a)
      n.span (idxOfKey a lvl.nodes + 1) hlawS hskr
      (fun m hm => hFlt m (List.drop_subset _ _ hm))
    rw [startPos, hspanAt, hrun]
    have hlen : idxOfKey a lvl.nodes + 1 +
        (lvl.nodes.drop (idxOfKey a lvl.nodes + 1)).length = lvl.nodes.length := by
      rw [List.length_drop]
      omega
    rw [hlen]
    have hlka : lastKeyAll (lvl.nodes.drop (idxOfKey a lvl.nodes + 1)) (some a) =
        lastKeyAll lvl.nodes (some a) := by
      have h2 := lastKeyAll_drop lvl.nodes (idxOfKey a lvl.nodes) n hget
      rw [hkey] at h2
      exact h2
    rw [hlka]

/-- Helper: on a drift-lawful stack whose stored keys all rank below the
target, the `findByRank` walk runs every level to its end, descends along
last keys, and finally reads the tail, reporting not-found. -/
theorem byRankLevelsD_none (r : Int) (F : Int → Int) (B : List Int)
    (hFB : ∀ k ∈ B, F k < r) :
    ∀ (lvls : List SLevel) (sk : Option Int),
      spanOKD F lvls →
      sortedContig lvls →
      (∀ lvl ∈ lvls, ∀ n ∈ lvl.nodes, n.key ∈ B) →
      skME lvls sk →
      pkeyF F sk < r →
      byRankLevels r lvls sk (pkeyF F sk) = none := by
  intro lvls
  induction lvls with
  | nil => intro sk _ _ _ _ _; rfl
  | cons lvl lower ih =>
    intro sk hsp hsc hkB hsk hskr
    have hskf : ∀ a, sk = some a → a ∈ keysOf lvl.nodes := by
      intro a ha
      subst ha
      cases lower <;> simpa [skME] using hsk
    have hFlt : ∀ n ∈ lvl.nodes, F n.key < r :=
      fun n hn => hFB n.key (hkB lvl (by simp) n hn)
    have hrun := level_runD_end r F lvl (hsp lvl (by simp)) hFlt sk hskf hskr
    have hlast_lt : pkeyF F (lastKeyAll lvl.nodes sk) < r := by
      cases hl : lastKeyAll lvl.nodes sk with
      | none =>
        cases hns : lvl.nodes with
        | nil =>
          have hskn : sk = none := by
            rw [hns] at hl
            exact hl
          rw [hskn] at hskr
          exact hskr
        | cons n tl =>
          rcases getLast_some_of_cons n tl with ⟨q, hq⟩
          have hq2 : lvl.nodes.getLast? = some q := by rw [hns]; exact hq
          rw [lastKeyAll_getLast lvl.nodes sk q hq2] at hl
          cases hl
      | some b =>
        show pkeyF F (some b) < r
        rcases lastKeyAll_mem lvl.nodes sk b hl with hbk | hbs
        · rcases List.mem_map.mp hbk with ⟨m, hm, hmk⟩
          have := hFlt m hm
          show F b < r
          rw [← hmk]
          exact this
        · rw [hbs] at hskr
          exact hskr
    rw [byRankLevels_cons, if_pos hskr, hrun,
      if_pos (show (lvl.nodes.length, pkeyF F (lastKeyAll lvl.nodes sk)).2 < r
        from hlast_lt)]
    cases lower with
    | nil =>
      show answerAt lvl lvl.nodes.length = none
      exact answerAt_length lvl
    | cons l2 rest =>
      show byRankLevels r (l2 :: rest) (keyAt lvl lvl.nodes.length)
        (pkeyF F (lastKeyAll lvl.nodes sk)) = none
      rw [keyAt_lastKeyAll lvl sk hskf]
      rcases (by simpa [sortedContig] using hsc :
          nodesSorted lvl.nodes ∧ (∀ n ∈ lvl.nodes, n.key ∈ keysOf l2.nodes) ∧
            sortedContig (l2 :: rest)) with ⟨hsort, hcontig, hsc2⟩
      have hsk2 : skME (l2 :: rest) (lastKeyAll lvl.nodes sk) := by
        cases hl : lastKeyAll lvl.nodes sk with
        | none => trivial
        | some b =>
          show b ∈ keysOf l2.nodes
          rcases lastKeyAll_mem lvl.nodes sk b hl with hbk | hbs
          · rcases List.mem_map.mp hbk with ⟨m, hm, hmk⟩
            exact hmk ▸ hcontig m hm
          · have hb2 := hskf b hbs
            rcases List.mem_map.mp hb2 with ⟨m, hm, hmk⟩
            exact hmk ▸ hcontig m hm
      exact ih (lastKeyAll lvl.nodes sk)
        (fun l hl => hsp l (by simp [hl]))
        hsc2
        (fun l hl n hn => hkB l (by simp [hl]) n hn)
        hsk2 hlast_lt

/-- Helper: the drifted span law survives the linking-in of a fresh key's
node at a level. -/
theorem insertAt_spanLawD (F F2 : Int → Int) (x : Int) (d? : Option Int) (iar : Int)
    (hB2 : ∀ y, y ≠ x → F2 y = F y + (if x < y then 1 else 0))
    (hiar : iar = F2 x) :
    ∀ (ns : List SLNode) (cur curSpan : Int) (acc : Option Int),
      spanLawD F cur curSpan ns →
      nodesSorted ns →
      (∀ m ∈ ns, m.key ≠ x) →
      pkeyF F acc = cur →
      spanLawD F2 cur
        (insertAt ⟨curSpan, ns⟩ (countLt x ns)
          ⟨x, d?, spanAt ⟨curSpan, ns⟩ (countLt x ns) + 1 -
            (iar - pkeyF F (lastKeyLt x ns acc))⟩).headSpan
        (insertAt ⟨curSpan, ns⟩ (countLt x ns)
          ⟨x, d?, spanAt ⟨curSpan, ns⟩ (countLt x ns) + 1 -
            (iar - pkeyF F (lastKeyLt x ns acc))⟩).nodes := by
  intro ns
  induction ns with
  | nil =>
    intro cur curSpan acc hlaw hsort hnx hacc
    have hc : countLt x ([] : List SLNode) = 0 := rfl
    rw [hc]
    have hlk : lastKeyLt x ([] : List SLNode) acc = acc := rfl
    rw [hlk, hacc]
    have hsa : spanAt ⟨curSpan, ([] : List SLNode)⟩ 0 = curSpan := rfl
    rw [hsa]
    show spanLawD F2 cur (curSpan + 1 - (curSpan + 1 - (iar - cur)))
      [⟨x, d?, curSpan + 1 - (iar - cur)⟩]
    refine ⟨?_, trivial⟩
    show curSpan + 1 - (curSpan + 1 - (iar - cur)) = F2 x - cur
    rw [← hiar]
    ring
  | cons n tl ih =>
    intro cur curSpan acc hlaw hsort hnx hacc
    rcases hlaw with ⟨hspan, hlaw2⟩
    rcases List.pairwise_cons.mp hsort with ⟨hn, htl⟩
    have hnex : n.key ≠ x := hnx n (by simp)
    by_cases hx : n.key < x
    · have hcnt : countLt x (n :: tl) = countLt x tl + 1 := by
        simp [countLt, List.countP_cons, hx]
      have hlk : lastKeyLt x (n :: tl) acc = lastKeyLt x tl (some n.key) := by
        simp [lastKeyLt, hx]
      rw [hcnt, hlk, spanAt_cons, insertAt_cons]
      have hBn : F2 n.key = F n.key := by
        have := hB2 n.key hnex
        simp only [if_neg (by omega : ¬ x < n.key)] at this
        omega
      have hih := ih (F n.key) n.span (some n.key) hlaw2 htl
        (fun m hm => hnx m (by simp [hm])) rfl
      refine ⟨by rw [hBn]; exact hspan, ?_⟩
      rw [hBn]
      exact hih
    · have hgt : x < n.key := by omega
      have hc0 : countLt x (n :: tl) = 0 := by
        refine List.countP_eq_zero.mpr ?_
        intro m hm
        simp only [decide_eq_true_eq]
        rcases List.mem_cons.mp hm with rfl | hm2
        · omega
        · have := hn m hm2; omega
      have hlk : lastKeyLt x (n :: tl) acc = acc := by
        simp [lastKeyLt, hx]
      rw [hc0, hlk, hacc]
      have hsa : spanAt ⟨curSpan, n :: tl⟩ 0 = curSpan := rfl
      rw [hsa]
      show spanLawD F2 cur (curSpan + 1 - (curSpan + 1 - (iar - cur)))
        (⟨x, d?, curSpan + 1 - (iar - cur)⟩ :: n :: tl)
      have hBn : F2 n.key = F n.key + 1 := by
        have := hB2 n.key hnex
        simp only [if_pos hgt] at this
        omega
      refine ⟨?_, ?_, ?_⟩
      · show curSpan + 1 - (curSpan + 1 - (iar - cur)) = F2 x - cur
        rw [← hiar]
        ring
      · show curSpan + 1 - (iar - cur) = F2 n.key - F2 x
        rw [hBn, ← hiar, hspan]
        ring
      · show spanLawD F2 (F2 n.key) n.span tl
        rw [hBn]
        exact spanLawD_shift F F2 1 tl (F n.key) n.span
          (fun m hm => by
            have hxm : x < m.key := lt_trans hgt (hn m hm)
            have := hB2 m.key (by omega)
            simp only [if_pos hxm] at this
            omega) hlaw2

/-- Helper: the drifted span law survives the span increment of the
approach point at levels the fresh key's tower does not reach. -/
theorem bumpSpanAt_spanLawD (F F2 : Int → Int) (x : Int)
    (hB2 : ∀ y, y ≠ x → F2 y = F y + (if x < y then 1 else 0)) :
    ∀ (ns : List SLNode) (cur curSpan : Int),
      spanLawD F cur curSpan ns →
      nodesSorted ns →
      (∀ m ∈ ns, m.key ≠ x) →
      spanLawD F2 cur
        (bumpSpanAt ⟨curSpan, ns⟩ (countLt x ns) 1).headSpan
        (bumpSpanAt ⟨curSpan, ns⟩ (countLt x ns) 1).nodes := by
  intro ns
  induction ns with
  | nil =>
    intro cur curSpan _ _ _
    show spanLawD F2 cur (curSpan + 1) []
    trivial
  | cons n tl ih =>
    intro cur curSpan hlaw hsort hnx
    rcases hlaw with ⟨hspan, hlaw2⟩
    rcases List.pairwise_cons.mp hsort with ⟨hn, htl⟩
    have hnex : n.key ≠ x := hnx n (by simp)
    by_cases hx : n.key < x
    · have hcnt : countLt x (n :: tl) = countLt x tl + 1 := by
        simp [countLt, List.countP_cons, hx]
      rw [hcnt, bumpSpanAt_cons]
      have hBn : F2 n.key = F n.key := by
        have := hB2 n.key hnex
        simp only [if_neg (by omega : ¬ x < n.key)] at this
        omega
      refine ⟨by rw [hBn]; exact hspan, ?_⟩
      rw [hBn]
      exact ih (F n.key) n.span hlaw2 htl (fun m hm => hnx m (by simp [hm]))
    · have hgt : x < n.key := by omega
      have hc0 : countLt x (n :: tl) = 0 := by
        refine List.countP_eq_zero.mpr ?_
        intro m hm
        simp only [decide_eq_true_eq]
        rcases List.mem_cons.mp hm with rfl | hm2
        · omega
        · have := hn m hm2; omega
      rw [hc0]
      show spanLawD F2 cur (curSpan + 1) (n :: tl)
      have hBn : F2 n.key = F n.key + 1 := by
        have := hB2 n.key hnex
        simp only [if_pos hgt] at this
        omega
      refine ⟨by rw [hBn, hspan]; ring, ?_⟩
      rw [hBn]
      exact spanLawD_shift F F2 1 tl (F n.key) n.span
        (fun m hm => by
          have hxm : x < m.key := lt_trans hgt (hn m hm)
          have := hB2 m.key (by omega)
          simp only [if_pos hxm] at this
          omega) hlaw2

/-- Helper: the drifted span law survives the per-level pass of `delete`,
splice and span-decrement branches alike, under the rank function lowered
past the target. -/
theorem deleteLevel_spanLawD (F F2 : Int → Int) (x : Int)
    (hB2 : ∀ y, F2 y = F y - (if x < y then 1 else 0)) :
    ∀ (ns : List SLNode) (cur curSpan : Int),
      spanLawD F cur curSpan ns →
      nodesSorted ns →
      spanLawD F2 cur
        (deleteLevel x ⟨curSpan, ns⟩ (countLt x ns)).headSpan
        (deleteLevel x ⟨curSpan, ns⟩ (countLt x ns)).nodes := by
  intro ns
  induction ns with
  | nil =>
    intro cur curSpan _ _
    show spanLawD F2 cur (curSpan + (-1)) []
    trivial
  | cons n tl ih =>
    intro cur curSpan hlaw hsort
    rcases hlaw with ⟨hspan, hlaw2⟩
    rcases List.pairwise_cons.mp hsort with ⟨hn, htl⟩
    by_cases hx : n.key < x
    · have hcnt : countLt x (n :: tl) = countLt x tl + 1 := by
        simp [countLt, List.countP_cons, hx]
      rw [hcnt, deleteLevel_cons]
      have hBn : F2 n.key = F n.key := by
        have := hB2 n.key
        simp only [if_neg (by omega : ¬ x < n.key)] at this
        omega
      refine ⟨by rw [hBn]; exact hspan, ?_⟩
      rw [hBn]
      exact ih (F n.key) n.span hlaw2 htl
    · have hc0 : countLt x (n :: tl) = 0 := by
        refine List.countP_eq_zero.mpr ?_
        intro m hm
        simp only [decide_eq_true_eq]
        rcases List.mem_cons.mp hm with rfl | hm2
        · omega
        · have := hn m hm2; omega
      rw [hc0]
      by_cases hk : n.key = x
      · rw [show deleteLevel x ⟨curSpan, n :: tl⟩ 0 = ⟨curSpan + n.span - 1, tl⟩ by
          simp [deleteLevel, hk, spliceAt, remIdx]]
        cases tl with
        | nil => trivial
        | cons t tl2 =>
          rcases hlaw2 with ⟨hspan2, hlaw3⟩
          rcases List.pairwise_cons.mp htl with ⟨ht, htl2⟩
          have htgt : x < t.key := by
            have := hn t (by simp)
            omega
          have hBt : F2 t.key = F t.key - 1 := by
            have := hB2 t.key
            simp only [if_pos htgt] at this
            omega
          refine ⟨?_, ?_⟩
          · rw [hBt, hspan, hspan2]
            ring
          · have hsh := spanLawD_shift F F2 (-1) tl2 (F t.key) t.span
              (fun m hm => by
                have hxm : x < m.key := lt_trans htgt (ht m hm)
                have := hB2 m.key
                simp only [if_pos hxm] at this
                omega) hlaw3
            rw [hBt, sub_eq_add_neg]
            exact hsh
      · have hgt : x < n.key := by omega
        rw [show deleteLevel x ⟨curSpan, n :: tl⟩ 0 = ⟨curSpan + (-1), n :: tl⟩ by
          simp [deleteLevel, hk, bumpSpanAt]]
        have hBn : F2 n.key = F n.key - 1 := by
          have := hB2 n.key
          simp only [if_pos hgt] at this
          omega
        refine ⟨by rw [hBn, hspan]; ring, ?_⟩
        have hsh := spanLawD_shift F F2 (-1) tl (F n.key) n.span
          (fun m hm => by
            have hxm : x < m.key := lt_trans hgt (hn m hm)
            have := hB2 m.key
            simp only [if_pos hxm] at this
            omega) hlaw2
        rw [hBn, sub_eq_add_neg]
        exact hsh

/-- Helper: linking a fresh key's tower in at the intended approach points
preserves the drifted span law for the grown rank function. -/
theorem insertStep_spanOKD (x d iar : Int) (h : Nat) (F F2 : Int → Int)
    (hB2 : ∀ y, y ≠ x → F2 y = F y + (if x < y then 1 else 0))
    (hiar : iar = F2 x) :
    ∀ (lvls : List SLevel) (lvlIdx : Nat),
      spanOKD F lvls →
      (∀ lvl ∈ lvls, nodesSorted lvl.nodes ∧ ∀ m ∈ lvl.nodes, m.key ≠ x) →
      spanOKD F2 (insertStep x d iar h lvls (lvls.map (specPED F x)) lvlIdx) := by
  intro lvls
  induction lvls with
  | nil =>
    intro lvlIdx _ _
    rw [List.map_nil, insertStep_nil]
    intro l hl
    simp at hl
  | cons lvl lower ih =>
    intro lvlIdx hsp hwf
    rcases hwf lvl (by simp) with ⟨hsort, hnx⟩
    rw [List.map_cons, insertStep_cons]
    intro l hl
    rcases List.mem_cons.mp hl with rfl | hl2
    · by_cases hlt : lvlIdx < h
      · rw [if_pos hlt]
        exact insertAt_spanLawD F F2 x _ iar hB2 hiar lvl.nodes (-1) lvl.headSpan none
          (hsp lvl (by simp)) hsort hnx rfl
      · rw [if_neg hlt]
        exact bumpSpanAt_spanLawD F F2 x hB2 lvl.nodes (-1) lvl.headSpan
          (hsp lvl (by simp)) hsort hnx
    · exact ih (lvlIdx - 1) (fun l2 h2 => hsp l2 (by simp [h2]))
        (fun l2 h2 => hwf l2 (by simp [h2])) l hl2

/-- Helper: the per-level pass of `delete` at the intended approach
positions preserves the drifted span law for the lowered rank function. -/
theorem deleteStep_spanOKD (x : Int) (F F2 : Int → Int)
    (hB2 : ∀ y, F2 y = F y - (if x < y then 1 else 0)) :
    ∀ (lvls : List SLevel) (ps : List (Nat × Int)),
      spanOKD F lvls →
      (∀ lvl ∈ lvls, nodesSorted lvl.nodes) →
      ps.map Prod.fst = lvls.map (fun lvl => countLt x lvl.nodes) →
      spanOKD F2 (deleteStep x lvls ps) := by
  intro lvls
  induction lvls with
  | nil =>
    intro ps _ _ _
    rw [deleteStep_nil]
    intro l hl
    simp at hl
  | cons lvl lower ih =>
    intro ps hsp hsort hps
    cases ps with
    | nil => simp at hps
    | cons pr ps2 =>
      simp only [List.map_cons, List.cons.injEq] at hps
      obtain ⟨hpr1, hps2⟩ := hps
      rw [deleteStep_cons]
      intro l hl
      rcases List.mem_cons.mp hl with rfl | hl2
      · rw [hpr1]
        exact deleteLevel_spanLawD F F2 x hB2 lvl.nodes (-1) lvl.headSpan
          (hsp lvl (by simp)) (hsort lvl (by simp))
      · exact ih ps2 (fun l2 h2 => hsp l2 (by simp [h2]))
          (fun l2 h2 => hsort l2 (by simp [h2])) hps2 l hl2

/-- Helper: a rewrite of the last level that keeps head spans, keys and
spans preserves the drifted span law. -/
theorem spanOKD_mapLast (F : Int → Int) (f : SLevel → SLevel)
    (hf : ∀ lvl, (f lvl).headSpan = lvl.headSpan ∧
      (f lvl).nodes.map (fun n => (n.key, n.span)) =
        lvl.nodes.map (fun n => (n.key, n.span))) :
    ∀ lvls, spanOKD F lvls → spanOKD F (mapLast f lvls) := by
  intro lvls
  induction lvls with
  | nil => intro h; exact h
  | cons lvl lower ih =>
    intro hsp
    cases lower with
    | nil =>
      intro l hl
      have hml : mapLast f [lvl] = [f lvl] := rfl
      rw [hml] at hl
      rcases (by simpa using hl : l = f lvl) with rfl
      rcases hf lvl with ⟨hh, hk⟩
      rw [hh]
      exact spanLawD_congr F lvl.nodes (f lvl).nodes hk.symm (-1) lvl.headSpan
        (hsp lvl (by simp))
    | cons l2 rest =>
      have hml : mapLast f (lvl :: l2 :: rest) = lvl :: mapLast f (l2 :: rest) := rfl
      rw [hml]
      intro l hl
      rcases List.mem_cons.mp hl with h1 | hl2
      · rw [h1]
        exact hsp lvl (by simp)
      · exact ih (fun l3 h3 => hsp l3 (by simp [h3])) l hl2

/-- Helper: fresh empty levels carry the drifted span law trivially. -/
theorem addLevels_spanOKD (sl : SkipList) (F : Int → Int)
    (hsp : spanOKD F sl.levels) (k : Nat) :
    spanOKD F (sl.addLevels k).levels := by
  rcases addLevels_shape sl k with ⟨_, m, hshape⟩
  rw [hshape]
  intro l hl
  rcases List.mem_append.mp hl with h1 | h2
  · have he : l = SLevel.mk (sl.itemsCount + 1) [] := List.eq_of_mem_replicate h1
    rw [he]
    trivial
  · exact hsp l h2

/-- Helper: `insert` preserves the drift invariant from any reachable
state, replace and fresh branches alike. -/
theorem insert_DriftInv (sl : SkipList) (M : List (Int × Int))
    (hM : M.Pairwise (fun a b => a.1 < b.1)) (hsw : SWFlevels M sl.levels)
    (F : Int → Int) (hD : DriftInv M sl F) (x d : Int) (hgt : Nat) :
    ∃ F2, DriftInv (insKV x d M) (sl.insert x d hgt) F2 := by
  rcases hD with ⟨hspD, hbound⟩
  have hsw1 : SWFlevels M (sl.addLevels hgt).levels := addLevels_SWFlevels sl M hsw hgt
  have hsc := SWFlevels_sortedContig M hM _ hsw1
  have hspD1 : spanOKD F (sl.addLevels hgt).levels := addLevels_spanOKD sl F hspD hgt
  have hpath : findInsertPath x (sl.addLevels hgt).levels none (-1) =
      (sl.addLevels hgt).levels.map (specPED F x) := by
    have h := findInsertPathD_eq x F (sl.addLevels hgt).levels none hsc hspD1
      (skOK_none x _)
    simpa [pkeyF] using h
  rcases SWFlevels_getLast M _ hsw1 with ⟨bl, hlast, hkd⟩
  have hplast : (findInsertPath x (sl.addLevels hgt).levels none (-1)).getLast? =
      some (specPED F x bl) := by
    rw [hpath, List.getLast?_map, hlast]
    rfl
  have hfst : (findInsertPath x (sl.addLevels hgt).levels none (-1)).map Prod.fst =
      (sl.addLevels hgt).levels.map (fun lvl => countLt x lvl.nodes) := by
    rw [hpath, List.map_map]
    rfl
  by_cases hx : x ∈ keysKV M
  · have hbrk := (bottomRightKey_spec_fst M hM _ hsw1 x _ hfst).mpr hx
    have heqr := insert_eq_replace sl x d hgt (specPED F x bl) hplast hbrk
    refine ⟨F, ?_, ?_⟩
    · rw [heqr]
      show spanOKD F (mapLast (fun lvl =>
        { lvl with nodes := (modIdx (fun n => { n with data := some d }) lvl.nodes
            (specPED F x bl).1) }) (sl.addLevels hgt).levels)
      exact spanOKD_mapLast F
        (fun lvl => { lvl with nodes := (modIdx (fun n => { n with data := some d })
          lvl.nodes (specPED F x bl).1) })
        (fun lvl => ⟨rfl, kspan_modIdx_data d lvl.nodes (specPED F x bl).1⟩) _ hspD1
    · rw [keysKV_insKV_replace x d M hM hx]
      exact hbound
  · have hbrk : bottomRightKey (sl.addLevels hgt).levels
        (findInsertPath x (sl.addLevels hgt).levels none (-1)) ≠ some x := by
      intro hcon
      exact hx ((bottomRightKey_spec_fst M hM _ hsw1 x _ hfst).mp hcon)
    have heqn := insert_eq_new sl x d hgt (specPED F x bl) hplast hbrk
    refine ⟨fun y => if y = x then pkeyF F (lastKeyLt x bl.nodes none) + 1
      else F y + (if x < y then 1 else 0), ?_, ?_⟩
    · rw [heqn]
      show spanOKD _ (insertStep x d ((specPED F x bl).2 + 1) hgt
        (sl.addLevels hgt).levels
        (findInsertPath x (sl.addLevels hgt).levels none (-1))
        ((sl.addLevels hgt).levels.length - 1))
      rw [hpath]
      exact insertStep_spanOKD x d ((specPED F x bl).2 + 1) hgt F
        (fun y => if y = x then pkeyF F (lastKeyLt x bl.nodes none) + 1
          else F y + (if x < y then 1 else 0))
        (fun y hy => by simp [if_neg hy])
        (by simp [specPED])
        (sl.addLevels hgt).levels ((sl.addLevels hgt).levels.length - 1) hspD1
        (fun lvl hl => ⟨sortedContig_sorted _ hsc lvl hl,
          fun m hm he => hx (he ▸ SWFlevels_keys_sub M _ hsw1 lvl hl m hm)⟩)
    · intro k hk
      have hksort : (keysKV M).Pairwise (· < ·) :=
        List.Pairwise.map _ (fun a b hab => hab) hM
      have hpos := posIn_insKV x d M hM hx k
      by_cases hkx : k = x
      · subst hkx
        show (if k = k then pkeyF F (lastKeyLt k bl.nodes none) + 1
          else F k + (if k < k then 1 else 0)) ≤ posIn (keysKV (insKV k d M)) k
        rw [if_pos rfl]
        have hposx : posIn (keysKV (insKV k d M)) k = posIn (keysKV M) k := by
          rw [hpos]
          simp
        rw [hposx]
        cases hlk : lastKeyLt k bl.nodes none with
        | none =>
          have h0 := posIn_nonneg (keysKV M) k
          show pkeyF F none + 1 ≤ posIn (keysKV M) k
          show (-1 : Int) + 1 ≤ posIn (keysKV M) k
          omega
        | some a =>
          have hamem : a ∈ keysOf bl.nodes := by
            rcases lastKeyLt_mem k bl.nodes none a hlk with h | h
            · exact h
            · cases h
          have halt : a < k := lastKeyLt_lt k bl.nodes none (by rintro c ⟨⟩) a hlk
          rw [keysOf_of_levelKD bl.nodes M hkd] at hamem
          have hlt := posIn_lt_of_mem_lt (keysKV M) hksort a k hamem halt
          have hFa := hbound a hamem
          show pkeyF F (some a) + 1 ≤ posIn (keysKV M) k
          show F a + 1 ≤ posIn (keysKV M) k
          omega
      · have hkM : k ∈ keysKV M := by
          rcases List.mem_map.mp hk with ⟨q, hq, hqk⟩
          rcases mem_insKV x d M q hq with rfl | hq2
          · exact absurd (by simpa using hqk.symm : k = x) hkx
          · exact List.mem_map.mpr ⟨q, hq2, hqk⟩
        have hb := hbound k hkM
        show (if k = x then pkeyF F (lastKeyLt x bl.nodes none) + 1
          else F k + (if x < k then 1 else 0)) ≤ posIn (keysKV (insKV x d M)) k
        rw [if_neg hkx, hpos]
        by_cases hxk : x < k <;> simp [hxk] <;> omega

/-- Helper: `delete` preserves the drift invariant from any reachable
state, present and absent targets alike. -/
theorem delete_DriftInv (sl : SkipList) (M : List (Int × Int))
    (hM : M.Pairwise (fun a b => a.1 < b.1)) (hsw : SWFlevels M sl.levels)
    (F : Int → Int) (hD : DriftInv M sl F) (x : Int) :
    ∃ F2, DriftInv (delKV x M) (sl.delete x) F2 := by
  rcases hD with ⟨hspD, hbound⟩
  have hsc := SWFlevels_sortedContig M hM sl.levels hsw
  have hfst := findInsertPath_fst x sl.levels none (-1) hsc (skOK_none x _)
  refine ⟨fun y => F y - (if x < y then 1 else 0), ?_, ?_⟩
  · show spanOKD _ (deleteStep x sl.levels (findInsertPath x sl.levels none (-1)))
    exact deleteStep_spanOKD x F _ (fun y => rfl) sl.levels _ hspD
      (fun lvl hl => sortedContig_sorted _ hsc lvl hl) hfst
  · intro k hk
    by_cases hx : x ∈ keysKV M
    · have hkM : k ∈ keysKV M := ((mem_keys_delKV x M hM hx k).mp hk).1
      have hpos := posIn_delKV x M hM hx k
      have hb := hbound k hkM
      show F k - (if x < k then 1 else 0) ≤ posIn (keysKV (delKV x M)) k
      rw [hpos]
      by_cases hxk : x < k <;> simp [hxk] <;> omega
    · rw [delKV_not_mem x M hx] at hk ⊢
      have hb := hbound k hk
      show F k - (if x < k then 1 else 0) ≤ posIn (keysKV M) k
      by_cases hxk : x < k <;> simp [hxk] <;> omega

/-- Helper: every reachable state carries the drift invariant for some
rank function. -/
theorem foldl_DriftInv (ops : List Op) :
    ∀ (sl : SkipList) (M : List (Int × Int)) (F : Int → Int),
      HValid ops → M.Pairwise (fun a b => a.1 < b.1) → SWFlevels M sl.levels →
      DriftInv M sl F →
      ∃ F2, DriftInv (ops.foldl applyKV M) (ops.foldl applyOp sl) F2 := by
  induction ops with
  | nil => intro sl M F _ _ _ hD; exact ⟨F, hD⟩
  | cons op rest ih =>
    intro sl M F hv hM hsw hD
    cases op with
    | ins k d h =>
      rcases hv with ⟨hh, hv2⟩
      rcases insert_DriftInv sl M hM hsw F hD k d h with ⟨F2, hD2⟩
      exact ih (sl.insert k d h) (insKV k d M) F2 hv2 (insKV_sorted k d M hM)
        (insert_SWF sl M hM hsw k d h hh) hD2
    | del k =>
      rcases delete_DriftInv sl M hM hsw F hD k with ⟨F2, hD2⟩
      exact ih (sl.delete k) (delKV k M) F2 hv (delKV_sorted k M hM)
        (delete_SWF sl M hM hsw k) hD2

/-- Helper: the drift invariant of every reachable state. -/
theorem runOps_DriftInv (ops : List Op) (hv : HValid ops) :
    ∃ F, DriftInv (modelOf ops) (runOps ops) F := by
  refine foldl_DriftInv ops SkipList.empty [] (fun _ => 0) hv List.Pairwise.nil rfl ?_
  refine ⟨?_, ?_⟩
  · intro lvl hl
    have hE : SkipList.empty.levels = [SLevel.mk 1 []] := rfl
    rw [hE] at hl
    rcases (by simpa using hl : lvl = SLevel.mk 1 []) with rfl
    trivial
  · intro k hk
    simp [keysKV] at hk

/-- Helper: on every reachable state (drift included), `findByRank` at or
beyond the number of stored keys runs every level to its end and reports
not-found. -/
theorem byRank_none_of_DriftInv (sl : SkipList) (M : List (Int × Int)) (F : Int → Int)
    (hM : M.Pairwise (fun a b => a.1 < b.1))
    (hsw : SWFlevels M sl.levels) (hD : DriftInv M sl F) (r : Int)
    (hr : (M.length : Int) ≤ r) :
    sl.findByRank r = none := by
  have hlen : (keysKV M).length = M.length := by simp [keysKV]
  have hFB : ∀ k ∈ keysKV M, F k < r := by
    intro k hk
    have h1 := hD.2 k hk
    have h2 := posIn_mem_lt (keysKV M) k hk
    omega
  have hsc := SWFlevels_sortedContig M hM sl.levels hsw
  have hkB := SWFlevels_keys_sub M sl.levels hsw
  have hskr : pkeyF F none < r := by
    show (-1 : Int) < r
    omega
  have h := byRankLevelsD_none r F (keysKV M) hFB sl.levels none hD.1 hsc hkB
    (by cases sl.levels <;> trivial) hskr
  rw [SkipList.findByRank, show (-1 : Int) = pkeyF F none from rfl]
  exact h

/-- Helper: on every reachable state (drift included), `findRankOfKey`
reports not-found on an absent key. -/
theorem rankOf_absent (sl : SkipList) (M : List (Int × Int)) (h : SWF sl M) (x : Int)
    (hx : x ∉ keysKV M) :
    sl.findRankOfKey x = none := by
  rcases h with ⟨hM, hlv⟩
  rcases SWFlevels_getLast M sl.levels hlv with ⟨bl, hlast, hkd⟩
  have hsc := SWFlevels_sortedContig M hM sl.levels hlv
  have hfst := findInsertPath_fst x sl.levels none (-1) hsc
    (by cases sl.levels <;> simp [skOK])
  have hplast : ((findInsertPath x sl.levels none (-1)).getLast?).map Prod.fst =
      some (countLt x bl.nodes) := by
    rw [← List.getLast?_map, hfst, List.getLast?_map, hlast]
    rfl
  cases hpr : (findInsertPath x sl.levels none (-1)).getLast? with
  | none => rw [hpr] at hplast; cases hplast
  | some pr =>
    rw [hpr] at hplast
    have hpr1 : pr.1 = countLt x bl.nodes := by simpa using hplast
    have hred : sl.findRankOfKey x =
        (match bl.nodes[pr.1]? with
         | some n => if n.key = x then some (pr.2 + 1) else none
         | none => none) := by
      rw [SkipList.findRankOfKey, hlast, hpr]
    rw [hred, hpr1]
    have hxk : x ∉ keysOf bl.nodes := by
      rw [keysOf_of_levelKD bl.nodes M hkd]
      exact hx
    cases hget : bl.nodes[countLt x bl.nodes]? with
    | none => rfl
    | some n =>
      have hne := countLt_notfound x bl.nodes hxk n hget
      show (if n.key = x then some (pr.2 + 1) else none) = none
      rw [if_neg hne]

/-- C5 (amended): on every reachable state (span drift included) with
element count `n`, `findByRank r` reports not-found for every `r ≥ n`,
and `find` and `findRankOfKey` report not-found on every key never
inserted.  (The original claim also demanded not-found for `r < 0`,
which fails: `findByRank (-1)` can return a payload.) -/
theorem c5_bounds (ops : List Op) (hv : HValid ops) (r : Int)
    (hr : ((modelOf ops).length : Int) ≤ r) (k : Int)
    (hk : k ∉ keysKV (modelOf ops)) :
    (runOps ops).findByRank r = none ∧ (runOps ops).find k = none ∧
    (runOps ops).findRankOfKey k = none := by
  rcases runOps_SWF ops hv with ⟨hM, hsw⟩
  rcases runOps_DriftInv ops hv with ⟨F, hD⟩
  refine ⟨?_, ?_, ?_⟩
  · exact byRank_none_of_DriftInv (runOps ops) (modelOf ops) F hM hsw hD r hr
  · rw [find_eq_lookup _ _ ⟨hM, hsw⟩ k]
    refine lookupKV_none k _ ?_
    intro p hp he
    exact hk (he ▸ List.mem_map.mpr ⟨p, hp, rfl⟩)
  · exact rankOf_absent (runOps ops) (modelOf ops) ⟨hM, hsw⟩ k hk

theorem c5_bounds_witness :
    (runOps [Op.ins 1 10 1]).findByRank 1 = none ∧
    (runOps [Op.ins 1 10 1]).find 7 = none ∧
    (runOps [Op.ins 1 10 1]).findRankOfKey 7 = none :=
  c5_bounds [Op.ins 1 10 1] ⟨by decide, trivial⟩ 1 (by decide) 7 (by decide)
